import Mathlib

/-!  Formal verification of the NovelCreate timeline view
(`src/components/TimelineView.tsx`): a shallow embedding of its date
normalizer, layout engine, connection router, hover highlighter and
drop-target resolver, with theorems about their behavior.  -/

set_option maxRecDepth 10000
set_option maxHeartbeats 1000000

namespace NovelTimeline

/-
Shallow embedding of the Timeline Layout & Routing Engine of the
NovelCreate repository (src/components/TimelineView.tsx).

Conventions of the embedding:
* JavaScript numbers are idealized as exact rationals (`ℚ`) extended with
  the two infinities (`JsNum`); `NaN` is represented by `Option.none` at
  the two sites where it can arise (`jsParseFloat`, the `Date.UTC` range
  clip) and is immediately eliminated there, exactly as in the source
  (`numericValue || 0`, `isNaN(date) ? Infinity : date`).
* Strings are Lean `String`s; the anchored regular expressions of the
  source are implemented as character-list parsers with the same
  semantics (anchored at the start, trailing garbage ignored).
* JavaScript `Map` insertion-order semantics are modelled by association
  lists with `jsMapSet` (update in place, append when new).
-/

/-- JavaScript number values produced by this program: finite values
(idealized as exact rationals) or `±Infinity`. -/
inductive JsNum where
  | negInf : JsNum
  | fin : ℚ → JsNum
  | posInf : JsNum
deriving DecidableEq, Repr

/-- The `<` comparison on JavaScript numbers (no `NaN` here). -/
def JsNum.blt : JsNum → JsNum → Bool
  | .negInf, .negInf => false
  | .negInf, _ => true
  | .fin _, .negInf => false
  | .fin a, .fin b => decide (a < b)
  | .fin _, .posInf => true
  | .posInf, _ => false

instance : LT JsNum := ⟨fun a b => a.blt b = true⟩

instance (a b : JsNum) : Decidable (a < b) :=
  inferInstanceAs (Decidable (a.blt b = true))

/-- Adding a finite number to a JavaScript number (`eraBaseValue + v`). -/
def JsNum.addFin (q : ℚ) : JsNum → JsNum
  | .negInf => .negInf
  | .fin r => .fin (q + r)
  | .posInf => .posInf

/-- The JavaScript coercion `v || 0` applied to a possibly-`NaN` number:
`NaN` becomes `0` (and `0` stays `0`, so only the `none` case matters). -/
def orZero : Option JsNum → JsNum
  | none => .fin 0
  | some v => v

/-- JavaScript `\s` / `StrWhiteSpace` character class. -/
def isJsSpace (c : Char) : Bool :=
  c = ' ' || c = '\t' || c = '\n' || c = '\r' ||
  c.toNat = 0x0b || c.toNat = 0x0c || c.toNat = 0xa0 || c.toNat = 0x1680 ||
  (0x2000 ≤ c.toNat && c.toNat ≤ 0x200a) ||
  c.toNat = 0x2028 || c.toNat = 0x2029 || c.toNat = 0x202f ||
  c.toNat = 0x205f || c.toNat = 0x3000 || c.toNat = 0xfeff

/-- JavaScript `String.prototype.trim`. -/
def jsTrimList (l : List Char) : List Char :=
  ((l.dropWhile isJsSpace).reverse.dropWhile isJsSpace).reverse

/-- `pat.isPrefixOf l` for character lists (JS `startsWith`). -/
def listStartsWith : List Char → List Char → Bool
  | [], _ => true
  | _ :: _, [] => false
  | a :: as, b :: bs => a == b && listStartsWith as bs

/-- Numeric value of a decimal digit string. -/
def digitsToNat (l : List Char) : ℕ :=
  l.foldl (fun a c => a * 10 + (c.toNat - 48)) 0

/-- Value of `intD.fracD` as an exact rational. -/
def decimalOfDigits (intD fracD : List Char) : ℚ :=
  (digitsToNat intD : ℚ) + (digitsToNat fracD : ℚ) / (10 : ℚ) ^ fracD.length

/-- Match `n` decimal digits exactly (the regex `\d{n}` mid-pattern:
takes the first `n` characters, which must all be digits; anything
after them is left over). -/
def takeExactDigits (n : ℕ) (l : List Char) : Option (ℕ × List Char) :=
  let ds := l.take n
  if ds.length = n && ds.all Char.isDigit then some (digitsToNat ds, l.drop n)
  else none

/-- Strip the alternation `(?:公元前|BC)` (case-insensitive) followed by
`\s*`; `none` when the prefix is absent. -/
def bcStrip (l : List Char) : Option (List Char) :=
  if listStartsWith ['公', '元', '前'] l then
    some ((l.drop 3).dropWhile isJsSpace)
  else
    match l with
    | b :: c :: rest =>
      if (b == 'B' || b == 'b') && (c == 'C' || c == 'c') then
        some (rest.dropWhile isJsSpace)
      else none
    | _ => none

/-- The capture of `/^(?:公元前|BC)\s*(\d+(\.\d+)?)/i` as an exact
rational (the source feeds the capture to `parseFloat`). -/
def bcMatchValue (l : List Char) : Option ℚ :=
  match bcStrip l with
  | none => none
  | some rest =>
    let intD := rest.takeWhile Char.isDigit
    if intD.isEmpty then none
    else
      match rest.dropWhile Char.isDigit with
      | '.' :: r3 =>
        let fracD := r3.takeWhile Char.isDigit
        if fracD.isEmpty then some (digitsToNat intD)
        else some (decimalOfDigits intD fracD)
      | _ => some (digitsToNat intD)

/-- The capture of `/^(?:公元前|BC)\s*(\d+)/i` (digit characters,
kept verbatim for the day key). -/
def bcMatchDigits (l : List Char) : Option (List Char) :=
  match bcStrip l with
  | none => none
  | some rest =>
    let ds := rest.takeWhile Char.isDigit
    if ds.isEmpty then none else some ds

/-- Match one literal character. -/
def expectChar (c : Char) : List Char → Option (List Char)
  | x :: r => if x = c then some r else none
  | [] => none

/-- The optional time group `(?:\s+(\d{2}):(\d{2}):(\d{2}))?`. -/
def gregTime (l : List Char) : Option (ℕ × ℕ × ℕ) :=
  if (l.takeWhile isJsSpace).isEmpty then none
  else
    match takeExactDigits 2 (l.dropWhile isJsSpace) with
    | none => none
    | some (h, r1) =>
      match expectChar ':' r1 with
      | none => none
      | some r2 =>
        match takeExactDigits 2 r2 with
        | none => none
        | some (mi, r3) =>
          match expectChar ':' r3 with
          | none => none
          | some r4 =>
            match takeExactDigits 2 r4 with
            | none => none
            | some (s, _) => some (h, mi, s)

/-- `/^(\d{4})-(\d{2})-(\d{2})(?:\s+(\d{2}):(\d{2}):(\d{2}))?/` on the
trimmed string: year, month, day and the optional time triple. -/
def gregMatch (l : List Char) : Option (ℕ × ℕ × ℕ × Option (ℕ × ℕ × ℕ)) :=
  match takeExactDigits 4 l with
  | none => none
  | some (y, r1) =>
    match expectChar '-' r1 with
    | none => none
    | some r2 =>
      match takeExactDigits 2 r2 with
      | none => none
      | some (mo, r3) =>
        match expectChar '-' r3 with
        | none => none
        | some r4 =>
          match takeExactDigits 2 r4 with
          | none => none
          | some (d, r5) => some (y, mo, d, gregTime r5)

/-- ECMAScript `DaysFromYear`: day number (relative to 1970-01-01) of
January 1 of year `y`. Lean's `/` on `ℤ` is Euclidean division, which
is `floor` for the positive divisors used here. -/
def daysFromYear (y : ℤ) : ℤ :=
  365 * (y - 1970) + (y - 1969) / 4 - (y - 1901) / 100 + (y - 1601) / 400

/-- Proleptic Gregorian leap-year test (ECMAScript `DaysInYear = 366`). -/
def isLeapYear (y : ℤ) : Bool :=
  ((y % 4 == 0) && (y % 100 != 0)) || (y % 400 == 0)

/-- Cumulative days before each month in a non-leap year. -/
def monthStartTable : List ℕ := [0, 31, 59, 90, 120, 151, 181, 212, 243, 273, 304, 334]

/-- Day-of-year (0-based) on which month `mn ∈ [0, 11]` starts: the
common-year table plus one from March on in leap years. -/
def monthStartDays (mn : ℤ) (leap : Bool) : ℤ :=
  (monthStartTable.getD mn.toNat 334 : ℤ) + (if 2 ≤ mn ∧ leap = true then 1 else 0)

/-- ECMAScript `MakeDay(y, m, d)`: month overflow is normalized
(`ym = y + ⌊m/12⌋`, `mn = m mod 12`), then the day number is formed. -/
def makeDay (y m d : ℤ) : ℤ :=
  let ym := y + m / 12
  let mn := m % 12
  daysFromYear ym + monthStartDays mn (isLeapYear ym) + (d - 1)

/-- `Date.UTC(y, m, d, h, mi, s)` in milliseconds, including the
ECMAScript `MakeFullYear` rule mapping years `0..99` to `1900..1999`.
`none` models the `TimeClip` range check producing `NaN`. -/
def jsDateUTC (y m d h mi s : ℤ) : Option ℤ :=
  let yr := if 0 ≤ y ∧ y ≤ 99 then 1900 + y else y
  let ms := makeDay yr m d * 86400000 + h * 3600000 + mi * 60000 + s * 1000
  if ms.natAbs > 8640000000000000 then none else some ms

/-- Continuation of `parseFloat` after the mantissa: an optional
exponent part `[eE][+-]?\d+` (left unconsumed when incomplete). -/
def applyExp (m : ℚ) (l : List Char) : ℚ :=
  let cont : List Char → ℚ := fun r =>
    let (sgn, r2) : ℤ × List Char :=
      match r with
      | '-' :: r2 => (-1, r2)
      | '+' :: r2 => (1, r2)
      | _ => (1, r)
    let ds := r2.takeWhile Char.isDigit
    if ds.isEmpty then m else m * (10 : ℚ) ^ (sgn * (digitsToNat ds : ℤ))
  match l with
  | 'e' :: r => cont r
  | 'E' :: r => cont r
  | _ => m

/-- JavaScript `parseFloat`: leading whitespace skipped, optional sign,
`Infinity` literal or decimal mantissa with optional exponent, trailing
garbage ignored; `none` is `NaN`. -/
def jsParseFloat (l : List Char) : Option JsNum :=
  let t := l.dropWhile isJsSpace
  let (neg, r) : Bool × List Char :=
    match t with
    | '-' :: r => (true, r)
    | '+' :: r => (false, r)
    | _ => (false, t)
  if listStartsWith ['I', 'n', 'f', 'i', 'n', 'i', 't', 'y'] r then
    some (if neg then .negInf else .posInf)
  else
    let intD := r.takeWhile Char.isDigit
    let r2 := r.dropWhile Char.isDigit
    match r2 with
    | '.' :: r3 =>
      let fracD := r3.takeWhile Char.isDigit
      if intD.isEmpty && fracD.isEmpty then none
      else
        let mant : ℚ := decimalOfDigits intD fracD
        let mant := if neg then -mant else mant
        some (.fin (applyExp mant (r3.dropWhile Char.isDigit)))
    | _ =>
      if intD.isEmpty then none
      else
        let mant : ℚ := (digitsToNat intD : ℚ)
        let mant := if neg then -mant else mant
        some (.fin (applyExp mant r2))

/-- `ERA_MULTIPLIER = 1e14`. -/
def ERA_MULT : ℚ := 100000000000000

/-- `anchorIndex`: position of the Gregorian anchor era `公元纪年` in
`eraOrder`, `0` when absent (`findIndex === -1 ? 0 : idx`). -/
def anchorIndex (eraOrder : List String) : ℕ :=
  (eraOrder.findIdx? (· == "公元纪年")).getD 0

/-- First era of `eraOrder` (with its index) that is a prefix of the
trimmed date string. -/
def firstEraMatchFrom (t : List Char) : List String → ℕ → Option (ℕ × String)
  | [], _ => none
  | e :: rest, i =>
    if listStartsWith e.data t then some (i, e)
    else firstEraMatchFrom t rest (i + 1)

def firstEraMatch (t : List Char) (eraOrder : List String) : Option (ℕ × String) :=
  firstEraMatchFrom t eraOrder 0

/-- `valueStr.split('.')` destructured as `[year, fraction]`: the part
before the first dot, and the part between the first and second dot. -/
def splitFirstTwo (l : List Char) : List Char × Option (List Char) :=
  let year := l.takeWhile (fun c => c != '.')
  match l.dropWhile (fun c => c != '.') with
  | '.' :: r => (year, some (r.takeWhile (fun c => c != '.')))
  | _ => (year, none)

/-- `(fraction || '').padEnd(10, '0')`. -/
def padEndZeros (l : List Char) (n : ℕ) : List Char :=
  l ++ List.replicate (n - l.length) '0'

/-- The numeric era value `parseFloat(`${year}.${paddedFraction}`)`
computed from the remainder of the date string after the era name. -/
def eraNumericValue (valueStr : List Char) : Option JsNum :=
  let (yearPart, fracPart) := splitFirstTwo valueStr
  jsParseFloat (yearPart ++ '.' :: padEndZeros (fracPart.getD []) 10)

/-- `normalizeDate(dateString, eraOrder)` from `TimelineView.tsx`:
BC dates, Gregorian dates via `Date.UTC`, then custom eras, with
`Infinity` as the unsortable sentinel. -/
def normalizeDate (dateString : String) (eraOrder : List String) : JsNum :=
  if dateString = "" then .posInf else
  let t := jsTrimList dateString.data
  match bcMatchValue t with
  | some v => .fin (-v)
  | none =>
    match gregMatch t with
    | some (y, mo, d, time) =>
      let (h, mi, s) := time.getD (0, 0, 0)
      match jsDateUTC (y : ℤ) ((mo : ℤ) - 1) (d : ℤ) (h : ℤ) (mi : ℤ) (s : ℤ) with
      | none => .posInf
      | some ms => .fin (ms : ℚ)
    | none =>
      match firstEraMatch t eraOrder with
      | some (i, era) =>
        let valueStr := jsTrimList (t.drop era.data.length)
        let base : ℚ := (((i : ℤ) - (anchorIndex eraOrder : ℤ)) : ℚ) * ERA_MULT
        (orZero (eraNumericValue valueStr)).addFin base
      | none => .posInf

/-- Shape test for `/^(\d{4}-\d{2}-\d{2})/`. -/
def isGregDayShape (l : List Char) : Bool :=
  match l with
  | y1 :: y2 :: y3 :: y4 :: '-' :: m1 :: m2 :: '-' :: d1 :: d2 :: _ =>
    y1.isDigit && y2.isDigit && y3.isDigit && y4.isDigit &&
    m1.isDigit && m2.isDigit && d1.isDigit && d2.isDigit
  | _ => false

/-- `getDayKey(dateString)` from `TimelineView.tsx`. -/
def getDayKey (dateString : String) : String :=
  if dateString = "" then "NoDate" else
  let t := jsTrimList dateString.data
  match bcMatchDigits t with
  | some ds => "BC-" ++ String.mk ds
  | none =>
    if isGregDayShape t then String.mk (t.take 10)
    else
      let pre := t.takeWhile (fun c => c != ' ')
      if pre.length < t.length && 0 < pre.length then
        let yearPart := (t.drop (pre.length + 1)).takeWhile (fun c => c != '.')
        String.mk (pre ++ ' ' :: yearPart)
      else String.mk t

/-- `StoryEvent` from `types.ts` (the `charactersInvolved` field and the
transient `__connectFrom` marker are never read by the layout engine and
are omitted). An absent `storylineId`/`typeId` is `none`; JavaScript
truthiness additionally treats the empty string as absent. -/
structure StoryEvent where
  id : String
  title : String
  date : String
  storylineId : Option String
  typeId : Option String
  description : String
deriving DecidableEq, Repr

/-- `Storyline` from `types.ts`. -/
structure Storyline where
  id : String
  name : String
  description : String
  color : String
deriving DecidableEq, Repr

/-- `EventType` from `types.ts`. -/
structure EventType where
  id : String
  name : String
  color : String
deriving DecidableEq, Repr

/-- `EventConnection` from `types.ts`. -/
structure EventConnection where
  id : String
  fromEventId : String
  toEventId : String
  description : String
deriving DecidableEq, Repr

/-- JavaScript `Map.get`. -/
def jsMapGet {β : Type} (m : List (String × β)) (k : String) : Option β :=
  (m.find? (fun p => p.1 == k)).map Prod.snd

/-- JavaScript `Map.set`: updates the existing entry in place, appends a
new entry otherwise (insertion order preserved). -/
def jsMapSet {β : Type} (m : List (String × β)) (k : String) (v : β) : List (String × β) :=
  if m.any (fun p => p.1 == k) then m.map (fun p => if p.1 == k then (k, v) else p)
  else m ++ [(k, v)]

/-- JavaScript truthiness of an optional string (`null`, `undefined`
and `''` are falsy). -/
def strTruthy : Option String → Bool
  | none => false
  | some s => !(s == "")

/-- `events.filter(e => e.storylineId && e.typeId && e.date)`. -/
def completeEventsOf (events : List StoryEvent) : List StoryEvent :=
  events.filter (fun e => strTruthy e.storylineId && strTruthy e.typeId && !(e.date == ""))

/-- Stable insertion of `x` after every element `y` with `¬ lt x y`. -/
def insertBy {α : Type} (lt : α → α → Bool) (x : α) : List α → List α
  | [] => [x]
  | y :: ys => if lt x y then x :: y :: ys else y :: insertBy lt x ys

/-- Stable sort; agrees with `Array.prototype.sort` under a consistent
comparator (ES2019 requires sort stability, and the comparator
`normalizeDate(a) - normalizeDate(b)` induces the total preorder
`blt`, with `NaN` comparator results —`∞ - ∞` — mapped to `+0` per the
`SortCompare` specification, i.e. treated as ties). -/
def stableSortBy {α : Type} (lt : α → α → Bool) (l : List α) : List α :=
  l.foldl (fun acc x => insertBy lt x acc) []

/-- The complete inputs of one layout recomputation (§6 of the spec);
`expandedEvents` is the expansion set. -/
structure EngineInput where
  events : List StoryEvent
  storylines : List Storyline
  eventConnections : List EventConnection
  eventTypes : List EventType
  eraOrder : List String
  expandedEvents : List String
deriving Repr

def sortKey (inp : EngineInput) (e : StoryEvent) : JsNum :=
  normalizeDate e.date inp.eraOrder

/-- `completeEvents.sort((a, b) => normalizeDate(a.date) - normalizeDate(b.date))`. -/
def sortedEvents (inp : EngineInput) : List StoryEvent :=
  stableSortBy (fun a b => (sortKey inp a).blt (sortKey inp b)) (completeEventsOf inp.events)

/-- Append `e` to the group of `k`, creating the group at the end when
new (insertion-ordered `Map<string, StoryEvent[]>`). -/
def groupInsert (k : String) (e : StoryEvent) (groups : List (String × List StoryEvent)) :
    List (String × List StoryEvent) :=
  if groups.any (fun p => p.1 == k) then
    groups.map (fun p => if p.1 == k then (p.1, p.2 ++ [e]) else p)
  else groups ++ [(k, [e])]

/-- Group a list of events by `getDayKey(event.date)`, preserving both
first-occurrence order of the keys and member order. -/
def groupByDay (l : List StoryEvent) : List (String × List StoryEvent) :=
  l.foldl (fun gs e => groupInsert (getDayKey e.date) e gs) []

/-- `eventsByDay` computed from the sorted complete events. -/
def eventsByDayOf (inp : EngineInput) : List (String × List StoryEvent) :=
  groupByDay (sortedEvents inp)

/-- `eventsByDay.get(k)![0].date`: date of the first member of day `k`. -/
def dayHeadDate (groups : List (String × List StoryEvent)) (k : String) : String :=
  match jsMapGet groups k with
  | some (e :: _) => e.date
  | _ => ""

/-- `sortedUniqueDays`: the day keys sorted by the order key of each
day's first event. -/
def sortedUniqueDays (inp : EngineInput) : List String :=
  let groups := eventsByDayOf inp
  stableSortBy
    (fun a b =>
      (normalizeDate (dayHeadDate groups a) inp.eraOrder).blt
        (normalizeDate (dayHeadDate groups b) inp.eraOrder))
    (groups.map Prod.fst)

/-- `eventIndentationLevels`: event id ↦ its index inside its day group. -/
def indentLevels (inp : EngineInput) : List (String × ℕ) :=
  (eventsByDayOf inp).foldl
    (fun m p => p.2.enum.foldl (fun m2 ie => jsMapSet m2 ie.2.id ie.1) m) []

/-- `Math.min(eventIndentationLevels.get(event.id) || 0, 10)`. -/
def effIndent (levels : List (String × ℕ)) (e : StoryEvent) : ℕ :=
  min ((jsMapGet levels e.id).getD 0) 10

/-- A day column's required content width: the maximum indented event
width of its members, floored at `EVENT_WIDTH` (200). -/
def contentWidth (levels : List (String × ℕ)) (group : List StoryEvent) : ℚ :=
  group.foldl (fun acc e => max acc ((effIndent levels e : ℚ) * 20 + 200)) 200

/-- `dayColumnContentWidths`. -/
def dayColumnContentWidths (inp : EngineInput) : List (String × ℚ) :=
  (eventsByDayOf inp).map (fun p => (p.1, contentWidth (indentLevels inp) p.2))

/-- A day column's geometry `{x, width}`. -/
structure ColGeo where
  x : ℚ
  width : ℚ
deriving DecidableEq, Repr

/-- Lay the day columns left to right: `currentX` starts at
`PADDING_X` (20) and advances by `width + EVENT_GAP` (gap 80). -/
def columnsFrom (widths : List (String × ℚ)) : List String → ℚ → List (String × ColGeo)
  | [], _ => []
  | k :: rest, x =>
    let w := (jsMapGet widths k).getD 200
    (k, ⟨x, w⟩) :: columnsFrom widths rest (x + w + 80)

def dayColumnGeometries (inp : EngineInput) : List (String × ColGeo) :=
  columnsFrom (dayColumnContentWidths inp) (sortedUniqueDays inp) 20

/-- The final `currentX` of the column pass. -/
def columnsEndX (inp : EngineInput) : ℚ :=
  (dayColumnGeometries inp).foldl (fun a c => a + c.2.width + 80) 20

/-- `canvasWidth`: rightmost column edge, or `2 * PADDING_X` when there
are no columns. -/
def canvasWidth (inp : EngineInput) : ℚ :=
  if (sortedUniqueDays inp).isEmpty then 40 else columnsEndX inp - 80

/-- The day groups of one storyline: the sorted complete events with
this `storylineId`, grouped by day key in encounter order (this is the
inner map of `eventsByStorylineAndDay`). -/
def storylineDayGroups (inp : EngineInput) (sid : String) : List (String × List StoryEvent) :=
  groupByDay ((sortedEvents inp).filter (fun e => e.storylineId == some sid))

/-- Height of one event: `EVENT_CARD_HEIGHT` (120) when expanded,
`CAPSULE_HEIGHT` (40) otherwise. -/
def eventHeight (expanded : List String) (e : StoryEvent) : ℚ :=
  if expanded.contains e.id then 120 else 40

/-- Adjacency check against the full connection list (either direction). -/
def isConnectedPair (conns : List EventConnection) (a b : StoryEvent) : Bool :=
  conns.any (fun c =>
    (c.fromEventId == a.id && c.toEventId == b.id) ||
    (c.fromEventId == b.id && c.toEventId == a.id))

/-- Gap below event `e` when followed by `next`:
`SAME_DAY_CONNECTED_EVENT_GAP` (40) for a connected pair, else
`SAME_DAY_VERTICAL_GAP` (25). -/
def gapBetween (conns : List EventConnection) (a b : StoryEvent) : ℚ :=
  if isConnectedPair conns a b then 40 else 25

/-- Total height of a same-day vertical stack: member heights plus the
gaps between consecutive members. -/
def stackHeight (conns : List EventConnection) (expanded : List String) :
    List StoryEvent → ℚ
  | [] => 0
  | [e] => eventHeight expanded e
  | e :: next :: rest =>
    eventHeight expanded e + gapBetween conns e next + stackHeight conns expanded (next :: rest)

/-- A storyline lane's geometry `{y, height}`. -/
structure LaneGeo where
  y : ℚ
  height : ℚ
deriving DecidableEq, Repr

/-- `maxColumnHeight` of one storyline: maximum stack height over its
day groups (0 when it has none). -/
def maxColumnHeight (inp : EngineInput) (sid : String) : ℚ :=
  (storylineDayGroups inp sid).foldl
    (fun acc p => max acc (stackHeight inp.eventConnections inp.expandedEvents p.2)) 0

/-- Lane height: `max(MIN_LANE_HEIGHT, maxColumnHeight + 2 * LANE_VERTICAL_PADDING)`
with `MIN_LANE_HEIGHT = 80` and padding 20. -/
def laneHeightOf (inp : EngineInput) (sid : String) : ℚ :=
  max 80 (maxColumnHeight inp sid + 40)

/-- One pass over the storylines accumulating `currentY`; returns the
lane map and the final `currentY`. -/
def laneGeometriesAndY (inp : EngineInput) : List (String × LaneGeo) × ℚ :=
  inp.storylines.foldl
    (fun acc s =>
      let h := laneHeightOf inp s.id
      (jsMapSet acc.1 s.id ⟨acc.2, h⟩, acc.2 + h))
    ([], 0)

def laneGeometries (inp : EngineInput) : List (String × LaneGeo) :=
  (laneGeometriesAndY inp).1

/-- `totalHeight`: the summed lane heights, floored at `MIN_LANE_HEIGHT`
when there are no lanes. -/
def totalHeight (inp : EngineInput) : ℚ :=
  let c := (laneGeometriesAndY inp).2
  if 0 < c then c else 80

/-- One computed event rectangle. The source also stores the resolved
`storyline` and `eventType` objects (used only for rendering colors);
the geometry and the event are what the router and the claims read. -/
structure LayoutEntry where
  x : ℚ
  y : ℚ
  width : ℚ
  height : ℚ
  event : StoryEvent
deriving DecidableEq, Repr

/-- `eventTypes.find(et => et.id === event.typeId)`. -/
def findEventType (eventTypes : List EventType) (e : StoryEvent) : Option EventType :=
  eventTypes.find? (fun et => some et.id == e.typeId)

/-- Walk one same-day stack from `yCur`: a member whose event type does
not resolve is skipped entirely — the source's `if (!eventType) continue`
also skips the `currentStackY` advance — while a member whose type
resolves gets a rectangle at the running `currentStackY`, which then
advances by `height + gap` (the gap still reads the next member of the
original group, resolved or not). -/
def placeStack (inp : EngineInput) (levels : List (String × ℕ)) (baseX : ℚ) :
    List StoryEvent → ℚ → List (String × LayoutEntry) → List (String × LayoutEntry)
  | [], _, m => m
  | e :: rest, yCur, m =>
    match findEventType inp.eventTypes e with
    | none => placeStack inp levels baseX rest yCur m
    | some _ =>
      let h := eventHeight inp.expandedEvents e
      let gap : ℚ :=
        match rest with
        | [] => 25
        | next :: _ => gapBetween inp.eventConnections e next
      placeStack inp levels baseX rest (yCur + h + gap)
        (jsMapSet m e.id ⟨baseX + (effIndent levels e : ℚ) * 20, yCur, 200, h, e⟩)

/-- `eventLayouts`: for every storyline, for every of its day groups
with a known column, stack the group vertically centered in the lane. -/
def eventLayouts (inp : EngineInput) : List (String × LayoutEntry) :=
  inp.storylines.foldl
    (fun m s =>
      match jsMapGet (laneGeometries inp) s.id with
      | none => m
      | some laneGeo =>
        (storylineDayGroups inp s.id).foldl
          (fun m2 p =>
            match jsMapGet (dayColumnGeometries inp) p.1 with
            | none => m2
            | some col =>
              let sh := stackHeight inp.eventConnections inp.expandedEvents p.2
              placeStack inp (indentLevels inp) col.x p.2
                (laneGeo.y + (laneGeo.height - sh) / 2) m2)
          m)
    []

/-- One of the four anchor sides of an event rectangle. -/
inductive Side where
  | top
  | bottom
  | left
  | right
deriving DecidableEq, Repr

/-- The per-event record of `portUsage`: running counts and precomputed
totals for each side. -/
structure PortCounts where
  top : ℕ
  bottom : ℕ
  left : ℕ
  right : ℕ
  topTotal : ℕ
  bottomTotal : ℕ
  leftTotal : ℕ
  rightTotal : ℕ
deriving DecidableEq, Repr

def PortCounts.zero : PortCounts := ⟨0, 0, 0, 0, 0, 0, 0, 0⟩

def PortCounts.count (pc : PortCounts) : Side → ℕ
  | .top => pc.top
  | .bottom => pc.bottom
  | .left => pc.left
  | .right => pc.right

def PortCounts.total (pc : PortCounts) : Side → ℕ
  | .top => pc.topTotal
  | .bottom => pc.bottomTotal
  | .left => pc.leftTotal
  | .right => pc.rightTotal

def PortCounts.incCount (pc : PortCounts) : Side → PortCounts
  | .top => { pc with top := pc.top + 1 }
  | .bottom => { pc with bottom := pc.bottom + 1 }
  | .left => { pc with left := pc.left + 1 }
  | .right => { pc with right := pc.right + 1 }

def PortCounts.incTotal (pc : PortCounts) : Side → PortCounts
  | .top => { pc with topTotal := pc.topTotal + 1 }
  | .bottom => { pc with bottomTotal := pc.bottomTotal + 1 }
  | .left => { pc with leftTotal := pc.leftTotal + 1 }
  | .right => { pc with rightTotal := pc.rightTotal + 1 }

/-- `if (!portUsage.has(id)) portUsage.set(id, zeros)`. -/
def ensurePort (m : List (String × PortCounts)) (k : String) : List (String × PortCounts) :=
  if (jsMapGet m k).isSome then m else jsMapSet m k PortCounts.zero

def portGet (m : List (String × PortCounts)) (k : String) : PortCounts :=
  (jsMapGet m k).getD PortCounts.zero

def bumpTotal (m : List (String × PortCounts)) (k : String) (s : Side) :
    List (String × PortCounts) :=
  jsMapSet m k ((portGet m k).incTotal s)

def bumpCount (m : List (String × PortCounts)) (k : String) (s : Side) :
    List (String × PortCounts) :=
  jsMapSet m k ((portGet m k).incCount s)

/-- The (event id, side) pairs a connection contributes ports to, empty
when the connection is dropped by the guards; both router passes
increment exactly these. -/
def connSides (layouts : List (String × LayoutEntry)) (cols : List (String × ColGeo))
    (c : EventConnection) : List (String × Side) :=
  match jsMapGet layouts c.fromEventId, jsMapGet layouts c.toEventId with
  | some fr, some tn =>
    if getDayKey fr.event.date == getDayKey tn.event.date then
      if decide (fr.y < tn.y) then [(fr.event.id, .bottom), (tn.event.id, .top)]
      else [(fr.event.id, .top), (tn.event.id, .bottom)]
    else
      match jsMapGet cols (getDayKey fr.event.date), jsMapGet cols (getDayKey tn.event.date) with
      | some fc, some tc =>
        if decide (fc.x < tc.x) then [(fr.event.id, .right), (tn.event.id, .left)]
        else [(fr.event.id, .left), (tn.event.id, .right)]
      | _, _ => []
  | _, _ => []

/-- First router pass: create the per-event record and count, per side,
how many connections will anchor there. -/
def routePass1 (layouts : List (String × LayoutEntry)) (cols : List (String × ColGeo))
    (conns : List EventConnection) : List (String × PortCounts) :=
  conns.foldl
    (fun m c =>
      match jsMapGet layouts c.fromEventId, jsMapGet layouts c.toEventId with
      | some fr, some tn =>
        let m1 := ensurePort m fr.event.id
        let m2 := ensurePort m1 tn.event.id
        if getDayKey fr.event.date == getDayKey tn.event.date then
          if decide (fr.y < tn.y) then bumpTotal (bumpTotal m2 fr.event.id .bottom) tn.event.id .top
          else bumpTotal (bumpTotal m2 fr.event.id .top) tn.event.id .bottom
        else
          match jsMapGet cols (getDayKey fr.event.date), jsMapGet cols (getDayKey tn.event.date) with
          | some fc, some tc =>
            if decide (fc.x < tc.x) then
              bumpTotal (bumpTotal m2 fr.event.id .right) tn.event.id .left
            else bumpTotal (bumpTotal m2 fr.event.id .left) tn.event.id .right
          | _, _ => m2
      | _, _ => m)
    []

/-- A routed connection: endpoint anchors and the two cubic Bezier
control points (the data from which the SVG `path` string is printed). -/
structure ConnPath where
  fromX : ℚ
  fromY : ℚ
  ctrl1X : ℚ
  ctrl1Y : ℚ
  ctrl2X : ℚ
  ctrl2Y : ℚ
  toX : ℚ
  toY : ℚ
deriving DecidableEq, Repr

/-- State of the second router pass. `log` is a ghost record of the port
assignments, listing in assignment order each (event id, side,
coordinate along that side) produced for the paths. -/
structure RouteState where
  usage : List (String × PortCounts)
  paths : List (String × ConnPath)
  log : List (String × Side × ℚ)
deriving Repr

/-- Second router pass, one connection: increment the side counters and
place the anchors at `count / (total + 1)` of the side length. -/
def routeStep (layouts : List (String × LayoutEntry)) (cols : List (String × ColGeo))
    (st : RouteState) (c : EventConnection) : RouteState :=
  match jsMapGet layouts c.fromEventId, jsMapGet layouts c.toEventId with
  | some fr, some tn =>
    if getDayKey fr.event.date == getDayKey tn.event.date then
      let isFromOnTop := decide (fr.y < tn.y)
      let startPort : Side := if isFromOnTop then .bottom else .top
      let endPort : Side := if isFromOnTop then .top else .bottom
      let u1 := bumpCount st.usage fr.event.id startPort
      let u2 := bumpCount u1 tn.event.id endPort
      let fu := portGet u2 fr.event.id
      let tu := portGet u2 tn.event.id
      let startX := fr.x + fr.width * ((fu.count startPort : ℚ) / ((fu.total startPort : ℚ) + 1))
      let startY := if isFromOnTop then fr.y + fr.height else fr.y
      let endX := tn.x + tn.width * ((tu.count endPort : ℚ) / ((tu.total endPort : ℚ) + 1))
      let endY := if isFromOnTop then tn.y else tn.y + tn.height
      let off := |endY - startY| / 2
      let dir : ℚ := if isFromOnTop then 1 else -1
      { usage := u2
        paths := jsMapSet st.paths c.id
          ⟨startX, startY, startX, startY + off * dir, endX, endY - off * dir, endX, endY⟩
        log := st.log ++ [(fr.event.id, startPort, startX), (tn.event.id, endPort, endX)] }
    else
      match jsMapGet cols (getDayKey fr.event.date), jsMapGet cols (getDayKey tn.event.date) with
      | some fc, some tc =>
        let isForward := decide (fc.x < tc.x)
        let fromX := if isForward then fr.x + fr.width else fr.x
        let fromPort : Side := if isForward then .right else .left
        let u1 := bumpCount st.usage fr.event.id fromPort
        let fu := portGet u1 fr.event.id
        let fromY := fr.y + fr.height * ((fu.count fromPort : ℚ) / ((fu.total fromPort : ℚ) + 1))
        let toX := if isForward then tn.x else tn.x + tn.width
        let toPort : Side := if isForward then .left else .right
        let u2 := bumpCount u1 tn.event.id toPort
        let tu := portGet u2 tn.event.id
        let toY := tn.y + tn.height * ((tu.count toPort : ℚ) / ((tu.total toPort : ℚ) + 1))
        let cpo := (toX - fromX) / 2
        { usage := u2
          paths := jsMapSet st.paths c.id
            ⟨fromX, fromY, fromX + cpo, fromY, toX - cpo, toY, toX, toY⟩
          log := st.log ++ [(fr.event.id, fromPort, fromY), (tn.event.id, toPort, toY)] }
      | _, _ => st
  | _, _ => st

def routePass2 (layouts : List (String × LayoutEntry)) (cols : List (String × ColGeo))
    (conns : List EventConnection) : RouteState :=
  conns.foldl (routeStep layouts cols) ⟨routePass1 layouts cols conns, [], []⟩

/-- `connectionPaths` of the recomputation. -/
def connectionPaths (inp : EngineInput) : List (String × ConnPath) :=
  (routePass2 (eventLayouts inp) (dayColumnGeometries inp) inp.eventConnections).paths

/-- The ghost port-assignment log of the recomputation. -/
def portLog (inp : EngineInput) : List (String × Side × ℚ) :=
  (routePass2 (eventLayouts inp) (dayColumnGeometries inp) inp.eventConnections).log

/-- The inner neighbour scan of the BFS: for every connection incident
to `cur`, mark and enqueue the unvisited opposite endpoint (an empty
neighbour id is falsy in `if (neighborId && ...)` and is skipped). -/
def neighborScan (conns : List EventConnection) (cur : String)
    (vq : List String × List String) : List String × List String :=
  conns.foldl
    (fun vq c =>
      let nb : Option String :=
        if c.fromEventId == cur then some c.toEventId
        else if c.toEventId == cur then some c.fromEventId
        else none
      match nb with
      | some n =>
        if n == "" then vq
        else if vq.1.contains n then vq
        else (vq.1 ++ [n], vq.2 ++ [n])
      | none => vq)
    vq

/-- The BFS `while (queue.length > 0)` loop, fuel-indexed; with fuel
at least `4 * conns.length + 2` the queue always drains (each iteration
pops one entry and every id is enqueued at most once). -/
def bfsLoop (conns : List EventConnection) :
    ℕ → List String → List String → List String → List String
  | 0, _, _, comp => comp
  | fuel + 1, queue, visited, comp =>
    match queue with
    | [] => comp
    | cur :: rest =>
      let comp2 := if comp.contains cur then comp else comp ++ [cur]
      let vq := neighborScan conns cur (visited, rest)
      bfsLoop conns fuel vq.2 vq.1 comp2

/-- `componentEvents`: the undirected connected component of `h`. -/
def highlightComponent (conns : List EventConnection) (h : String) : List String :=
  bfsLoop conns (4 * conns.length + 2) [h] [h] []

def HIGHLIGHT_COLORS : List String :=
  ["#3b82f6", "#10b981", "#f97316", "#8b5cf6", "#ef4444", "#eab308", "#ec4899"]

/-- JavaScript `Set.add` on a membership list. -/
def setAdd (l : List ℕ) (x : ℕ) : List ℕ :=
  if l.contains x then l else l ++ [x]

/-- `while (usedColorIndices.has(colorIndex)) colorIndex++`, fuel-bounded
by `used.length + 1` (some value in `0..used.length` is always free). -/
def smallestFreeFrom (used : List ℕ) : ℕ → ℕ → ℕ
  | g, 0 => g
  | g, fuel + 1 => if used.contains g then smallestFreeFrom used (g + 1) fuel else g

def smallestFree (used : List ℕ) : ℕ :=
  smallestFreeFrom used 0 (used.length + 1)

/-- One step of the greedy edge coloring: pick the smallest index not
used at either endpoint, reduce it modulo the palette size, record it
for the connection and mark it used at both endpoints. -/
def colorStep (st : List (String × List ℕ) × List (String × String × ℕ))
    (c : EventConnection) : List (String × List ℕ) × List (String × String × ℕ) :=
  let m0 := if (jsMapGet st.1 c.fromEventId).isSome then st.1 else jsMapSet st.1 c.fromEventId []
  let m1 := if (jsMapGet m0 c.toEventId).isSome then m0 else jsMapSet m0 c.toEventId []
  let used := ((jsMapGet m1 c.fromEventId).getD []) ++ ((jsMapGet m1 c.toEventId).getD [])
  let fin := smallestFree used % HIGHLIGHT_COLORS.length
  let out := jsMapSet st.2 c.id (HIGHLIGHT_COLORS.getD fin "", fin)
  let m2 := jsMapSet m1 c.fromEventId (setAdd ((jsMapGet m1 c.fromEventId).getD []) fin)
  let m3 := jsMapSet m2 c.toEventId (setAdd ((jsMapGet m2 c.toEventId).getD []) fin)
  (m3, out)

/-- The connections of the component (both endpoints inside). -/
def componentConnections (conns : List EventConnection) (comp : List String) :
    List EventConnection :=
  conns.filter (fun c => comp.contains c.fromEventId && comp.contains c.toEventId)

/-- `highlightedEvents` and `highlightedConnectionInfo` for a hover
state: `none` (and the falsy empty id) yield the empty component and
empty color map. -/
def hoverInfo (conns : List EventConnection) (hovered : Option String) :
    List String × List (String × String × ℕ) :=
  match hovered with
  | none => ([], [])
  | some h =>
    if h == "" then ([], [])
    else
      let comp := highlightComponent conns h
      (comp, ((componentConnections conns comp).foldl colorStep ([], [])).2)

def highlightedEvents (conns : List EventConnection) (hovered : Option String) : List String :=
  (hoverInfo conns hovered).1

def highlightedConnectionInfo (conns : List EventConnection) (hovered : Option String) :
    List (String × String × ℕ) :=
  (hoverInfo conns hovered).2

/-- Days of month `mo ∈ [1,12]` in the proleptic Gregorian calendar. -/
def monthLen (leap : Bool) (mo : ℕ) : ℕ :=
  if mo = 1 then 31 else if mo = 2 then (if leap then 29 else 28)
  else if mo = 3 then 31 else if mo = 4 then 30 else if mo = 5 then 31
  else if mo = 6 then 30 else if mo = 7 then 31 else if mo = 8 then 31
  else if mo = 9 then 30 else if mo = 10 then 31 else if mo = 11 then 30
  else 31

/-- Zero-padded decimal rendering. -/
def padNum (w : ℕ) (n : ℕ) : String :=
  let s := toString n
  String.mk (List.replicate (w - s.length) '0') ++ s

/-- The date part of `Date.prototype.toISOString` (years above 9999 use
the expanded `+YYYYYY` form). -/
def formatISODate (y mo d : ℕ) : String :=
  if y ≤ 9999 then padNum 4 y ++ "-" ++ padNum 2 mo ++ "-" ++ padNum 2 d
  else "+" ++ padNum 6 y ++ "-" ++ padNum 2 mo ++ "-" ++ padNum 2 d

/-- Successor of a civil date. -/
def civilSucc (y mo d : ℕ) : ℕ × ℕ × ℕ :=
  if d < monthLen (isLeapYear (y : ℤ)) mo then (y, mo, d + 1)
  else if mo < 12 then (y, mo + 1, 1)
  else (y + 1, 1, 1)

/-- `new Date('YYYY-MM-DD')` followed by `setDate(getDate() + 1)` and
`toISOString().split('T')[0]`, modelled for a host in the UTC timezone
(`setDate` then advances exactly one civil day). `none` models the
`RangeError` thrown by `toISOString` when the ISO parse yielded an
Invalid Date (out-of-range month or day). -/
def addOneDayISO (y mo d : ℕ) : Option String :=
  if 1 ≤ mo ∧ mo ≤ 12 ∧ 1 ≤ d ∧ d ≤ monthLen (isLeapYear (y : ℤ)) mo then
    let s := civilSucc y mo d
    some (formatISODate s.1 s.2.1 s.2.2)
  else none

/-- `/^(\d{4})-(\d{2})-(\d{2})/` applied to a raw (untrimmed) string,
returning the numeric fields. -/
def gregDayNums (s : String) : Option (ℕ × ℕ × ℕ) :=
  match takeExactDigits 4 s.data with
  | none => none
  | some (y, r1) =>
    match expectChar '-' r1 with
    | none => none
    | some r =>
      match takeExactDigits 2 r with
      | none => none
      | some (mo, r2) =>
        match expectChar '-' r2 with
        | none => none
        | some r3 =>
          match takeExactDigits 2 r3 with
          | none => none
          | some (d, _) => some (y, mo, d)

structure DropTarget where
  storylineId : String
  date : String
deriving DecidableEq, Repr

/-- The column scan: first day column whose right edge plus half the
inter-column gap (`EVENT_GAP / 2 = 40`) exceeds the pointer x; its date
is the day group's first member's date. -/
def findColumnDate (inp : EngineInput) (xPos : ℚ) : List String → Option String
  | [] => none
  | k :: rest =>
    match jsMapGet (dayColumnGeometries inp) k with
    | some geo =>
      if decide (xPos < geo.x + geo.width + 40) then
        some (dayHeadDate (eventsByDayOf inp) k)
      else findColumnDate inp xPos rest
    | none => findColumnDate inp xPos rest

/-- `getDropTarget(xPos, yPos)`. `todayStr` stands for
`new Date().toISOString().split('T')[0]` (the host's current UTC date);
`Except.error` models the exception that `toISOString` throws when the
last column's Gregorian-looking date is not a valid calendar date. -/
def getDropTarget (inp : EngineInput) (todayStr : String) (xPos yPos : ℚ) :
    Except Unit (Option DropTarget) :=
  if (laneGeometries inp).isEmpty then
    match inp.storylines with
    | s :: _ => .ok (some ⟨s.id, todayStr ++ " 00:00:00"⟩)
    | [] => .ok none
  else
    match inp.storylines.find? (fun s =>
      match jsMapGet (laneGeometries inp) s.id with
      | some geo => decide (geo.y ≤ yPos) && decide (yPos < geo.y + geo.height)
      | none => false) with
    | none => .ok none
    | some ts =>
      match findColumnDate inp xPos (sortedUniqueDays inp) with
      | some d => .ok (some ⟨ts.id, d⟩)
      | none =>
        match (sortedUniqueDays inp).getLast? with
        | some lastKey =>
          if lastKey == "" then .ok (some ⟨ts.id, todayStr ++ " 00:00:00"⟩)
          else
            let lastDateStr := dayHeadDate (eventsByDayOf inp) lastKey
            match gregDayNums lastDateStr with
            | some (y, mo, d) =>
              match addOneDayISO y mo d with
              | some iso => .ok (some ⟨ts.id, iso ++ " 00:00:00"⟩)
              | none => .error ()
            | none => .ok (some ⟨ts.id, lastDateStr⟩)
        | none => .ok (some ⟨ts.id, todayStr ++ " 00:00:00"⟩)

/-! Characterization of `groupByDay`: keys are distinct, and each group
is exactly the sublist of the input with that day key. -/

def GroupsChar (l : List StoryEvent) (gs : List (String × List StoryEvent)) : Prop :=
  ((gs.map Prod.fst).Nodup) ∧
  (∀ p ∈ gs, p.2 = l.filter (fun e => getDayKey e.date == p.1) ∧ p.2 ≠ []) ∧
  (∀ e ∈ l, getDayKey e.date ∈ gs.map Prod.fst)

/-- The Gregorian-form validity predicate: a real calendar date and a
real clock time. -/
def ValidYMD (y mo d : ℕ) : Prop :=
  1 ≤ mo ∧ mo ≤ 12 ∧ 1 ≤ d ∧ d ≤ monthLen (isLeapYear (y : ℤ)) mo

def ValidHMS (h mi s : ℕ) : Prop := h ≤ 23 ∧ mi ≤ 59 ∧ s ≤ 59

set_option maxHeartbeats 1000000 in

/-- The raw UTC millisecond value of valid Gregorian components whose
year needs no `MakeFullYear` adjustment. -/
def utcRaw (y mo d h mi s : ℕ) : ℤ :=
  (daysFromYear (y : ℤ) + monthStartDays ((mo : ℤ) - 1) (isLeapYear (y : ℤ)) + ((d : ℤ) - 1)) *
      86400000 +
    (h : ℤ) * 3600000 + (mi : ℤ) * 60000 + (s : ℤ) * 1000

/-- The intended "chronologically before" relation of the specification,
restricted as the code forces: within BC (larger value = earlier);
within Gregorian form for valid calendar dates whose year field is at
least 100 (the code inherits the ECMAScript `Date.UTC` rule mapping
years 0–99 to 1900–1999); within one custom era for parseable values;
and across two custom eras at different `eraOrder` positions when both
in-era values lie in `[0, ERA_MULT)`. -/
def ChronoBefore (eraOrder : List String) (a b : String) : Prop :=
  (∃ va vb : ℚ,
    bcMatchValue (jsTrimList a.data) = some va ∧
    bcMatchValue (jsTrimList b.data) = some vb ∧ vb < va) ∨
  (∃ y1 mo1 d1 tm1 y2 mo2 d2 tm2,
    gregMatch (jsTrimList a.data) = some (y1, mo1, d1, tm1) ∧
    gregMatch (jsTrimList b.data) = some (y2, mo2, d2, tm2) ∧
    ValidYMD y1 mo1 d1 ∧
    ValidHMS (tm1.getD (0, 0, 0)).1 (tm1.getD (0, 0, 0)).2.1 (tm1.getD (0, 0, 0)).2.2 ∧
    ValidYMD y2 mo2 d2 ∧
    ValidHMS (tm2.getD (0, 0, 0)).1 (tm2.getD (0, 0, 0)).2.1 (tm2.getD (0, 0, 0)).2.2 ∧
    100 ≤ y1 ∧ 100 ≤ y2 ∧
    (y1 < y2 ∨ (y1 = y2 ∧ (mo1 < mo2 ∨ (mo1 = mo2 ∧ (d1 < d2 ∨ (d1 = d2 ∧
      ((tm1.getD (0, 0, 0)).1 < (tm2.getD (0, 0, 0)).1 ∨
        ((tm1.getD (0, 0, 0)).1 = (tm2.getD (0, 0, 0)).1 ∧
          ((tm1.getD (0, 0, 0)).2.1 < (tm2.getD (0, 0, 0)).2.1 ∨
            ((tm1.getD (0, 0, 0)).2.1 = (tm2.getD (0, 0, 0)).2.1 ∧
              (tm1.getD (0, 0, 0)).2.2 < (tm2.getD (0, 0, 0)).2.2))))))))))) ∨
  (∃ (i : ℕ) (era : String) (v1 v2 : ℚ),
    a ≠ "" ∧ b ≠ "" ∧
    bcMatchValue (jsTrimList a.data) = none ∧ bcMatchValue (jsTrimList b.data) = none ∧
    gregMatch (jsTrimList a.data) = none ∧ gregMatch (jsTrimList b.data) = none ∧
    firstEraMatch (jsTrimList a.data) eraOrder = some (i, era) ∧
    firstEraMatch (jsTrimList b.data) eraOrder = some (i, era) ∧
    eraNumericValue (jsTrimList ((jsTrimList a.data).drop era.data.length)) = some (.fin v1) ∧
    eraNumericValue (jsTrimList ((jsTrimList b.data).drop era.data.length)) = some (.fin v2) ∧
    v1 < v2) ∨
  (∃ (i j : ℕ) (erai eraj : String) (v1 v2 : ℚ),
    a ≠ "" ∧ b ≠ "" ∧
    bcMatchValue (jsTrimList a.data) = none ∧ bcMatchValue (jsTrimList b.data) = none ∧
    gregMatch (jsTrimList a.data) = none ∧ gregMatch (jsTrimList b.data) = none ∧
    firstEraMatch (jsTrimList a.data) eraOrder = some (i, erai) ∧
    firstEraMatch (jsTrimList b.data) eraOrder = some (j, eraj) ∧
    i < j ∧
    eraNumericValue (jsTrimList ((jsTrimList a.data).drop erai.data.length)) = some (.fin v1) ∧
    eraNumericValue (jsTrimList ((jsTrimList b.data).drop eraj.data.length)) = some (.fin v2) ∧
    0 ≤ v1 ∧ v1 < ERA_MULT ∧ 0 ≤ v2 ∧ v2 < ERA_MULT)

/-! Layout geometry: specification-side views of the stack walk and the
two accumulator folds, and the per-entry invariant of `eventLayouts`. -/

/-- The gap added below an event in the stack walk (`SAME_DAY_VERTICAL_GAP`
when it is the last member, since the source leaves the default). -/
def nextGap (conns : List EventConnection) (e : StoryEvent) : List StoryEvent → ℚ
  | [] => 25
  | next :: _ => gapBetween conns e next

/-- The entries (in stack order) that `placeStack` contributes: one per
member whose event type resolves, at the running `currentStackY`, which
advances only past resolved members. -/
def stackEntries (inp : EngineInput) (levels : List (String × ℕ)) (baseX : ℚ) :
    List StoryEvent → ℚ → List (String × LayoutEntry)
  | [], _ => []
  | e :: rest, yCur =>
    match findEventType inp.eventTypes e with
    | none => stackEntries inp levels baseX rest yCur
    | some _ =>
      (e.id, ⟨baseX + (effIndent levels e : ℚ) * 20, yCur, 200,
        eventHeight inp.expandedEvents e, e⟩) ::
      stackEntries inp levels baseX rest
        (yCur + eventHeight inp.expandedEvents e + nextGap inp.eventConnections e rest)

/-- The unique day group of a (storyline id, day key) pair. -/
def canonGroup (inp : EngineInput) (sid k : String) : List StoryEvent :=
  (jsMapGet (storylineDayGroups inp sid) k).getD []

/-- The canonical stack start of a group: the lane's vertical center
minus half the stack height. -/
def stackStart (inp : EngineInput) (lg : LaneGeo) (g : List StoryEvent) : ℚ :=
  lg.y + (lg.height - stackHeight inp.eventConnections inp.expandedEvents g) / 2

/-- Everything `eventLayouts` records about one of its entries: the key
is the stored event's id, the event's storyline lane and day column
resolve, and the entry occurs in the canonical stack walk of its
(storyline, day) group. -/
def GoodEntry (inp : EngineInput) (q : String × LayoutEntry) : Prop :=
  q.1 = q.2.event.id ∧
  ∃ sid lg col,
    q.2.event.storylineId = some sid ∧
    jsMapGet (laneGeometries inp) sid = some lg ∧
    jsMapGet (dayColumnGeometries inp) (getDayKey q.2.event.date) = some col ∧
    q ∈ stackEntries inp (indentLevels inp) col.x
      (canonGroup inp sid (getDayKey q.2.event.date))
      (stackStart inp lg (canonGroup inp sid (getDayKey q.2.event.date)))

/-- Two rectangles with disjoint (half-open) extents. -/
def RectDisjoint (a b : LayoutEntry) : Prop :=
  a.x + a.width ≤ b.x ∨ b.x + b.width ≤ a.x ∨ a.y + a.height ≤ b.y ∨ b.y + b.height ≤ a.y

/-! Lanes: the accumulator invariant of `laneGeometriesAndY`. -/

/-- Invariant of the lane pass: `currentY` is nonnegative, every lane
band lies in `[0, currentY]` with its recorded height, bands of
different keys are disjoint, and every key is a storyline id. -/
def LaneAcc (inp : EngineInput) (m : List (String × LaneGeo)) (c : ℚ) : Prop :=
  0 ≤ c ∧
  (∀ q ∈ m, 0 ≤ q.2.y ∧ q.2.y + q.2.height ≤ c ∧
    q.2.height = laneHeightOf inp q.1) ∧
  (∀ q1 ∈ m, ∀ q2 ∈ m, q1.1 ≠ q2.1 →
    q1.2.y + q1.2.height ≤ q2.2.y ∨ q2.2.y + q2.2.height ≤ q1.2.y) ∧
  (∀ q ∈ m, q.1 ∈ inp.storylines.map Storyline.id)

def c1EvA : StoryEvent :=
  ⟨"A", "a", "2020-01-01", some "s1", some "t1", ""⟩

def c1EvB : StoryEvent :=
  ⟨"B", "b", "2020-01-01", some "s1", some "t1", ""⟩

def c1Inp : EngineInput :=
  ⟨[c1EvA, c1EvB], [⟨"s1", "S", "", "#fff"⟩], [], [⟨"t1", "T", "#000"⟩], [], []⟩

def c10Ev : StoryEvent :=
  ⟨"X", "x", "2020-01-01", some "s1", some "ghost", ""⟩

def c10Inp : EngineInput :=
  ⟨[c10Ev], [⟨"s1", "S", "", "#fff"⟩], [], [⟨"t1", "T", "#000"⟩], [], []⟩

/-- The step function of the first router pass (the fold body of
`routePass1`). -/
def pass1Step (layouts : List (String × LayoutEntry)) (cols : List (String × ColGeo))
    (m : List (String × PortCounts)) (c : EventConnection) : List (String × PortCounts) :=
  match jsMapGet layouts c.fromEventId, jsMapGet layouts c.toEventId with
  | some fr, some tn =>
    let m1 := ensurePort m fr.event.id
    let m2 := ensurePort m1 tn.event.id
    if getDayKey fr.event.date == getDayKey tn.event.date then
      if decide (fr.y < tn.y) then bumpTotal (bumpTotal m2 fr.event.id .bottom) tn.event.id .top
      else bumpTotal (bumpTotal m2 fr.event.id .top) tn.event.id .bottom
    else
      match jsMapGet cols (getDayKey fr.event.date), jsMapGet cols (getDayKey tn.event.date) with
      | some fc, some tc =>
        if decide (fc.x < tc.x) then
          bumpTotal (bumpTotal m2 fr.event.id .right) tn.event.id .left
        else bumpTotal (bumpTotal m2 fr.event.id .left) tn.event.id .right
      | _, _ => m2
  | _, _ => m

def c8Ev : StoryEvent :=
  ⟨"A", "a", "2020-01-01", some "s1", some "t1", ""⟩

def c8Inp : EngineInput :=
  ⟨[c8Ev], [⟨"s1", "S", "", "#fff"⟩], [], [⟨"t1", "T", "#000"⟩], [], []⟩

def c8Conn : EventConnection := ⟨"cX", "A", "ghost", ""⟩

/-! Port allocation (C3): specification-side observers of the router
state and the per-step accounting lemmas. -/

/-- Origin of an anchor side: the left edge for top/bottom ports, the
top edge for left/right ports. -/
def sideOrigin (layouts : List (String × LayoutEntry)) (e : String) (s : Side) : ℚ :=
  match jsMapGet layouts e with
  | some le =>
    match s with
    | .top => le.x
    | .bottom => le.x
    | .left => le.y
    | .right => le.y
  | none => 0

/-- Length of an anchor side: the width for top/bottom ports, the
height for left/right ports. -/
def sideLen (layouts : List (String × LayoutEntry)) (e : String) (s : Side) : ℚ :=
  match jsMapGet layouts e with
  | some le =>
    match s with
    | .top => le.width
    | .bottom => le.width
    | .left => le.height
    | .right => le.height
  | none => 0

/-- How many ports `(e, s)` receives from one connection's side list. -/
def sideCount (e : String) (s : Side) (l : List (String × Side)) : ℕ :=
  (l.filter (fun t => decide (e = t.1 ∧ s = t.2))).length

/-- Total number of ports the whole connection list assigns to side `s`
of event `e`. -/
def sideOcc (layouts : List (String × LayoutEntry)) (cols : List (String × ColGeo))
    (conns : List EventConnection) (e : String) (s : Side) : ℕ :=
  conns.foldr (fun c acc => sideCount e s (connSides layouts cols c) + acc) 0

/-- The port log restricted to one side of one event, in assignment
order. -/
def logFor (log : List (String × Side × ℚ)) (e : String) (s : Side) : List ℚ :=
  (log.filter (fun t => decide (e = t.1 ∧ s = t.2.1))).map (fun t => t.2.2)

def c3EvA : StoryEvent :=
  ⟨"A", "a", "2020-01-01", some "s1", some "t1", ""⟩

def c3EvB : StoryEvent :=
  ⟨"B", "b", "2020-01-01", some "s1", some "t1", ""⟩

def c3Inp : EngineInput :=
  ⟨[c3EvA, c3EvB], [⟨"s1", "S", "", "#fff"⟩],
    [⟨"c1", "A", "B", ""⟩, ⟨"c2", "A", "B", ""⟩], [⟨"t1", "T", "#000"⟩], [], []⟩

/-! Hover component BFS (C6): characterization of `highlightComponent`
as reflexive-transitive reachability, and its symmetry. -/

/-- The neighbour the scan derives from one connection (`null` when the
connection does not touch `cur`). -/
def nbOf (c : EventConnection) (cur : String) : Option String :=
  if c.fromEventId == cur then some c.toEventId
  else if c.toEventId == cur then some c.fromEventId
  else none

/-- The fold body of `neighborScan`. -/
def scanStep (cur : String) (vq : List String × List String) (c : EventConnection) :
    List String × List String :=
  match nbOf c cur with
  | some n =>
    if n == "" then vq
    else if vq.1.contains n then vq
    else (vq.1 ++ [n], vq.2 ++ [n])
  | none => vq

/-- One BFS edge: `y` is a neighbour the scan would accept (non-empty
id). -/
def nbAdj (conns : List EventConnection) (x y : String) : Prop :=
  (∃ c ∈ conns, nbOf c x = some y) ∧ ¬y = ""

/-- All endpoint ids of the connection list. -/
def endpointIds (conns : List EventConnection) : Finset String :=
  ((conns.map (fun c => [c.fromEventId, c.toEventId])).join).toFinset

/-- Number of endpoint ids not yet visited. -/
def unvis (conns : List EventConnection) (v : List String) : ℕ :=
  ((endpointIds conns).filter (fun x => x ∉ v)).card

def c6Conns : List EventConnection := [⟨"k", "P", "Q", ""⟩]

/-- The used-color list of one event in the coloring state. -/
def usageOf (m : List (String × List ℕ)) (ev : String) : List ℕ :=
  (jsMapGet m ev).getD []

/-- Whether connection `c` touches event `ev`. -/
def incidentB (c : EventConnection) (ev : String) : Bool :=
  c.fromEventId == ev || c.toEventId == ev

/-- Two connections share an endpoint event. -/
def sharesEndpoint (c1 c2 : EventConnection) : Prop :=
  c1.fromEventId = c2.fromEventId ∨ c1.fromEventId = c2.toEventId ∨
  c1.toEventId = c2.fromEventId ∨ c1.toEventId = c2.toEventId

/-- The tail of `colorStep` once both endpoints are present in the
usage map: pick the color index, record it, mark it used. -/
def colorCore (m1 : List (String × List ℕ)) (out : List (String × String × ℕ))
    (c : EventConnection) : List (String × List ℕ) × List (String × String × ℕ) :=
  let used := ((jsMapGet m1 c.fromEventId).getD []) ++ ((jsMapGet m1 c.toEventId).getD [])
  let fin := smallestFree used % HIGHLIGHT_COLORS.length
  let out2 := jsMapSet out c.id (HIGHLIGHT_COLORS.getD fin "", fin)
  let m2 := jsMapSet m1 c.fromEventId (setAdd ((jsMapGet m1 c.fromEventId).getD []) fin)
  let m3 := jsMapSet m2 c.toEventId (setAdd ((jsMapGet m2 c.toEventId).getD []) fin)
  (m3, out2)

/-- The color index chosen by `colorCore`. -/
def finFor (m1 : List (String × List ℕ)) (c : EventConnection) : ℕ :=
  smallestFree (usageOf m1 c.fromEventId ++ usageOf m1 c.toEventId) % HIGHLIGHT_COLORS.length

def c4Conns : List EventConnection :=
  [⟨"e1", "H", "L1", ""⟩, ⟨"e2", "H", "L2", ""⟩, ⟨"e3", "H", "L3", ""⟩,
   ⟨"e4", "H", "L4", ""⟩, ⟨"e5", "H", "L5", ""⟩, ⟨"e6", "H", "L6", ""⟩,
   ⟨"e7", "H", "L7", ""⟩, ⟨"e8", "H", "L8", ""⟩]

def c4WConns : List EventConnection :=
  [⟨"f1", "H", "A", ""⟩, ⟨"f2", "H", "B", ""⟩]

/-- The lane-containment test used by `getDropTarget` to find the
target storyline. -/
def laneHit (inp : EngineInput) (yPos : ℚ) (s : Storyline) : Bool :=
  match jsMapGet (laneGeometries inp) s.id with
  | some geo => decide (geo.y ≤ yPos) && decide (yPos < geo.y + geo.height)
  | none => false

/-- The `!foundColumn` tail of `getDropTarget`. -/
def dropTail (inp : EngineInput) (todayStr : String) (ts : Storyline) :
    Except Unit (Option DropTarget) :=
  match (sortedUniqueDays inp).getLast? with
  | some lastKey =>
    if lastKey == "" then .ok (some ⟨ts.id, todayStr ++ " 00:00:00"⟩)
    else
      match gregDayNums (dayHeadDate (eventsByDayOf inp) lastKey) with
      | some (y, mo, d) =>
        match addOneDayISO y mo d with
        | some iso => .ok (some ⟨ts.id, iso ++ " 00:00:00"⟩)
        | none => .error ()
      | none => .ok (some ⟨ts.id, dayHeadDate (eventsByDayOf inp) lastKey⟩)
  | none => .ok (some ⟨ts.id, todayStr ++ " 00:00:00"⟩)

def c7Inp : EngineInput :=
  ⟨[], [⟨"s1", "A", "", "#fff"⟩, ⟨"s2", "B", "", "#fff"⟩], [], [], [], []⟩

def c7WEv : StoryEvent :=
  ⟨"E", "e", "2024-03-10", some "s1", some "t1", ""⟩

def c7WInp : EngineInput :=
  ⟨[c7WEv], [⟨"s1", "S", "", "#fff"⟩], [], [⟨"t1", "T", "#000"⟩], [], []⟩


/-! Generic lemmas about the JavaScript map/sort/grouping models. -/

theorem jsMapGet_nil {β : Type} (k : String) : jsMapGet ([] : List (String × β)) k = none := rfl

theorem jsMapGet_cons {β : Type} (p : String × β) (m : List (String × β)) (k : String) :
    jsMapGet (p :: m) k = if p.1 = k then some p.2 else jsMapGet m k := by
  simp only [jsMapGet, List.find?]
  by_cases h : p.1 = k
  · simp [h]
  · simp [h, beq_eq_false_iff_ne.mpr h]

theorem jsMapGet_append {β : Type} (m1 m2 : List (String × β)) (k : String) :
    jsMapGet (m1 ++ m2) k =
      ((jsMapGet m1 k).rec (jsMapGet m2 k) (fun v => some v) : Option β) := by
  induction m1 with
  | nil => simp [jsMapGet_nil]
  | cons p m ih =>
    rw [List.cons_append, jsMapGet_cons, jsMapGet_cons]
    by_cases h : p.1 = k <;> simp [h, ih]

theorem jsMapGet_append_left {β : Type} {m1 : List (String × β)} {k : String} {v : β}
    (h : jsMapGet m1 k = some v) (m2 : List (String × β)) :
    jsMapGet (m1 ++ m2) k = some v := by
  rw [jsMapGet_append, h]

theorem jsMapGet_append_right {β : Type} {m1 : List (String × β)} {k : String}
    (h : jsMapGet m1 k = none) (m2 : List (String × β)) :
    jsMapGet (m1 ++ m2) k = jsMapGet m2 k := by
  rw [jsMapGet_append, h]

theorem jsMapGet_eq_none_iff {β : Type} {m : List (String × β)} {k : String} :
    jsMapGet m k = none ↔ k ∉ m.map Prod.fst := by
  induction m with
  | nil => simp [jsMapGet_nil]
  | cons p m ih =>
    rw [jsMapGet_cons]
    by_cases h : p.1 = k
    · simp [h]
    · simp only [if_neg h, ih, List.map_cons, List.mem_cons]
      constructor
      · intro hn hc
        rcases hc with hc | hc
        · exact h hc.symm
        · exact hn hc
      · intro hn hc
        exact hn (Or.inr hc)

theorem jsMapGet_isSome_iff {β : Type} {m : List (String × β)} {k : String} :
    (jsMapGet m k).isSome = true ↔ k ∈ m.map Prod.fst := by
  constructor
  · intro h
    by_contra hk
    rw [jsMapGet_eq_none_iff.mpr hk] at h
    simp at h
  · intro h
    cases hs : jsMapGet m k with
    | none => exact absurd h (jsMapGet_eq_none_iff.mp hs)
    | some v => simp

theorem jsMapGet_mem {β : Type} {m : List (String × β)} {k : String} {v : β}
    (h : jsMapGet m k = some v) : (k, v) ∈ m := by
  induction m with
  | nil => simp [jsMapGet_nil] at h
  | cons p m ih =>
    rw [jsMapGet_cons] at h
    by_cases hp : p.1 = k
    · rw [if_pos hp] at h
      cases p with
      | mk a b =>
        simp only at hp
        subst hp
        obtain rfl : b = v := Option.some.inj h
        exact List.mem_cons_self _ _
    · rw [if_neg hp] at h
      exact List.mem_cons_of_mem _ (ih h)

theorem mem_jsMapGet {β : Type} {m : List (String × β)} {k : String} {v : β}
    (hnd : (m.map Prod.fst).Nodup) (h : (k, v) ∈ m) : jsMapGet m k = some v := by
  induction m with
  | nil => simp at h
  | cons p m ih =>
    rw [jsMapGet_cons]
    rcases List.mem_cons.mp h with h1 | h2
    · simp [← h1]
    · have hk : k ∈ m.map Prod.fst := List.mem_map.mpr ⟨(k, v), h2, rfl⟩
      have hp : p.1 ≠ k := by
        intro e
        exact (List.nodup_cons.mp hnd).1 (e ▸ hk)
      rw [if_neg hp]
      exact ih (List.nodup_cons.mp hnd).2 h2

theorem jsMapGet_some_iff_mem {β : Type} {m : List (String × β)} {k : String} {v : β}
    (hnd : (m.map Prod.fst).Nodup) : jsMapGet m k = some v ↔ (k, v) ∈ m :=
  ⟨jsMapGet_mem, mem_jsMapGet hnd⟩

theorem jsMapSet_fresh {β : Type} {m : List (String × β)} {k : String} (v : β)
    (h : jsMapGet m k = none) : jsMapSet m k v = m ++ [(k, v)] := by
  have hk : k ∉ m.map Prod.fst := jsMapGet_eq_none_iff.mp h
  have hne : ¬(m.any fun p => p.1 == k) = true := by
    simp only [List.any_eq_true, beq_iff_eq]
    rintro ⟨p, hp, hpk⟩
    exact hk (List.mem_map.mpr ⟨p, hp, hpk⟩)
  unfold jsMapSet
  rw [if_neg hne]

/-! Stable insertion sort: permutation property. -/

theorem insertBy_perm {α : Type} (lt : α → α → Bool) (x : α) (l : List α) :
    (insertBy lt x l).Perm (x :: l) := by
  induction l with
  | nil => simp [insertBy]
  | cons y ys ih =>
    unfold insertBy
    by_cases h : lt x y = true
    · rw [if_pos h]
    · rw [if_neg h]
      exact (List.Perm.cons y ih).trans (List.Perm.swap x y ys)

theorem stableSortBy_perm {α : Type} (lt : α → α → Bool) (l : List α) :
    (stableSortBy lt l).Perm l := by
  suffices h : ∀ acc : List α, (l.foldl (fun acc x => insertBy lt x acc) acc).Perm (acc ++ l) by
    simpa using h []
  induction l with
  | nil => simp
  | cons x xs ih =>
    intro acc
    simp only [List.foldl_cons]
    refine ((ih _).trans ((insertBy_perm lt x acc).append_right xs)).trans ?_
    simpa using (@List.perm_middle _ x acc xs).symm

theorem groupInsert_char {l : List StoryEvent} {gs : List (String × List StoryEvent)}
    (hc : GroupsChar l gs) (e : StoryEvent) :
    GroupsChar (l ++ [e]) (groupInsert (getDayKey e.date) e gs) := by
  obtain ⟨hnd, hval, hkeys⟩ := hc
  set k := getDayKey e.date with hk
  by_cases hmem : k ∈ gs.map Prod.fst
  · have hany : (gs.any fun p => p.1 == k) = true := by
      simp only [List.any_eq_true, beq_iff_eq]
      obtain ⟨p, hp, hpe⟩ := List.mem_map.mp hmem
      exact ⟨p, hp, hpe⟩
    have hgi : groupInsert k e gs = gs.map fun p => if p.1 == k then (p.1, p.2 ++ [e]) else p := by
      unfold groupInsert
      rw [if_pos hany]
    have hkeyeq : ((gs.map fun p => if p.1 == k then (p.1, p.2 ++ [e]) else p).map Prod.fst) =
        gs.map Prod.fst := by
      rw [List.map_map]
      apply List.map_congr_left
      intro p _
      by_cases hp : p.1 = k <;> simp [hp]
    refine ⟨?_, ?_, ?_⟩
    · rw [hgi, hkeyeq]
      exact hnd
    · intro q hq
      rw [hgi] at hq
      obtain ⟨p, hp, hpq⟩ := List.mem_map.mp hq
      by_cases hpk : p.1 = k
      · have hb : (p.1 == k) = true := by simp [hpk]
        rw [hb] at hpq
        simp only [if_true] at hpq
        subst hpq
        constructor
        · show p.2 ++ [e] = (l ++ [e]).filter (fun e2 => getDayKey e2.date == p.1)
          rw [List.filter_append, ← (hval p hp).1, hpk]
          simp [hk]
        · simp
      · have hb : (p.1 == k) = false := by simp [hpk]
        rw [hb] at hpq
        simp only [Bool.false_eq_true, if_false] at hpq
        subst hpq
        have h1 := (hval p hp).1
        constructor
        · rw [List.filter_append, ← h1]
          have : (getDayKey e.date == p.1) = false := by
            simp only [beq_eq_false_iff_ne, ne_eq, ← hk]
            intro hcon
            exact hpk hcon.symm
          simp [this]
        · exact (hval p hp).2
    · intro e2 he2
      rw [hgi, hkeyeq]
      rcases List.mem_append.mp he2 with h1 | h2
      · exact hkeys e2 h1
      · obtain rfl : e2 = e := List.mem_singleton.mp h2
        exact hmem
  · have hany : ¬(gs.any fun p => p.1 == k) = true := by
      simp only [List.any_eq_true, beq_iff_eq]
      rintro ⟨p, hp, hpk⟩
      exact hmem (hpk ▸ List.mem_map.mpr ⟨p, hp, rfl⟩)
    have hgi : groupInsert k e gs = gs ++ [(k, [e])] := by
      unfold groupInsert
      rw [if_neg hany]
    refine ⟨?_, ?_, ?_⟩
    · rw [hgi]
      simp only [List.map_append, List.map_cons, List.map_nil]
      rw [List.nodup_append]
      refine ⟨hnd, List.nodup_singleton k, ?_⟩
      intro a ha hal
      obtain rfl : a = k := List.mem_singleton.mp hal
      exact hmem ha
    · intro q hq
      rw [hgi] at hq
      rcases List.mem_append.mp hq with h1 | h2
      · have h3 := hval q h1
        constructor
        · rw [List.filter_append, h3.1]
          have : (getDayKey e.date == q.1) = false := by
            simp only [beq_eq_false_iff_ne, ne_eq, ← hk]
            intro hcon
            exact hmem (hcon ▸ List.mem_map.mpr ⟨q, h1, rfl⟩)
          simp [this]
        · exact h3.2
      · obtain rfl : q = (k, [e]) := List.mem_singleton.mp h2
        constructor
        · simp only
          rw [List.filter_append]
          have hfl : l.filter (fun e2 => getDayKey e2.date == k) = [] := by
            rw [List.filter_eq_nil_iff]
            intro a ha
            simp only [beq_iff_eq]
            intro hak
            exact hmem (hak ▸ hkeys a ha)
          rw [hfl]
          simp [← hk]
        · simp
    · intro e2 he2
      rw [hgi]
      simp only [List.map_append, List.map_cons, List.map_nil]
      rcases List.mem_append.mp he2 with h1 | h2
      · exact List.mem_append.mpr (Or.inl (hkeys e2 h1))
      · obtain rfl : e2 = e := List.mem_singleton.mp h2
        exact List.mem_append.mpr (Or.inr (by simp [← hk]))

theorem groupByDay_char (l : List StoryEvent) : GroupsChar l (groupByDay l) := by
  induction l using List.reverseRecOn with
  | nil =>
    refine ⟨by simp [groupByDay], ?_, by simp⟩
    intro p hp
    simp [groupByDay] at hp
  | append_singleton l e ih =>
    have : groupByDay (l ++ [e]) = groupInsert (getDayKey e.date) e (groupByDay l) := by
      simp [groupByDay, List.foldl_append]
    rw [this]
    exact groupInsert_char ih e

theorem groupByDay_keys_nodup (l : List StoryEvent) :
    ((groupByDay l).map Prod.fst).Nodup := (groupByDay_char l).1

theorem groupByDay_group_eq {l : List StoryEvent} {p : String × List StoryEvent}
    (hp : p ∈ groupByDay l) : p.2 = l.filter (fun e => getDayKey e.date == p.1) :=
  ((groupByDay_char l).2.1 p hp).1

theorem groupByDay_mem_key {l : List StoryEvent} {e : StoryEvent} (he : e ∈ l) :
    getDayKey e.date ∈ (groupByDay l).map Prod.fst := (groupByDay_char l).2.2 e he

/-- Every member of the input list belongs to the group of its own day
key. -/
theorem groupByDay_mem_group {l : List StoryEvent} {e : StoryEvent} (he : e ∈ l) :
    ∃ g, (getDayKey e.date, g) ∈ groupByDay l ∧ e ∈ g := by
  obtain ⟨p, hp, hpk⟩ := List.mem_map.mp (groupByDay_mem_key he)
  refine ⟨p.2, ?_, ?_⟩
  · cases p with
    | mk a b =>
      simp only at hpk
      subst hpk
      exact hp
  · rw [groupByDay_group_eq hp]
    simp only [List.mem_filter, beq_iff_eq]
    exact ⟨he, by rw [hpk]⟩

/-- Members of a group carry that group's day key and come from the
input list. -/
theorem groupByDay_group_member {l : List StoryEvent} {p : String × List StoryEvent}
    (hp : p ∈ groupByDay l) {e : StoryEvent} (he : e ∈ p.2) :
    e ∈ l ∧ getDayKey e.date = p.1 := by
  rw [groupByDay_group_eq hp] at he
  simp only [List.mem_filter, beq_iff_eq] at he
  exact he

/-! Parsing lemmas. -/

theorem isDigit_toNat {c : Char} (h : c.isDigit = true) : 48 ≤ c.toNat ∧ c.toNat ≤ 57 := by
  simp only [Char.isDigit, Bool.and_eq_true, decide_eq_true_eq] at h
  obtain ⟨h1, h2⟩ := h
  exact ⟨h1, h2⟩

theorem digitsToNat_lt_pow {l : List Char} (h : l.all Char.isDigit = true) :
    digitsToNat l < 10 ^ l.length := by
  suffices H : ∀ a, List.foldl (fun a c => a * 10 + (c.toNat - 48)) a l < (a + 1) * 10 ^ l.length by
    simpa [digitsToNat] using H 0
  induction l with
  | nil => intro a; simp
  | cons c t ih =>
    intro a
    simp only [List.all_cons, Bool.and_eq_true] at h
    have hc : c.toNat - 48 ≤ 9 := by
      have := isDigit_toNat h.1
      omega
    simp only [List.foldl_cons, List.length_cons]
    calc List.foldl (fun a c => a * 10 + (c.toNat - 48)) (a * 10 + (c.toNat - 48)) t
        < (a * 10 + (c.toNat - 48) + 1) * 10 ^ t.length := ih h.2 _
      _ ≤ ((a + 1) * 10) * 10 ^ t.length := Nat.mul_le_mul_right _ (by omega)
      _ = (a + 1) * 10 ^ (t.length + 1) := by ring

theorem takeExactDigits_some {n : ℕ} {l : List Char} {v : ℕ} {r : List Char}
    (h : takeExactDigits n l = some (v, r)) : v < 10 ^ n ∧ r = l.drop n := by
  simp only [takeExactDigits] at h
  split_ifs at h with hc
  simp only [Option.some.injEq, Prod.mk.injEq] at h
  simp only [Bool.and_eq_true, decide_eq_true_eq] at hc
  obtain ⟨h1, h2⟩ := h
  refine ⟨?_, h2.symm⟩
  rw [← h1]
  have := digitsToNat_lt_pow hc.2
  rw [hc.1] at this
  exact this

theorem takeExactDigits_head {n : ℕ} {l : List Char} {p : ℕ × List Char}
    (hn : 0 < n) (h : takeExactDigits n l = some p) :
    ∃ c t, l = c :: t ∧ c.isDigit = true := by
  cases l with
  | nil =>
    simp only [takeExactDigits] at h
    rw [if_neg] at h
    · simp at h
    · simp only [List.take_nil, List.length_nil, List.all_nil, Bool.and_true,
        decide_eq_true_eq]
      omega
  | cons c t =>
    refine ⟨c, t, rfl, ?_⟩
    simp only [takeExactDigits] at h
    split_ifs at h with hc
    simp only [Bool.and_eq_true, decide_eq_true_eq] at hc
    have := hc.2
    cases n with
    | zero => omega
    | succ m =>
      simp only [List.take_succ_cons, List.all_cons, Bool.and_eq_true] at this
      exact this.1

theorem bcStrip_digit {c : Char} (l : List Char) (hc : c.isDigit = true) :
    bcStrip (c :: l) = none := by
  have h1 : c ≠ '公' := by
    rintro rfl
    simp [Char.isDigit] at hc
  have h2 : c ≠ 'B' := by
    rintro rfl
    simp [Char.isDigit] at hc
  have h3 : c ≠ 'b' := by
    rintro rfl
    simp [Char.isDigit] at hc
  unfold bcStrip
  rw [if_neg]
  · cases l with
    | nil => rfl
    | cons c2 t =>
      show (if ((c == 'B' || c == 'b') && (c2 == 'C' || c2 == 'c')) = true
        then some (t.dropWhile isJsSpace) else none) = none
      rw [if_neg]
      simp only [Bool.or_eq_true, beq_iff_eq, Bool.and_eq_true, not_and_or, not_or]
      left
      exact ⟨h2, h3⟩
  · unfold listStartsWith
    simp only [Bool.and_eq_true, beq_iff_eq, not_and_or]
    left
    exact fun e => h1 e.symm

theorem bcMatchValue_of_head_digit {c : Char} (l : List Char) (hc : c.isDigit = true) :
    bcMatchValue (c :: l) = none := by
  unfold bcMatchValue
  rw [bcStrip_digit l hc]

theorem gregMatch_shape {l : List Char} {y mo d : ℕ} {tm : Option (ℕ × ℕ × ℕ)}
    (h : gregMatch l = some (y, mo, d, tm)) :
    y < 10000 ∧ mo < 100 ∧ d < 100 ∧
      (∀ hh mm ss, tm = some (hh, mm, ss) → hh < 100 ∧ mm < 100 ∧ ss < 100) ∧
      ∃ c t, l = c :: t ∧ c.isDigit = true := by
  unfold gregMatch at h
  cases h4 : takeExactDigits 4 l with
  | none => rw [h4] at h; simp at h
  | some p4 =>
    rw [h4] at h
    obtain ⟨y0, r1⟩ := p4
    dsimp only at h
    cases hc1 : expectChar '-' r1 with
    | none => rw [hc1] at h; simp at h
    | some r2 =>
      rw [hc1] at h
      dsimp only at h
      cases h2 : takeExactDigits 2 r2 with
      | none => rw [h2] at h; simp at h
      | some p2 =>
        rw [h2] at h
        obtain ⟨mo0, r3⟩ := p2
        dsimp only at h
        cases hc2 : expectChar '-' r3 with
        | none => rw [hc2] at h; simp at h
        | some r4 =>
          rw [hc2] at h
          dsimp only at h
          cases h3 : takeExactDigits 2 r4 with
          | none => rw [h3] at h; simp at h
          | some p3 =>
            rw [h3] at h
            obtain ⟨d0, r5⟩ := p3
            dsimp only at h
            simp only [Option.some.injEq, Prod.mk.injEq] at h
            obtain ⟨rfl, rfl, rfl, htm⟩ := h
            refine ⟨(takeExactDigits_some h4).1, (takeExactDigits_some h2).1,
              (takeExactDigits_some h3).1, ?_, takeExactDigits_head (by norm_num) h4⟩
            intro hh mm ss htm2
            rw [← htm] at htm2
            unfold gregTime at htm2
            split_ifs at htm2 with hsp
            cases t2 : takeExactDigits 2 (r5.dropWhile isJsSpace) with
              | none => rw [t2] at htm2; simp at htm2
              | some q1 =>
                rw [t2] at htm2
                obtain ⟨hh0, s1⟩ := q1
                dsimp only at htm2
                cases e1 : expectChar ':' s1 with
                | none => rw [e1] at htm2; simp at htm2
                | some s2 =>
                  rw [e1] at htm2
                  dsimp only at htm2
                  cases t3 : takeExactDigits 2 s2 with
                  | none => rw [t3] at htm2; simp at htm2
                  | some q2 =>
                    rw [t3] at htm2
                    obtain ⟨mm0, s3⟩ := q2
                    dsimp only at htm2
                    cases e2 : expectChar ':' s3 with
                    | none => rw [e2] at htm2; simp at htm2
                    | some s4 =>
                      rw [e2] at htm2
                      dsimp only at htm2
                      cases t4 : takeExactDigits 2 s4 with
                      | none => rw [t4] at htm2; simp at htm2
                      | some q3 =>
                        rw [t4] at htm2
                        obtain ⟨ss0, s5⟩ := q3
                        dsimp only at htm2
                        simp only [Option.some.injEq, Prod.mk.injEq] at htm2
                        obtain ⟨rfl, rfl, rfl⟩ := htm2
                        exact ⟨(takeExactDigits_some t2).1, (takeExactDigits_some t3).1,
                          (takeExactDigits_some t4).1⟩

theorem bcMatchValue_none_of_greg {l : List Char} {r : ℕ × ℕ × ℕ × Option (ℕ × ℕ × ℕ)}
    (h : gregMatch l = some r) : bcMatchValue l = none := by
  obtain ⟨y, mo, d, tm⟩ := r
  obtain ⟨_, _, _, _, c, t, rfl, hc⟩ := gregMatch_shape h
  exact bcMatchValue_of_head_digit t hc

/-! Branch-reduction lemmas for `normalizeDate`. -/

theorem jsTrimList_nil : jsTrimList ([] : List Char) = [] := rfl

theorem normalizeDate_bc {s : String} {eraOrder : List String} {va : ℚ}
    (hbc : bcMatchValue (jsTrimList s.data) = some va) :
    normalizeDate s eraOrder = .fin (-va) := by
  have hne : s ≠ "" := by
    rintro rfl
    rw [show ("" : String).data = [] from rfl, jsTrimList_nil] at hbc
    exact absurd hbc (by simp [bcMatchValue, bcStrip, listStartsWith])
  simp only [normalizeDate]
  rw [if_neg hne, hbc]

theorem normalizeDate_greg {s : String} {eraOrder : List String} {y mo d : ℕ}
    {tm : Option (ℕ × ℕ × ℕ)}
    (hg : gregMatch (jsTrimList s.data) = some (y, mo, d, tm)) :
    normalizeDate s eraOrder =
      (match jsDateUTC (y : ℤ) ((mo : ℤ) - 1) (d : ℤ) ((tm.getD (0, 0, 0)).1 : ℤ)
          ((tm.getD (0, 0, 0)).2.1 : ℤ) ((tm.getD (0, 0, 0)).2.2 : ℤ) with
        | none => JsNum.posInf
        | some ms => JsNum.fin (ms : ℚ)) := by
  have hne : s ≠ "" := by
    rintro rfl
    rw [show ("" : String).data = [] from rfl, jsTrimList_nil] at hg
    exact absurd hg (by simp [gregMatch, takeExactDigits])
  have hbc : bcMatchValue (jsTrimList s.data) = none := bcMatchValue_none_of_greg hg
  simp only [normalizeDate]
  rw [if_neg hne, hbc, hg]
  try rfl

theorem normalizeDate_era {s : String} {eraOrder : List String} {i : ℕ} {era : String}
    (hne : s ≠ "")
    (hbc : bcMatchValue (jsTrimList s.data) = none)
    (hg : gregMatch (jsTrimList s.data) = none)
    (hera : firstEraMatch (jsTrimList s.data) eraOrder = some (i, era)) :
    normalizeDate s eraOrder =
      (orZero (eraNumericValue (jsTrimList ((jsTrimList s.data).drop era.data.length)))).addFin
        ((((i : ℤ) - (anchorIndex eraOrder : ℤ)) : ℚ) * ERA_MULT) := by
  simp only [normalizeDate]
  rw [if_neg hne, hbc, hg, hera]

theorem normalizeDate_era_eval {s : String} {eraOrder : List String} {i : ℕ} {era : String}
    {v : ℚ} (hne : s ≠ "")
    (hbc : bcMatchValue (jsTrimList s.data) = none)
    (hg : gregMatch (jsTrimList s.data) = none)
    (hera : firstEraMatch (jsTrimList s.data) eraOrder = some (i, era))
    (hval : eraNumericValue (jsTrimList ((jsTrimList s.data).drop era.data.length)) =
      some (.fin v)) :
    normalizeDate s eraOrder =
      .fin ((((i : ℤ) - (anchorIndex eraOrder : ℤ)) : ℚ) * ERA_MULT + v) := by
  rw [normalizeDate_era hne hbc hg hera, hval]
  rfl

theorem normalizeDate_era_nan {s : String} {eraOrder : List String} {i : ℕ} {era : String}
    (hne : s ≠ "")
    (hbc : bcMatchValue (jsTrimList s.data) = none)
    (hg : gregMatch (jsTrimList s.data) = none)
    (hera : firstEraMatch (jsTrimList s.data) eraOrder = some (i, era))
    (hval : eraNumericValue (jsTrimList ((jsTrimList s.data).drop era.data.length)) = none) :
    normalizeDate s eraOrder =
      .fin ((((i : ℤ) - (anchorIndex eraOrder : ℤ)) : ℚ) * ERA_MULT) := by
  rw [normalizeDate_era hne hbc hg hera, hval]
  show JsNum.fin (_ + 0) = _
  rw [add_zero]

/-! `JsNum` order lemmas. -/

theorem JsNum.fin_lt_fin {a b : ℚ} : (JsNum.fin a < JsNum.fin b) ↔ a < b := by
  show (JsNum.blt _ _ = true) ↔ _
  simp [JsNum.blt]

theorem JsNum.fin_lt_posInf (a : ℚ) : JsNum.fin a < JsNum.posInf := by
  show JsNum.blt _ _ = true
  rfl

/-! `Date.UTC` arithmetic lemmas. -/

theorem daysFromYear_mono {a b : ℤ} (h : a ≤ b) : daysFromYear a ≤ daysFromYear b := by
  unfold daysFromYear
  omega

theorem daysFromYear_succ (y : ℤ) :
    daysFromYear (y + 1) = daysFromYear y + (if isLeapYear y then 366 else 365) := by
  unfold daysFromYear isLeapYear
  by_cases h4 : y % 4 = 0 <;> by_cases h100 : y % 100 = 0 <;> by_cases h400 : y % 400 = 0 <;>
    simp [h4, h100, h400] <;> omega

theorem monthStartTable_getD_le (i : ℕ) : monthStartTable.getD i 334 ≤ 334 := by
  rcases Nat.lt_or_ge i 12 with h | h
  · interval_cases i <;> decide
  · have hlen : monthStartTable.length ≤ i := by
      simp only [monthStartTable, List.length_cons, List.length_nil]
      omega
    rw [List.getD_eq_default _ _ hlen]

theorem monthStartDays_nonneg (mn : ℤ) (leap : Bool) : 0 ≤ monthStartDays mn leap := by
  unfold monthStartDays
  split_ifs <;> positivity

theorem monthStartDays_le (mn : ℤ) (leap : Bool) : monthStartDays mn leap ≤ 336 := by
  unfold monthStartDays
  have := monthStartTable_getD_le mn.toNat
  split_ifs <;> omega

theorem monthTableFact1 : ∀ l : Bool, ∀ mo1, mo1 < 13 → ∀ mo2, mo2 < 13 → 1 ≤ mo1 → mo1 < mo2 →
    monthStartTable.getD (mo1 - 1) 334 + (if 2 ≤ mo1 - 1 ∧ l = true then 1 else 0) +
      monthLen l mo1 ≤
    monthStartTable.getD (mo2 - 1) 334 + (if 2 ≤ mo2 - 1 ∧ l = true then 1 else 0) := by
  decide

theorem monthTableFact2 : ∀ l : Bool, ∀ mo, mo < 13 → 1 ≤ mo →
    monthStartTable.getD (mo - 1) 334 + (if 2 ≤ mo - 1 ∧ l = true then 1 else 0) +
      monthLen l mo ≤ (if l = true then 366 else 365) := by
  decide

theorem monthStartDays_coe (mo : ℕ) (h1 : 1 ≤ mo) (l : Bool) :
    monthStartDays ((mo : ℤ) - 1) l =
      (monthStartTable.getD (mo - 1) 334 : ℤ) +
        (if 2 ≤ mo - 1 ∧ l = true then 1 else 0) := by
  unfold monthStartDays
  have ht : ((mo : ℤ) - 1).toNat = mo - 1 := by omega
  rw [ht]
  congr 1
  have hc : (2 ≤ (mo : ℤ) - 1) ↔ 2 ≤ mo - 1 := by omega
  simp only [hc]

theorem monthLen_le (l : Bool) (mo : ℕ) : monthLen l mo ≤ 31 := by
  unfold monthLen
  split_ifs <;> omega

/-- The day-within-year of a valid date stays below the year length. -/
theorem dayWithin_le {y mo d : ℕ} (hv : ValidYMD y mo d) :
    monthStartDays ((mo : ℤ) - 1) (isLeapYear (y : ℤ)) + ((d : ℤ) - 1) ≤
      (if isLeapYear (y : ℤ) then (366 : ℤ) else 365) - 1 := by
  obtain ⟨h1, h2, h3, h4⟩ := hv
  rw [monthStartDays_coe mo h1]
  have hf := monthTableFact2 (isLeapYear (y : ℤ)) mo (by omega) h1
  rcases Bool.eq_false_or_eq_true (isLeapYear (y : ℤ)) with hl | hl <;>
      rw [hl] at hf h4 ⊢ <;>
      simp only [Bool.false_eq_true, and_false, and_true, if_false, if_true] at hf h4 ⊢ <;>
      first
        | (split_ifs at hf ⊢ <;> push_cast at h4 hf ⊢ <;> omega)
        | (push_cast at h4 hf ⊢ <;> omega)
        | omega

theorem dayWithin_lt_dayWithin {mo1 d1 mo2 d2 : ℕ} (l : Bool)
    (hv1 : 1 ≤ mo1) (hv12 : mo1 ≤ 12) (hd1 : d1 ≤ monthLen l mo1)
    (hmo2a : 1 ≤ mo2) (hmo2b : mo2 ≤ 12) (hd2 : 1 ≤ d2) (hlt : mo1 < mo2) :
    monthStartDays ((mo1 : ℤ) - 1) l + ((d1 : ℤ) - 1) <
      monthStartDays ((mo2 : ℤ) - 1) l + ((d2 : ℤ) - 1) := by
  rw [monthStartDays_coe mo1 hv1, monthStartDays_coe mo2 hmo2a]
  have hf := monthTableFact1 l mo1 (by omega) mo2 (by omega) hv1 hlt
  split_ifs at hf ⊢ <;> push_cast at * <;> omega

theorem daysFromYear_100 : daysFromYear 100 = -683003 := by
  unfold daysFromYear
  omega

theorem daysFromYear_9999 : daysFromYear 9999 = 2932532 := by
  unfold daysFromYear
  omega

theorem jsDateUTC_valid_eq {y mo d h mi s : ℕ} (hy : 100 ≤ y) (hy2 : y < 10000)
    (hmo1 : 1 ≤ mo) (hmo2 : mo ≤ 12) (hd1 : 1 ≤ d) (hd2 : d ≤ 31)
    (hh : h ≤ 23) (hmi : mi ≤ 59) (hs : s ≤ 59) :
    jsDateUTC (y : ℤ) ((mo : ℤ) - 1) (d : ℤ) (h : ℤ) (mi : ℤ) (s : ℤ) =
      some (utcRaw y mo d h mi s) := by
  have hyr : ¬(0 ≤ (y : ℤ) ∧ (y : ℤ) ≤ 99) := by omega
  have hm1 : ((mo : ℤ) - 1) / 12 = 0 := by omega
  have hm2 : ((mo : ℤ) - 1) % 12 = (mo : ℤ) - 1 := by omega
  have hmd : makeDay (y : ℤ) ((mo : ℤ) - 1) (d : ℤ) =
      daysFromYear (y : ℤ) + monthStartDays ((mo : ℤ) - 1) (isLeapYear (y : ℤ)) +
        ((d : ℤ) - 1) := by
    unfold makeDay
    rw [hm1, hm2, add_zero]
  have hlow : -683003 ≤ daysFromYear (y : ℤ) := by
    rw [← daysFromYear_100]
    exact daysFromYear_mono (by omega)
  have hhigh : daysFromYear (y : ℤ) ≤ 2932532 := by
    rw [← daysFromYear_9999]
    exact daysFromYear_mono (by omega)
  have hms1 := monthStartDays_nonneg ((mo : ℤ) - 1) (isLeapYear (y : ℤ))
  have hms2 := monthStartDays_le ((mo : ℤ) - 1) (isLeapYear (y : ℤ))
  simp only [jsDateUTC]
  rw [if_neg hyr, hmd, if_neg (by omega)]
  unfold utcRaw
  rfl

theorem utcRaw_strict_mono {y1 mo1 d1 h1 mi1 s1 y2 mo2 d2 h2 mi2 s2 : ℕ}
    (hv1 : ValidYMD y1 mo1 d1) (ht1 : ValidHMS h1 mi1 s1)
    (hv2 : ValidYMD y2 mo2 d2) (ht2 : ValidHMS h2 mi2 s2)
    (hlex : y1 < y2 ∨ (y1 = y2 ∧ (mo1 < mo2 ∨ (mo1 = mo2 ∧ (d1 < d2 ∨ (d1 = d2 ∧
      (h1 < h2 ∨ (h1 = h2 ∧ (mi1 < mi2 ∨ (mi1 = mi2 ∧ s1 < s2)))))))))) :
    utcRaw y1 mo1 d1 h1 mi1 s1 < utcRaw y2 mo2 d2 h2 mi2 s2 := by
  obtain ⟨hm1a, hm1b, hd1a, hd1b⟩ := hv1
  obtain ⟨hm2a, hm2b, hd2a, hd2b⟩ := hv2
  obtain ⟨hh1, hmi1, hs1⟩ := ht1
  obtain ⟨hh2, hmi2, hs2⟩ := ht2
  unfold utcRaw
  rcases hlex with hy | ⟨rfl, hrest⟩
  · -- different years: day number of date 1 is below January 1 of the next year
    have hA := dayWithin_le ⟨hm1a, hm1b, hd1a, hd1b⟩
    have hB := daysFromYear_succ (y1 : ℤ)
    have hC : daysFromYear ((y1 : ℤ) + 1) ≤ daysFromYear (y2 : ℤ) :=
      daysFromYear_mono (by omega)
    have hD := monthStartDays_nonneg ((mo2 : ℤ) - 1) (isLeapYear (y2 : ℤ))
    cases hl : isLeapYear (y1 : ℤ) <;> rw [hl] at hA hB <;> simp at hA hB <;> omega
  · rcases hrest with hmo | ⟨rfl, hrest⟩
    · have := dayWithin_lt_dayWithin (isLeapYear (y1 : ℤ)) hm1a hm1b hd1b hm2a hm2b hd2a hmo
      omega
    · rcases hrest with hd | ⟨rfl, htime⟩
      · omega
      · omega

/-- Lower bound on every value `Date.UTC` can produce from the
Gregorian parser's component ranges. -/
theorem jsDateUTC_lower {y mo d h mi s : ℕ} {ms : ℤ} (hy : y < 10000) (hmo : mo < 100)
    (hdut : jsDateUTC (y : ℤ) ((mo : ℤ) - 1) (d : ℤ) (h : ℤ) (mi : ℤ) (s : ℤ) = some ms) :
    -59043081600000 ≤ ms := by
  have key : ∀ yr : ℤ, 100 ≤ yr →
      -59043081600000 ≤
        makeDay yr ((mo : ℤ) - 1) (d : ℤ) * 86400000 + (h : ℤ) * 3600000 + (mi : ℤ) * 60000 +
          (s : ℤ) * 1000 := by
    intro yr hyr
    simp only [makeDay]
    have hdiv : -1 ≤ ((mo : ℤ) - 1) / 12 := by omega
    have hdy : daysFromYear 99 ≤ daysFromYear (yr + ((mo : ℤ) - 1) / 12) :=
      daysFromYear_mono (by omega)
    have h99 : daysFromYear 99 = -683368 := by
      unfold daysFromYear
      omega
    have hmsn := monthStartDays_nonneg (((mo : ℤ) - 1) % 12)
      (isLeapYear (yr + ((mo : ℤ) - 1) / 12))
    omega
  simp only [jsDateUTC] at hdut
  by_cases hyr : 0 ≤ (y : ℤ) ∧ (y : ℤ) ≤ 99
  · rw [if_pos hyr] at hdut
    split_ifs at hdut with hclip
    obtain rfl := Option.some.inj hdut
    exact key (1900 + (y : ℤ)) (by omega)
  · rw [if_neg hyr] at hdut
    split_ifs at hdut with hclip
    obtain rfl := Option.some.inj hdut
    exact key (y : ℤ) (by omega)

theorem ERA_MULT_pos : (0 : ℚ) < ERA_MULT := by norm_num [ERA_MULT]

/-- Helper: the Gregorian case of the amended monotonicity claim. -/
theorem normalizeDate_greg_lt {eraOrder : List String} {a b : String}
    {y1 mo1 d1 : ℕ} {tm1 : Option (ℕ × ℕ × ℕ)} {y2 mo2 d2 : ℕ} {tm2 : Option (ℕ × ℕ × ℕ)}
    (hga : gregMatch (jsTrimList a.data) = some (y1, mo1, d1, tm1))
    (hgb : gregMatch (jsTrimList b.data) = some (y2, mo2, d2, tm2))
    (hv1 : ValidYMD y1 mo1 d1)
    (ht1 : ValidHMS (tm1.getD (0, 0, 0)).1 (tm1.getD (0, 0, 0)).2.1 (tm1.getD (0, 0, 0)).2.2)
    (hv2 : ValidYMD y2 mo2 d2)
    (ht2 : ValidHMS (tm2.getD (0, 0, 0)).1 (tm2.getD (0, 0, 0)).2.1 (tm2.getD (0, 0, 0)).2.2)
    (hy1 : 100 ≤ y1) (hy2 : 100 ≤ y2)
    (hlex : y1 < y2 ∨ (y1 = y2 ∧ (mo1 < mo2 ∨ (mo1 = mo2 ∧ (d1 < d2 ∨ (d1 = d2 ∧
      ((tm1.getD (0, 0, 0)).1 < (tm2.getD (0, 0, 0)).1 ∨
        ((tm1.getD (0, 0, 0)).1 = (tm2.getD (0, 0, 0)).1 ∧
          ((tm1.getD (0, 0, 0)).2.1 < (tm2.getD (0, 0, 0)).2.1 ∨
            ((tm1.getD (0, 0, 0)).2.1 = (tm2.getD (0, 0, 0)).2.1 ∧
              (tm1.getD (0, 0, 0)).2.2 < (tm2.getD (0, 0, 0)).2.2)))))))))) :
    normalizeDate a eraOrder < normalizeDate b eraOrder := by
  rw [normalizeDate_greg hga, normalizeDate_greg hgb]
  have hs1 := gregMatch_shape hga
  have hs2 := gregMatch_shape hgb
  have hl1 : d1 ≤ 31 := le_trans hv1.2.2.2 (monthLen_le _ _)
  have hl2 : d2 ≤ 31 := le_trans hv2.2.2.2 (monthLen_le _ _)
  rw [jsDateUTC_valid_eq hy1 hs1.1 hv1.1 hv1.2.1 hv1.2.2.1 hl1 ht1.1 ht1.2.1 ht1.2.2,
    jsDateUTC_valid_eq hy2 hs2.1 hv2.1 hv2.2.1 hv2.2.2.1 hl2 ht2.1 ht2.2.1 ht2.2.2]
  show JsNum.fin _ < JsNum.fin _
  rw [JsNum.fin_lt_fin]
  have := utcRaw_strict_mono hv1 ht1 hv2 ht2 hlex
  exact_mod_cast this

/-- C2 (amended): `normalizeDate` is strictly monotone along the
`ChronoBefore` relation. -/
theorem c2_normalize_monotone (eraOrder : List String) (a b : String)
    (h : ChronoBefore eraOrder a b) :
    normalizeDate a eraOrder < normalizeDate b eraOrder := by
  rcases h with ⟨va, vb, ha, hb, hlt⟩ |
    ⟨y1, mo1, d1, tm1, y2, mo2, d2, tm2, hga, hgb, hv1, ht1, hv2, ht2, hy1, hy2, hlex⟩ |
    ⟨i, era, v1, v2, hna, hnb, hba, hbb, hgA, hgB, hea, heb, hva, hvb, hlt⟩ |
    ⟨i, j, erai, eraj, v1, v2, hna, hnb, hba, hbb, hgA, hgB, hea, heb, hij, hva, hvb,
      hv1a, hv1b, hv2a, hv2b⟩
  · rw [normalizeDate_bc ha, normalizeDate_bc hb, JsNum.fin_lt_fin]
    linarith
  · exact normalizeDate_greg_lt hga hgb hv1 ht1 hv2 ht2 hy1 hy2 hlex
  · rw [normalizeDate_era_eval hna hba hgA hea hva,
      normalizeDate_era_eval hnb hbb hgB heb hvb, JsNum.fin_lt_fin]
    exact add_lt_add_left hlt _
  · rw [normalizeDate_era_eval hna hba hgA hea hva,
      normalizeDate_era_eval hnb hbb hgB heb hvb, JsNum.fin_lt_fin]
    have hM := ERA_MULT_pos
    have h1 : ((i : ℤ) : ℚ) + 1 ≤ ((j : ℤ) : ℚ) := by exact_mod_cast hij
    nlinarith [hv1b, hv2a, hM, h1]

theorem bc_before_5_3 : ChronoBefore [] "BC 5" "BC 3" := by
  left
  refine ⟨((digitsToNat ['5'] : ℕ) : ℚ), ((digitsToNat ['3'] : ℕ) : ℚ), by rfl, by rfl, ?_⟩
  have h5 : digitsToNat ['5'] = 5 := by decide
  have h3 : digitsToNat ['3'] = 3 := by decide
  rw [h5, h3]
  norm_num

/-- Witness: the amended monotonicity applied to the concrete BC pair
`BC 5` (earlier) and `BC 3` (later). -/
theorem c2_normalize_monotone_witness :
    ChronoBefore [] "BC 5" "BC 3" ∧ normalizeDate "BC 5" [] < normalizeDate "BC 3" [] :=
  ⟨bc_before_5_3, c2_normalize_monotone [] "BC 5" "BC 3" bc_before_5_3⟩

theorem decimal_zero_pad : decimalOfDigits ['0'] (padEndZeros [] 10) = 0 := by
  unfold decimalOfDigits
  have h1 : digitsToNat ['0'] = 0 := by decide
  have h2 : digitsToNat (padEndZeros [] 10) = 0 := by decide
  rw [h1, h2]
  norm_num

theorem normalizeDate_yi_0 : normalizeDate "乙 0" ["甲", "乙"] = .fin 100000000000000 := by
  have hval : eraNumericValue (jsTrimList ((jsTrimList "乙 0".data).drop "乙".data.length)) =
      some (.fin (decimalOfDigits ['0'] (padEndZeros [] 10))) := by rfl
  rw [decimal_zero_pad] at hval
  have h := @normalizeDate_era_eval "乙 0" ["甲", "乙"] 1 "乙" _
    (by decide) (by rfl) (by rfl) (by rfl) hval
  rw [h]
  have ha : anchorIndex ["甲", "乙"] = 0 := by rfl
  rw [ha]
  norm_num [ERA_MULT]

theorem normalizeDate_jia_big :
    normalizeDate "甲 200000000000000" ["甲", "乙"] = .fin 200000000000000 := by
  have hval : eraNumericValue
      (jsTrimList ((jsTrimList "甲 200000000000000".data).drop "甲".data.length)) =
      some (.fin (decimalOfDigits ['2', '0', '0', '0', '0', '0', '0', '0', '0', '0', '0', '0',
        '0', '0', '0'] (padEndZeros [] 10))) := by rfl
  have hd : decimalOfDigits ['2', '0', '0', '0', '0', '0', '0', '0', '0', '0', '0', '0',
      '0', '0', '0'] (padEndZeros [] 10) = 200000000000000 := by
    unfold decimalOfDigits
    have h1 : digitsToNat ['2', '0', '0', '0', '0', '0', '0', '0', '0', '0', '0', '0',
        '0', '0', '0'] = 200000000000000 := by decide
    have h2 : digitsToNat (padEndZeros [] 10) = 0 := by decide
    rw [h1, h2]
    norm_num
  rw [hd] at hval
  have h := @normalizeDate_era_eval "甲 200000000000000" ["甲", "乙"] 0 "甲" _
    (by decide) (by rfl) (by rfl) (by rfl) hval
  rw [h]
  have ha : anchorIndex ["甲", "乙"] = 0 := by rfl
  rw [ha]
  norm_num [ERA_MULT]

/-- Counterexample to C2 as stated. Chronologically, `0099-01-01` lies
before `0100-01-01`, yet the code keys it *after* (the ECMAScript
two-digit-year rule maps year 0099 to 1999); and with
`eraOrder = ["甲", "乙"]`, a date of era 甲 (position 0) keys after a
date of era 乙 (position 1) when the in-era value is large enough
(`2 * 10^14`), so the era position does not dominate unconditionally. -/
theorem c2_counterexample :
    normalizeDate "0100-01-01" [] < normalizeDate "0099-01-01" [] ∧
    ¬normalizeDate "0099-01-01" [] < normalizeDate "0100-01-01" [] ∧
    normalizeDate "乙 0" ["甲", "乙"] < normalizeDate "甲 200000000000000" ["甲", "乙"] ∧
    ¬normalizeDate "甲 200000000000000" ["甲", "乙"] < normalizeDate "乙 0" ["甲", "乙"] := by
  refine ⟨by decide, by decide, ?_, ?_⟩
  · rw [normalizeDate_yi_0, normalizeDate_jia_big, JsNum.fin_lt_fin]
    norm_num
  · rw [normalizeDate_yi_0, normalizeDate_jia_big, JsNum.fin_lt_fin]
    norm_num

/-- C5: the custom-era key formula — `(eraIndex − anchorIndex) · 10¹⁴`
plus the parsed value with its fraction right-padded to 10 digits — and
the concrete scenario: with `eraOrder = ["传说纪元", "公元纪年"]` the key
of `传说纪元 3.0100000000` is strictly below the key of every
Gregorian-form date string. -/
theorem c5_era_key_formula :
    (∀ (eraOrder : List String) (s : String) (i : ℕ) (era : String) (v : ℚ),
      s ≠ "" →
      bcMatchValue (jsTrimList s.data) = none →
      gregMatch (jsTrimList s.data) = none →
      firstEraMatch (jsTrimList s.data) eraOrder = some (i, era) →
      eraNumericValue (jsTrimList ((jsTrimList s.data).drop era.data.length)) =
        some (.fin v) →
      normalizeDate s eraOrder =
        .fin ((((i : ℤ) - (anchorIndex eraOrder : ℤ)) : ℚ) * ERA_MULT + v)) ∧
    (∀ (g : String) (y mo d : ℕ) (tm : Option (ℕ × ℕ × ℕ)),
      gregMatch (jsTrimList g.data) = some (y, mo, d, tm) →
      normalizeDate "传说纪元 3.0100000000" ["传说纪元", "公元纪年"] <
        normalizeDate g ["传说纪元", "公元纪年"]) := by
  constructor
  · intro eraOrder s i era v hne hbc hg hera hval
    exact normalizeDate_era_eval hne hbc hg hera hval
  · intro g y mo d tm hg
    have hval : eraNumericValue (jsTrimList ((jsTrimList "传说纪元 3.0100000000".data).drop
        "传说纪元".data.length)) =
        some (.fin (decimalOfDigits ['3']
          ['0', '1', '0', '0', '0', '0', '0', '0', '0', '0'])) := by rfl
    have hd : decimalOfDigits ['3'] ['0', '1', '0', '0', '0', '0', '0', '0', '0', '0'] =
        301 / 100 := by
      unfold decimalOfDigits
      have h1 : digitsToNat ['3'] = 3 := by decide
      have h2 : digitsToNat ['0', '1', '0', '0', '0', '0', '0', '0', '0', '0'] =
          100000000 := by decide
      rw [h1, h2]
      norm_num
    rw [hd] at hval
    have hkey := @normalizeDate_era_eval "传说纪元 3.0100000000"
      ["传说纪元", "公元纪年"] 0 "传说纪元" _
      (by decide) (by rfl) (by rfl) (by rfl) hval
    have ha : anchorIndex ["传说纪元", "公元纪年"] = 1 := by rfl
    rw [ha] at hkey
    rw [hkey, normalizeDate_greg hg]
    have hshape := gregMatch_shape hg
    cases hms : jsDateUTC (y : ℤ) ((mo : ℤ) - 1) (d : ℤ) ((tm.getD (0, 0, 0)).1 : ℤ)
        ((tm.getD (0, 0, 0)).2.1 : ℤ) ((tm.getD (0, 0, 0)).2.2 : ℤ) with
    | none => exact JsNum.fin_lt_posInf _
    | some ms =>
      have hlow := jsDateUTC_lower hshape.1 hshape.2.1 hms
      show JsNum.fin _ < JsNum.fin _
      rw [JsNum.fin_lt_fin]
      push_cast
      have hcast : (-59043081600000 : ℚ) ≤ (ms : ℚ) := by exact_mod_cast hlow
      norm_num [ERA_MULT]
      linarith

theorem era_value_2_5 :
    eraNumericValue (jsTrimList ((jsTrimList "甲 2.5".data).drop "甲".data.length)) =
      some (.fin (5 / 2)) := by
  have hval : eraNumericValue (jsTrimList ((jsTrimList "甲 2.5".data).drop "甲".data.length)) =
      some (.fin (decimalOfDigits ['2'] (padEndZeros ['5'] 10))) := by rfl
  have hd : decimalOfDigits ['2'] (padEndZeros ['5'] 10) = 5 / 2 := by
    unfold decimalOfDigits
    have h1 : digitsToNat ['2'] = 2 := by decide
    have h2 : digitsToNat (padEndZeros ['5'] 10) = 5000000000 := by decide
    have h3 : (padEndZeros ['5'] 10).length = 10 := by decide
    rw [h1, h2, h3]
    norm_num
  rw [hd] at hval
  exact hval

/-- Witness for C5: the formula applied to the concrete date `甲 2.5`
with `eraOrder = ["甲"]`, and the scenario comparison applied to the
concrete Gregorian date `2020-05-06`. -/
theorem c5_era_key_formula_witness :
    normalizeDate "甲 2.5" ["甲"] =
      .fin ((((0 : ℕ) : ℤ) - ((anchorIndex ["甲"] : ℕ) : ℤ) : ℚ) * ERA_MULT + 5 / 2) ∧
    normalizeDate "传说纪元 3.0100000000" ["传说纪元", "公元纪年"] <
      normalizeDate "2020-05-06" ["传说纪元", "公元纪年"] := by
  constructor
  · exact c5_era_key_formula.1 ["甲"] "甲 2.5" 0 "甲" (5 / 2) (by decide) (by rfl) (by rfl)
      (by rfl) era_value_2_5
  · exact c5_era_key_formula.2 "2020-05-06" 2020 5 6 none (by rfl)

/-- C9: a date string whose era name matches but whose remaining value
is unparseable (`parseFloat` returns `NaN`) keys at the era's base value
`(eraIndex − anchorIndex) · 10¹⁴` — the `|| 0` coercion — and not at the
unsortable `Infinity` sentinel. -/
theorem c9_era_nan_keys_at_base :
    ∀ (eraOrder : List String) (s : String) (i : ℕ) (era : String),
      s ≠ "" →
      bcMatchValue (jsTrimList s.data) = none →
      gregMatch (jsTrimList s.data) = none →
      firstEraMatch (jsTrimList s.data) eraOrder = some (i, era) →
      eraNumericValue (jsTrimList ((jsTrimList s.data).drop era.data.length)) = none →
      normalizeDate s eraOrder =
          .fin ((((i : ℤ) - (anchorIndex eraOrder : ℤ)) : ℚ) * ERA_MULT) ∧
        normalizeDate s eraOrder ≠ .posInf := by
  intro eraOrder s i era hne hbc hg hera hval
  have h := normalizeDate_era_nan hne hbc hg hera hval
  refine ⟨h, ?_⟩
  rw [h]
  simp

/-- Witness for C9: the malformed era date `甲 abc` with
`eraOrder = ["甲"]`. -/
theorem c9_era_nan_keys_at_base_witness :
    normalizeDate "甲 abc" ["甲"] =
        .fin ((((0 : ℕ) : ℤ) - ((anchorIndex ["甲"] : ℕ) : ℤ) : ℚ) * ERA_MULT) ∧
      normalizeDate "甲 abc" ["甲"] ≠ .posInf :=
  c9_era_nan_keys_at_base ["甲"] "甲 abc" 0 "甲" (by decide) (by rfl) (by rfl) (by rfl)
    (by rfl)

theorem eventHeight_pos (expanded : List String) (e : StoryEvent) :
    0 < eventHeight expanded e := by
  unfold eventHeight
  split_ifs <;> norm_num

theorem gapBetween_ge (conns : List EventConnection) (a b : StoryEvent) :
    25 ≤ gapBetween conns a b := by
  unfold gapBetween
  split_ifs <;> norm_num

theorem nextGap_ge (conns : List EventConnection) (e : StoryEvent) (l : List StoryEvent) :
    25 ≤ nextGap conns e l := by
  cases l with
  | nil => norm_num [nextGap]
  | cons next r => exact gapBetween_ge conns e next

theorem stackHeight_nonneg (conns : List EventConnection) (expanded : List String)
    (g : List StoryEvent) : 0 ≤ stackHeight conns expanded g := by
  induction g with
  | nil => simp [stackHeight]
  | cons e rest ih =>
    cases rest with
    | nil =>
      simp only [stackHeight]
      linarith [eventHeight_pos expanded e]
    | cons next r2 =>
      simp only [stackHeight]
      have := eventHeight_pos expanded e
      have := gapBetween_ge conns e next
      linarith

theorem stackHeight_ge_member {conns : List EventConnection} {expanded : List String}
    {g : List StoryEvent} {e : StoryEvent} (he : e ∈ g) :
    eventHeight expanded e ≤ stackHeight conns expanded g := by
  induction g with
  | nil => simp at he
  | cons a rest ih =>
    cases rest with
    | nil =>
      obtain rfl : e = a := by simpa using he
      simp [stackHeight]
    | cons next r2 =>
      rcases List.mem_cons.mp he with rfl | hmem
      · simp only [stackHeight]
        have := gapBetween_ge conns e next
        have := stackHeight_nonneg conns expanded (next :: r2)
        linarith
      · simp only [stackHeight]
        have := ih hmem
        have := eventHeight_pos expanded a
        have := gapBetween_ge conns a next
        linarith

/-- Fields of a stack entry. -/
theorem stackEntries_fields {inp : EngineInput} {levels : List (String × ℕ)} {baseX : ℚ}
    {g : List StoryEvent} {y0 : ℚ} {q : String × LayoutEntry}
    (hq : q ∈ stackEntries inp levels baseX g y0) :
    q.1 = q.2.event.id ∧ q.2.event ∈ g ∧
      q.2.x = baseX + (effIndent levels q.2.event : ℚ) * 20 ∧ q.2.width = 200 ∧
      q.2.height = eventHeight inp.expandedEvents q.2.event ∧
      (findEventType inp.eventTypes q.2.event).isSome = true := by
  induction g generalizing y0 with
  | nil => simp [stackEntries] at hq
  | cons e rest ih =>
    simp only [stackEntries] at hq
    cases hft : findEventType inp.eventTypes e with
    | none =>
      rw [hft] at hq
      dsimp only at hq
      obtain ⟨h1, h2, h3⟩ := ih hq
      exact ⟨h1, List.mem_cons_of_mem _ h2, h3⟩
    | some et =>
      rw [hft] at hq
      dsimp only at hq
      rcases List.mem_cons.mp hq with rfl | hq2
      · exact ⟨rfl, List.mem_cons_self _ _, rfl, rfl, rfl, by simp [hft]⟩
      · obtain ⟨h1, h2, h3⟩ := ih hq2
        exact ⟨h1, List.mem_cons_of_mem _ h2, h3⟩

/-- Dropping the head of a stack never increases the stack height. -/
theorem stackHeight_cons_ge (conns : List EventConnection) (expanded : List String)
    (e : StoryEvent) (rest : List StoryEvent) :
    stackHeight conns expanded rest ≤ stackHeight conns expanded (e :: rest) := by
  cases rest with
  | nil =>
    simp only [stackHeight]
    linarith [eventHeight_pos expanded e]
  | cons next r2 =>
    simp only [stackHeight]
    have := eventHeight_pos expanded e
    have := gapBetween_ge conns e next
    linarith

/-- Vertical containment of the stack walk inside `[y0, y0 + stackHeight]`
(members skipped by the walk still count toward the stack height, so the
entries sit in the upper part of the band). -/
theorem stackEntries_contained {inp : EngineInput} {levels : List (String × ℕ)} {baseX : ℚ}
    {g : List StoryEvent} {y0 : ℚ} {q : String × LayoutEntry}
    (hq : q ∈ stackEntries inp levels baseX g y0) :
    y0 ≤ q.2.y ∧
      q.2.y + q.2.height ≤ y0 + stackHeight inp.eventConnections inp.expandedEvents g := by
  induction g generalizing y0 with
  | nil => simp [stackEntries] at hq
  | cons e rest ih =>
    simp only [stackEntries] at hq
    cases hft : findEventType inp.eventTypes e with
    | none =>
      rw [hft] at hq
      dsimp only at hq
      have hih := ih hq
      have hmono := stackHeight_cons_ge inp.eventConnections inp.expandedEvents e rest
      exact ⟨hih.1, by linarith [hih.2]⟩
    | some et =>
      rw [hft] at hq
      dsimp only at hq
      rcases List.mem_cons.mp hq with rfl | hq2
      · refine ⟨le_refl _, ?_⟩
        show y0 + eventHeight inp.expandedEvents e ≤ _
        have := @stackHeight_ge_member inp.eventConnections
          inp.expandedEvents (e :: rest) _ (List.mem_cons_self e rest)
        linarith
      · cases rest with
        | nil => simp [stackEntries] at hq2
        | cons next r2 =>
          have hih := ih hq2
          simp only [stackHeight, nextGap] at hih ⊢
          constructor
          · have := eventHeight_pos inp.expandedEvents e
            have := gapBetween_ge inp.eventConnections e next
            linarith [hih.1]
          · linarith [hih.2]

/-- Two stack entries with different keys are separated vertically by at
least the base same-day gap of 25. -/
theorem stackEntries_pair {inp : EngineInput} {levels : List (String × ℕ)} {baseX : ℚ}
    {g : List StoryEvent} {y0 : ℚ} {q1 q2 : String × LayoutEntry}
    (h1 : q1 ∈ stackEntries inp levels baseX g y0)
    (h2 : q2 ∈ stackEntries inp levels baseX g y0)
    (hne : q1.1 ≠ q2.1) :
    q1.2.y + q1.2.height + 25 ≤ q2.2.y ∨ q2.2.y + q2.2.height + 25 ≤ q1.2.y := by
  induction g generalizing y0 with
  | nil => simp [stackEntries] at h1
  | cons e rest ih =>
    simp only [stackEntries] at h1 h2
    cases hft : findEventType inp.eventTypes e with
    | none =>
      rw [hft] at h1 h2
      dsimp only at h1 h2
      exact ih h1 h2
    | some et =>
      rw [hft] at h1 h2
      dsimp only at h1 h2
      have htail_lb : ∀ q, q ∈ stackEntries inp levels baseX rest
          (y0 + eventHeight inp.expandedEvents e + nextGap inp.eventConnections e rest) →
          y0 + eventHeight inp.expandedEvents e + 25 ≤ q.2.y := by
        intro q hq
        have := (stackEntries_contained hq).1
        have := nextGap_ge inp.eventConnections e rest
        linarith
      rcases List.mem_cons.mp h1 with rfl | h1' <;> rcases List.mem_cons.mp h2 with rfl | h2'
      · exact absurd rfl hne
      · left
        have := htail_lb q2 h2'
        simpa using this
      · right
        have := htail_lb q1 h1'
        simpa using this
      · exact ih h1' h2' 

/-! Generic fold lemmas and the accumulator invariants of the layout
passes (`dayColumnGeometries`, `laneGeometriesAndY`, `eventLayouts`). -/

theorem jsMapSet_mem {β : Type} {m : List (String × β)} {k : String} {v : β}
    {q : String × β} (hq : q ∈ jsMapSet m k v) : q ∈ m ∨ q = (k, v) := by
  unfold jsMapSet at hq
  split_ifs at hq with h
  · obtain ⟨p, hp, hpq⟩ := List.mem_map.mp hq
    by_cases hb : (p.1 == k) = true
    · rw [if_pos hb] at hpq
      exact Or.inr hpq.symm
    · rw [if_neg hb] at hpq
      exact Or.inl (hpq ▸ hp)
  · rcases List.mem_append.mp hq with h1 | h1
    · exact Or.inl h1
    · exact Or.inr (List.mem_singleton.mp h1)

theorem jsMapSet_keys_nodup {β : Type} {m : List (String × β)} (k : String) (v : β)
    (h : (m.map Prod.fst).Nodup) : ((jsMapSet m k v).map Prod.fst).Nodup := by
  unfold jsMapSet
  split_ifs with hc
  · have heq : ((m.map fun p => if p.1 == k then (k, v) else p).map Prod.fst) =
        m.map Prod.fst := by
      rw [List.map_map]
      apply List.map_congr_left
      intro p _
      show (if p.1 == k then (k, v) else p).1 = p.1
      by_cases hb : (p.1 == k) = true
      · rw [if_pos hb]
        exact (beq_iff_eq.mp hb).symm
      · rw [if_neg hb]
    rw [heq]
    exact h
  · rw [List.map_append]
    simp only [List.map_cons, List.map_nil]
    rw [List.nodup_append]
    refine ⟨h, List.nodup_singleton k, ?_⟩
    intro a ha hal
    obtain rfl : a = k := List.mem_singleton.mp hal
    apply hc
    simp only [List.any_eq_true, beq_iff_eq]
    obtain ⟨p, hp, hpk⟩ := List.mem_map.mp ha
    exact ⟨p, hp, hpk⟩

/-- Two members of a list with `Nodup` image under `f` that agree under
`f` are equal. -/
theorem mem_map_nodup_eq {α β : Type} (f : α → β) {l : List α} {a1 a2 : α}
    (hnd : (l.map f).Nodup) (h1 : a1 ∈ l) (h2 : a2 ∈ l) (he : f a1 = f a2) : a1 = a2 := by
  induction l with
  | nil => simp at h1
  | cons p rest ih =>
    rw [List.map_cons, List.nodup_cons] at hnd
    rcases List.mem_cons.mp h1 with rfl | h1' <;> rcases List.mem_cons.mp h2 with rfl | h2'
    · rfl
    · exact absurd (by rw [he]; exact List.mem_map_of_mem f h2') hnd.1
    · exact absurd (by rw [← he]; exact List.mem_map_of_mem f h1') hnd.1
    · exact ih hnd.2 h1' h2'

theorem foldl_mem_or {α β : Type} (f : List β → α → List β) (P : α → β → Prop)
    (H : ∀ m a q, q ∈ f m a → q ∈ m ∨ P a q) :
    ∀ (l : List α) (m : List β) (q : β), q ∈ l.foldl f m → q ∈ m ∨ ∃ a ∈ l, P a q := by
  intro l
  induction l with
  | nil => intro m q hq; exact Or.inl hq
  | cons a rest ih =>
    intro m q hq
    rcases ih (f m a) q hq with h | ⟨b, hb, hP⟩
    · rcases H m a q h with h1 | h1
      · exact Or.inl h1
      · exact Or.inr ⟨a, List.mem_cons_self _ _, h1⟩
    · exact Or.inr ⟨b, List.mem_cons_of_mem _ hb, hP⟩

theorem foldl_invariant_mem {α β : Type} (f : β → α → β) (P : β → Prop) :
    ∀ (l : List α), (∀ b a, a ∈ l → P b → P (f b a)) → ∀ b, P b → P (l.foldl f b) := by
  intro l
  induction l with
  | nil => intro _ b hb; exact hb
  | cons a rest ih =>
    intro H b hb
    exact ih (fun b' a' ha' hb' => H b' a' (List.mem_cons_of_mem _ ha') hb') (f b a)
      (H b a (List.mem_cons_self _ _) hb)

theorem foldl_max_init {α : Type} (f : α → ℚ) (l : List α) :
    ∀ x : ℚ, x ≤ l.foldl (fun a y => max a (f y)) x := by
  induction l with
  | nil => intro x; exact le_refl x
  | cons a rest ih =>
    intro x
    exact le_trans (le_max_left x (f a)) (ih (max x (f a)))

theorem foldl_max_mem {α : Type} (f : α → ℚ) (e : α) :
    ∀ (l : List α), e ∈ l → ∀ x : ℚ, f e ≤ l.foldl (fun a y => max a (f y)) x := by
  intro l
  induction l with
  | nil => intro he; simp at he
  | cons a rest ih =>
    intro he x
    rcases List.mem_cons.mp he with rfl | h
    · exact le_trans (le_max_right x (f e)) (foldl_max_init f rest (max x (f e)))
    · exact ih h (max x (f a))

theorem contentWidth_ge (levels : List (String × ℕ)) (g : List StoryEvent) :
    200 ≤ contentWidth levels g :=
  foldl_max_init (fun e => (effIndent levels e : ℚ) * 20 + 200) g 200

theorem contentWidth_mem {levels : List (String × ℕ)} {g : List StoryEvent} {e : StoryEvent}
    (he : e ∈ g) : (effIndent levels e : ℚ) * 20 + 200 ≤ contentWidth levels g :=
  foldl_max_mem (fun e2 => (effIndent levels e2 : ℚ) * 20 + 200) e g he 200

theorem maxColumnHeight_nonneg (inp : EngineInput) (sid : String) :
    0 ≤ maxColumnHeight inp sid := by
  unfold maxColumnHeight
  generalize storylineDayGroups inp sid = l
  have h := foldl_max_init (fun p : String × List StoryEvent =>
    stackHeight inp.eventConnections inp.expandedEvents p.2) l 0
  exact h

theorem stackHeight_le_max {inp : EngineInput} {sid : String} {p : String × List StoryEvent}
    (hp : p ∈ storylineDayGroups inp sid) :
    stackHeight inp.eventConnections inp.expandedEvents p.2 ≤ maxColumnHeight inp sid := by
  unfold maxColumnHeight
  revert hp
  generalize storylineDayGroups inp sid = l
  intro hp
  have h := foldl_max_mem (fun p2 : String × List StoryEvent =>
    stackHeight inp.eventConnections inp.expandedEvents p2.2) p l hp 0
  exact h

theorem laneHeightOf_ge (inp : EngineInput) (sid : String) : 80 ≤ laneHeightOf inp sid :=
  le_max_left 80 _

theorem laneHeightOf_ge_stack {inp : EngineInput} {sid : String}
    {p : String × List StoryEvent} (hp : p ∈ storylineDayGroups inp sid) :
    stackHeight inp.eventConnections inp.expandedEvents p.2 + 40 ≤ laneHeightOf inp sid := by
  have h1 := stackHeight_le_max hp
  have h2 : maxColumnHeight inp sid + 40 ≤ laneHeightOf inp sid := le_max_right 80 _
  linarith

/-! Day columns: widths, left-to-right progression, pairwise gaps. -/

theorem columnsFrom_width {widths : List (String × ℚ)} :
    ∀ {keys : List String} {x0 : ℚ} {q : String × ColGeo},
      q ∈ columnsFrom widths keys x0 → q.2.width = (jsMapGet widths q.1).getD 200 := by
  intro keys
  induction keys with
  | nil => intro x0 q hq; simp [columnsFrom] at hq
  | cons k rest ih =>
    intro x0 q hq
    simp only [columnsFrom, List.mem_cons] at hq
    rcases hq with rfl | hq
    · rfl
    · exact ih hq

theorem columnsFrom_lb {widths : List (String × ℚ)}
    (hw : ∀ k : String, 0 ≤ (jsMapGet widths k).getD 200) :
    ∀ {keys : List String} {x0 : ℚ} {q : String × ColGeo},
      q ∈ columnsFrom widths keys x0 → x0 ≤ q.2.x := by
  intro keys
  induction keys with
  | nil => intro x0 q hq; simp [columnsFrom] at hq
  | cons k rest ih =>
    intro x0 q hq
    simp only [columnsFrom, List.mem_cons] at hq
    rcases hq with rfl | hq
    · exact le_refl _
    · have h1 := ih hq
      have h2 := hw k
      linarith

theorem columnsFrom_pair {widths : List (String × ℚ)}
    (hw : ∀ k : String, 0 ≤ (jsMapGet widths k).getD 200) :
    ∀ {keys : List String} {x0 : ℚ} {q1 q2 : String × ColGeo},
      q1 ∈ columnsFrom widths keys x0 → q2 ∈ columnsFrom widths keys x0 → q1.1 ≠ q2.1 →
      q1.2.x + q1.2.width + 80 ≤ q2.2.x ∨ q2.2.x + q2.2.width + 80 ≤ q1.2.x := by
  intro keys
  induction keys with
  | nil => intro x0 q1 q2 h1 h2 hne; simp [columnsFrom] at h1
  | cons k rest ih =>
    intro x0 q1 q2 h1 h2 hne
    simp only [columnsFrom, List.mem_cons] at h1 h2
    rcases h1 with rfl | h1 <;> rcases h2 with rfl | h2
    · exact absurd rfl hne
    · exact Or.inl (columnsFrom_lb hw h2)
    · exact Or.inr (columnsFrom_lb hw h1)
    · exact ih h1 h2 hne

theorem dayColumnContentWidths_ge (inp : EngineInput) :
    ∀ k : String, 0 ≤ (jsMapGet (dayColumnContentWidths inp) k).getD 200 := by
  intro k
  cases h : jsMapGet (dayColumnContentWidths inp) k with
  | none => norm_num
  | some w =>
    have hmem := jsMapGet_mem h
    simp only [dayColumnContentWidths, List.mem_map] at hmem
    obtain ⟨p, hp, hpe⟩ := hmem
    have hval : contentWidth (indentLevels inp) p.2 = w := congrArg Prod.snd hpe
    simp only [Option.getD_some]
    rw [← hval]
    linarith [contentWidth_ge (indentLevels inp) p.2]

theorem colGeo_width {inp : EngineInput} {k : String} {col : ColGeo}
    (h : jsMapGet (dayColumnGeometries inp) k = some col) :
    col.width = (jsMapGet (dayColumnContentWidths inp) k).getD 200 := by
  have hmem := jsMapGet_mem h
  simp only [dayColumnGeometries] at hmem
  exact columnsFrom_width hmem

theorem dayColumns_disjoint {inp : EngineInput} {k1 k2 : String} {c1 c2 : ColGeo}
    (h1 : jsMapGet (dayColumnGeometries inp) k1 = some c1)
    (h2 : jsMapGet (dayColumnGeometries inp) k2 = some c2) (hne : k1 ≠ k2) :
    c1.x + c1.width + 80 ≤ c2.x ∨ c2.x + c2.width + 80 ≤ c1.x := by
  have hm1 := jsMapGet_mem h1
  have hm2 := jsMapGet_mem h2
  simp only [dayColumnGeometries] at hm1 hm2
  exact columnsFrom_pair (dayColumnContentWidths_ge inp) hm1 hm2 hne

theorem laneAcc_final (inp : EngineInput) :
    LaneAcc inp (laneGeometriesAndY inp).1 (laneGeometriesAndY inp).2 := by
  unfold laneGeometriesAndY
  refine foldl_invariant_mem _ (fun acc => LaneAcc inp acc.1 acc.2) inp.storylines ?_ ([], 0)
    ⟨le_refl 0, by intro q hq; simp at hq, by intro q1 h1; simp at h1, by intro q hq; simp at hq⟩
  intro b s hs hb
  obtain ⟨hc, hin, hpair, hkey⟩ := hb
  show LaneAcc inp (jsMapSet b.1 s.id ⟨b.2, laneHeightOf inp s.id⟩)
    (b.2 + laneHeightOf inp s.id)
  have h80 := laneHeightOf_ge inp s.id
  refine ⟨by linarith, ?_, ?_, ?_⟩
  · intro q hq
    rcases jsMapSet_mem hq with hq1 | rfl
    · obtain ⟨ha, hb2, hh⟩ := hin q hq1
      exact ⟨ha, by linarith, hh⟩
    · exact ⟨hc, le_refl _, rfl⟩
  · intro q1 h1 q2 h2 hne
    rcases jsMapSet_mem h1 with h1' | rfl <;> rcases jsMapSet_mem h2 with h2' | rfl
    · exact hpair q1 h1' q2 h2' hne
    · exact Or.inl (hin q1 h1').2.1
    · exact Or.inr (hin q2 h2').2.1
    · exact absurd rfl hne
  · intro q hq
    rcases jsMapSet_mem hq with hq1 | rfl
    · exact hkey q hq1
    · exact List.mem_map_of_mem Storyline.id hs

theorem laneGeo_props {inp : EngineInput} {sid : String} {lg : LaneGeo}
    (h : jsMapGet (laneGeometries inp) sid = some lg) :
    0 ≤ lg.y ∧ lg.height = laneHeightOf inp sid ∧
      sid ∈ inp.storylines.map Storyline.id := by
  have hmem : (sid, lg) ∈ (laneGeometriesAndY inp).1 := jsMapGet_mem h
  obtain ⟨_, hin, _, hkey⟩ := laneAcc_final inp
  exact ⟨(hin _ hmem).1, (hin _ hmem).2.2, hkey _ hmem⟩

theorem lanes_disjoint {inp : EngineInput} {s1 s2 : String} {lg1 lg2 : LaneGeo}
    (h1 : jsMapGet (laneGeometries inp) s1 = some lg1)
    (h2 : jsMapGet (laneGeometries inp) s2 = some lg2) (hne : s1 ≠ s2) :
    lg1.y + lg1.height ≤ lg2.y ∨ lg2.y + lg2.height ≤ lg1.y := by
  have hm1 : (s1, lg1) ∈ (laneGeometriesAndY inp).1 := jsMapGet_mem h1
  have hm2 : (s2, lg2) ∈ (laneGeometriesAndY inp).1 := jsMapGet_mem h2
  exact (laneAcc_final inp).2.2.1 _ hm1 _ hm2 hne

/-! `placeStack` and `eventLayouts`: membership and key distinctness. -/

theorem placeStack_cons_none {inp : EngineInput} {levels : List (String × ℕ)} {baseX : ℚ}
    {e : StoryEvent} {rest : List StoryEvent} {y0 : ℚ} {m : List (String × LayoutEntry)}
    (hft : findEventType inp.eventTypes e = none) :
    placeStack inp levels baseX (e :: rest) y0 m =
      placeStack inp levels baseX rest y0 m := by
  cases rest with
  | nil => simp only [placeStack, hft]
  | cons a l => simp only [placeStack, hft]

theorem placeStack_cons_some {inp : EngineInput} {levels : List (String × ℕ)} {baseX : ℚ}
    {e : StoryEvent} {rest : List StoryEvent} {y0 : ℚ} {m : List (String × LayoutEntry)}
    {et : EventType} (hft : findEventType inp.eventTypes e = some et) :
    placeStack inp levels baseX (e :: rest) y0 m =
      placeStack inp levels baseX rest
        (y0 + eventHeight inp.expandedEvents e + nextGap inp.eventConnections e rest)
        (jsMapSet m e.id ⟨baseX + (effIndent levels e : ℚ) * 20, y0, 200,
          eventHeight inp.expandedEvents e, e⟩) := by
  cases rest with
  | nil => simp only [placeStack, hft, nextGap]
  | cons a l => simp only [placeStack, hft, nextGap]

theorem placeStack_mem {inp : EngineInput} {levels : List (String × ℕ)} {baseX : ℚ} :
    ∀ {g : List StoryEvent} {y0 : ℚ} {m : List (String × LayoutEntry)}
      {q : String × LayoutEntry},
      q ∈ placeStack inp levels baseX g y0 m →
      q ∈ m ∨ q ∈ stackEntries inp levels baseX g y0 := by
  intro g
  induction g with
  | nil => intro y0 m q hq; exact Or.inl hq
  | cons e rest ih =>
    intro y0 m q hq
    cases hft : findEventType inp.eventTypes e with
    | none =>
      rw [placeStack_cons_none hft] at hq
      rcases ih hq with hm | htail
      · exact Or.inl hm
      · right
        simp only [stackEntries]
        rw [hft]
        exact htail
    | some et =>
      rw [placeStack_cons_some hft] at hq
      rcases ih hq with hm2 | htail
      · rcases jsMapSet_mem hm2 with h | rfl
        · exact Or.inl h
        · right
          simp only [stackEntries]
          rw [hft]
          exact List.mem_cons_self _ _
      · right
        simp only [stackEntries]
        rw [hft]
        exact List.mem_cons_of_mem _ htail

theorem placeStack_keys_nodup {inp : EngineInput} {levels : List (String × ℕ)} {baseX : ℚ} :
    ∀ {g : List StoryEvent} {y0 : ℚ} {m : List (String × LayoutEntry)},
      (m.map Prod.fst).Nodup → ((placeStack inp levels baseX g y0 m).map Prod.fst).Nodup := by
  intro g
  induction g with
  | nil => intro y0 m h; exact h
  | cons e rest ih =>
    intro y0 m h
    cases hft : findEventType inp.eventTypes e with
    | none =>
      rw [placeStack_cons_none hft]
      exact ih h
    | some et =>
      rw [placeStack_cons_some hft]
      exact ih (jsMapSet_keys_nodup _ _ h)

theorem eventLayouts_keys_nodup (inp : EngineInput) :
    ((eventLayouts inp).map Prod.fst).Nodup := by
  unfold eventLayouts
  have h := foldl_invariant_mem
    (fun (m : List (String × LayoutEntry)) (s : Storyline) =>
      match jsMapGet (laneGeometries inp) s.id with
      | none => m
      | some laneGeo =>
        (storylineDayGroups inp s.id).foldl
          (fun m2 p =>
            match jsMapGet (dayColumnGeometries inp) p.1 with
            | none => m2
            | some col =>
              let sh := stackHeight inp.eventConnections inp.expandedEvents p.2
              placeStack inp (indentLevels inp) col.x p.2
                (laneGeo.y + (laneGeo.height - sh) / 2) m2)
          m)
    (fun m => (m.map Prod.fst).Nodup) inp.storylines ?_ [] (by simp)
  · exact h
  intro m s _ hm
  dsimp only
  cases hlane : jsMapGet (laneGeometries inp) s.id with
  | none => exact hm
  | some lg =>
    have h2 := foldl_invariant_mem
      (fun (m2 : List (String × LayoutEntry)) (p : String × List StoryEvent) =>
        match jsMapGet (dayColumnGeometries inp) p.1 with
        | none => m2
        | some col =>
          let sh := stackHeight inp.eventConnections inp.expandedEvents p.2
          placeStack inp (indentLevels inp) col.x p.2
            (lg.y + (lg.height - sh) / 2) m2)
      (fun m2 => (m2.map Prod.fst).Nodup) (storylineDayGroups inp s.id) ?_ m hm
    · exact h2
    intro m2 p _ hm2
    dsimp only
    cases hcol : jsMapGet (dayColumnGeometries inp) p.1 with
    | none => exact hm2
    | some col => exact placeStack_keys_nodup hm2

theorem eventLayouts_mem {inp : EngineInput} {q : String × LayoutEntry}
    (hq : q ∈ eventLayouts inp) :
    ∃ sid lg, jsMapGet (laneGeometries inp) sid = some lg ∧
      ∃ p ∈ storylineDayGroups inp sid, ∃ col,
        jsMapGet (dayColumnGeometries inp) p.1 = some col ∧
        q ∈ stackEntries inp (indentLevels inp) col.x p.2
          (lg.y + (lg.height - stackHeight inp.eventConnections inp.expandedEvents p.2) / 2) := by
  unfold eventLayouts at hq
  rcases foldl_mem_or _
    (fun (s : Storyline) (q' : String × LayoutEntry) =>
      ∃ lg, jsMapGet (laneGeometries inp) s.id = some lg ∧
        ∃ p ∈ storylineDayGroups inp s.id, ∃ col,
          jsMapGet (dayColumnGeometries inp) p.1 = some col ∧
          q' ∈ stackEntries inp (indentLevels inp) col.x p.2
            (lg.y + (lg.height - stackHeight inp.eventConnections inp.expandedEvents p.2) / 2))
    (by
      intro m s q' hq'
      try dsimp only at hq'
      cases hlane : jsMapGet (laneGeometries inp) s.id with
      | none =>
        rw [hlane] at hq'
        exact Or.inl hq'
      | some lg =>
        rw [hlane] at hq'
        rcases foldl_mem_or _
          (fun (p : String × List StoryEvent) (q2 : String × LayoutEntry) =>
            ∃ col, jsMapGet (dayColumnGeometries inp) p.1 = some col ∧
              q2 ∈ stackEntries inp (indentLevels inp) col.x p.2
                (lg.y +
                  (lg.height - stackHeight inp.eventConnections inp.expandedEvents p.2) / 2))
          (by
            intro m2 p q2 hq2
            try dsimp only at hq2
            cases hcol : jsMapGet (dayColumnGeometries inp) p.1 with
            | none =>
              rw [hcol] at hq2
              exact Or.inl hq2
            | some col =>
              rw [hcol] at hq2
              rcases placeStack_mem hq2 with h | h
              · exact Or.inl h
              · exact Or.inr ⟨col, hcol, h⟩)
          (storylineDayGroups inp s.id) m q' hq' with h0 | ⟨p, hp, col, hcol, hst⟩
        · exact Or.inl h0
        · exact Or.inr ⟨lg, hlane, p, hp, col, hcol, hst⟩)
    inp.storylines [] q hq with h0 | ⟨s, _, lg, hlane, p, hp, col, hcol, hst⟩
  · simp at h0
  · exact ⟨s.id, lg, hlane, p, hp, col, hcol, hst⟩

/-! The per-entry invariant of `eventLayouts` and the non-overlap
property of the computed rectangles (C1), plus the dangling-reference
behaviour (C10). -/

theorem eventLayouts_good {inp : EngineInput} {q : String × LayoutEntry}
    (hq : q ∈ eventLayouts inp) : GoodEntry inp q := by
  obtain ⟨sid, lg, hlane, p, hp, col, hcol, hstack⟩ := eventLayouts_mem hq
  obtain ⟨hid, hmem, hx, hw, hh, hft⟩ := stackEntries_fields hstack
  have hp2 : p ∈ groupByDay ((sortedEvents inp).filter
      (fun e => e.storylineId == some sid)) := hp
  have hmem2 := groupByDay_group_member hp2 hmem
  have hkey : getDayKey q.2.event.date = p.1 := hmem2.2
  have hsl : q.2.event.storylineId = some sid := by
    have hf := List.mem_filter.mp hmem2.1
    exact eq_of_beq hf.2
  have hcanon : jsMapGet (storylineDayGroups inp sid) p.1 = some p.2 := by
    apply mem_jsMapGet
    · exact groupByDay_keys_nodup _
    · exact hp
  have hcg : canonGroup inp sid (getDayKey q.2.event.date) = p.2 := by
    rw [hkey]
    simp only [canonGroup, hcanon, Option.getD_some]
  refine ⟨hid, sid, lg, col, hsl, hlane, ?_, ?_⟩
  · rw [hkey]
    exact hcol
  · rw [hcg]
    exact hstack

theorem goodEntry_lane_bound {inp : EngineInput} {q : String × LayoutEntry}
    (hg : GoodEntry inp q) :
    ∃ sid lg, q.2.event.storylineId = some sid ∧
      jsMapGet (laneGeometries inp) sid = some lg ∧
      lg.y ≤ q.2.y ∧ q.2.y + q.2.height ≤ lg.y + lg.height := by
  obtain ⟨hid, sid, lg, col, hsl, hlane, hcol, hst⟩ := hg
  have hcont := stackEntries_contained hst
  have hheight : lg.height = laneHeightOf inp sid := (laneGeo_props hlane).2.1
  have hsh : stackHeight inp.eventConnections inp.expandedEvents
      (canonGroup inp sid (getDayKey q.2.event.date)) ≤ lg.height := by
    rw [hheight]
    cases hcg : jsMapGet (storylineDayGroups inp sid) (getDayKey q.2.event.date) with
    | none =>
      simp only [canonGroup, hcg, Option.getD_none]
      have h80 := laneHeightOf_ge inp sid
      show stackHeight inp.eventConnections inp.expandedEvents [] ≤ _
      show (0 : ℚ) ≤ _
      linarith
    | some g =>
      have hmemg : ((getDayKey q.2.event.date), g) ∈ storylineDayGroups inp sid :=
        jsMapGet_mem hcg
      have h1 := laneHeightOf_ge_stack hmemg
      simp only [canonGroup, hcg, Option.getD_some]
      linarith
  refine ⟨sid, lg, hsl, hlane, ?_, ?_⟩
  · have h1 : lg.y ≤ stackStart inp lg (canonGroup inp sid (getDayKey q.2.event.date)) := by
      simp only [stackStart]
      linarith
    linarith [hcont.1, h1]
  · have h2 : stackStart inp lg (canonGroup inp sid (getDayKey q.2.event.date)) +
        stackHeight inp.eventConnections inp.expandedEvents
          (canonGroup inp sid (getDayKey q.2.event.date)) ≤ lg.y + lg.height := by
      simp only [stackStart]
      linarith
    linarith [hcont.2, h2]

theorem goodEntry_x_bound {inp : EngineInput} {q : String × LayoutEntry}
    (hg : GoodEntry inp q) :
    ∃ col, jsMapGet (dayColumnGeometries inp) (getDayKey q.2.event.date) = some col ∧
      col.x ≤ q.2.x ∧ q.2.x + q.2.width ≤ col.x + col.width := by
  obtain ⟨hid, sid, lg, col, hsl, hlane, hcol, hst⟩ := hg
  obtain ⟨_, hmem, hx, hw, hh, hft⟩ := stackEntries_fields hst
  cases hcg : jsMapGet (storylineDayGroups inp sid) (getDayKey q.2.event.date) with
  | none =>
    rw [show canonGroup inp sid (getDayKey q.2.event.date) = [] by
      simp only [canonGroup, hcg, Option.getD_none]] at hmem
    exact absurd hmem (List.not_mem_nil _)
  | some g =>
    rw [show canonGroup inp sid (getDayKey q.2.event.date) = g by
      simp only [canonGroup, hcg, Option.getD_some]] at hmem
    have hpg : ((getDayKey q.2.event.date), g) ∈ storylineDayGroups inp sid :=
      jsMapGet_mem hcg
    have hpg2 : ((getDayKey q.2.event.date), g) ∈
        groupByDay ((sortedEvents inp).filter (fun e => e.storylineId == some sid)) := hpg
    have hmm := groupByDay_group_member hpg2 hmem
    have hsorted : q.2.event ∈ sortedEvents inp := (List.mem_filter.mp hmm.1).1
    obtain ⟨G, hG, heG⟩ := @groupByDay_mem_group (sortedEvents inp) _ hsorted
    have hGm : ((getDayKey q.2.event.date), contentWidth (indentLevels inp) G) ∈
        dayColumnContentWidths inp := by
      simp only [dayColumnContentWidths, List.mem_map]
      exact ⟨(getDayKey q.2.event.date, G), hG, rfl⟩
    have hkeysnd : ((dayColumnContentWidths inp).map Prod.fst).Nodup := by
      have heq : ((dayColumnContentWidths inp).map Prod.fst) =
          (eventsByDayOf inp).map Prod.fst := by
        simp only [dayColumnContentWidths, List.map_map]
        apply List.map_congr_left
        intro p _
        rfl
      rw [heq]
      exact groupByDay_keys_nodup _
    have hwjs : jsMapGet (dayColumnContentWidths inp) (getDayKey q.2.event.date) =
        some (contentWidth (indentLevels inp) G) := mem_jsMapGet hkeysnd hGm
    have hcw : col.width = contentWidth (indentLevels inp) G := by
      rw [colGeo_width hcol, hwjs, Option.getD_some]
    have hbound := @contentWidth_mem (indentLevels inp) _ _ heG
    refine ⟨col, hcol, ?_, ?_⟩
    · rw [hx]
      have hnn : (0 : ℚ) ≤ (effIndent (indentLevels inp) q.2.event : ℚ) * 20 := by positivity
      linarith
    · rw [hx, hw, hcw]
      linarith [hbound]

/-- Same day key and same storyline: the two stack entries are separated
by at least the base same-day vertical gap of 25. -/
theorem layout_same_day_lane {inp : EngineInput} {q1 q2 : String × LayoutEntry}
    (hg1 : GoodEntry inp q1) (hg2 : GoodEntry inp q2) (hkne : q1.1 ≠ q2.1)
    (hk : getDayKey q1.2.event.date = getDayKey q2.2.event.date)
    (hs : q1.2.event.storylineId = q2.2.event.storylineId) :
    q1.2.y + q1.2.height + 25 ≤ q2.2.y ∨ q2.2.y + q2.2.height + 25 ≤ q1.2.y := by
  obtain ⟨hid1, sid1, lg1, col1, hsl1, hlane1, hcol1, hst1⟩ := hg1
  obtain ⟨hid2, sid2, lg2, col2, hsl2, hlane2, hcol2, hst2⟩ := hg2
  have hsid : sid1 = sid2 := by
    rw [hsl1, hsl2] at hs
    exact Option.some.inj hs
  subst hsid
  have hlg : lg1 = lg2 := by
    rw [hlane1] at hlane2
    exact Option.some.inj hlane2
  subst hlg
  rw [← hk] at hcol2 hst2
  have hcoleq : col1 = col2 := by
    rw [hcol1] at hcol2
    exact Option.some.inj hcol2
  subst hcoleq
  exact stackEntries_pair hst1 hst2 hkne

/-- Different day keys: the two entries lie in disjoint day columns. -/
theorem layout_diff_day {inp : EngineInput} {q1 q2 : String × LayoutEntry}
    (hg1 : GoodEntry inp q1) (hg2 : GoodEntry inp q2)
    (hk : getDayKey q1.2.event.date ≠ getDayKey q2.2.event.date) :
    q1.2.x + q1.2.width + 80 ≤ q2.2.x ∨ q2.2.x + q2.2.width + 80 ≤ q1.2.x := by
  obtain ⟨c1, hc1, hx1l, hx1r⟩ := goodEntry_x_bound hg1
  obtain ⟨c2, hc2, hx2l, hx2r⟩ := goodEntry_x_bound hg2
  rcases dayColumns_disjoint hc1 hc2 hk with h | h
  · left
    linarith
  · right
    linarith

/-- Different storylines: each entry is contained in its own lane band
and the two bands are disjoint. -/
theorem layout_diff_lane {inp : EngineInput} {q1 q2 : String × LayoutEntry}
    (hg1 : GoodEntry inp q1) (hg2 : GoodEntry inp q2)
    (hs : q1.2.event.storylineId ≠ q2.2.event.storylineId) :
    ∃ lg1 lg2 : LaneGeo,
      lg1.y ≤ q1.2.y ∧ q1.2.y + q1.2.height ≤ lg1.y + lg1.height ∧
      lg2.y ≤ q2.2.y ∧ q2.2.y + q2.2.height ≤ lg2.y + lg2.height ∧
      (lg1.y + lg1.height ≤ lg2.y ∨ lg2.y + lg2.height ≤ lg1.y) := by
  obtain ⟨sid1, lg1, hsl1, hlane1, hb1l, hb1r⟩ := goodEntry_lane_bound hg1
  obtain ⟨sid2, lg2, hsl2, hlane2, hb2l, hb2r⟩ := goodEntry_lane_bound hg2
  have hsne : sid1 ≠ sid2 := by
    intro he
    apply hs
    rw [hsl1, hsl2, he]
  exact ⟨lg1, lg2, hb1l, hb1r, hb2l, hb2r, lanes_disjoint hlane1 hlane2 hsne⟩

/-- C1: no two distinct entries of the computed event geometry have
overlapping rectangles, through the three stated mechanisms: same day
key and storyline gives a vertical stack gap of at least 25, different
day keys give horizontally disjoint columns (gap 80), and different
storylines give containment in disjoint storyline lane bands. -/
theorem c1_no_rectangle_overlap (inp : EngineInput) (q1 q2 : String × LayoutEntry)
    (h1 : q1 ∈ eventLayouts inp) (h2 : q2 ∈ eventLayouts inp) (hne : q1 ≠ q2) :
    RectDisjoint q1.2 q2.2 ∧
    ((getDayKey q1.2.event.date = getDayKey q2.2.event.date ∧
        q1.2.event.storylineId = q2.2.event.storylineId) →
      q1.2.y + q1.2.height + 25 ≤ q2.2.y ∨ q2.2.y + q2.2.height + 25 ≤ q1.2.y) ∧
    (getDayKey q1.2.event.date ≠ getDayKey q2.2.event.date →
      q1.2.x + q1.2.width + 80 ≤ q2.2.x ∨ q2.2.x + q2.2.width + 80 ≤ q1.2.x) ∧
    (q1.2.event.storylineId ≠ q2.2.event.storylineId →
      ∃ lg1 lg2 : LaneGeo,
        lg1.y ≤ q1.2.y ∧ q1.2.y + q1.2.height ≤ lg1.y + lg1.height ∧
        lg2.y ≤ q2.2.y ∧ q2.2.y + q2.2.height ≤ lg2.y + lg2.height ∧
        (lg1.y + lg1.height ≤ lg2.y ∨ lg2.y + lg2.height ≤ lg1.y)) := by
  have hg1 := eventLayouts_good h1
  have hg2 := eventLayouts_good h2
  have hkne : q1.1 ≠ q2.1 := by
    intro he
    exact hne (mem_map_nodup_eq Prod.fst (eventLayouts_keys_nodup inp) h1 h2 he)
  refine ⟨?_, ?_, ?_, ?_⟩
  · by_cases hs : q1.2.event.storylineId = q2.2.event.storylineId
    · by_cases hk : getDayKey q1.2.event.date = getDayKey q2.2.event.date
      · rcases layout_same_day_lane hg1 hg2 hkne hk hs with h | h
        · exact Or.inr (Or.inr (Or.inl (by linarith)))
        · exact Or.inr (Or.inr (Or.inr (by linarith)))
      · rcases layout_diff_day hg1 hg2 hk with h | h
        · exact Or.inl (by linarith)
        · exact Or.inr (Or.inl (by linarith))
    · obtain ⟨lg1, lg2, hb1l, hb1r, hb2l, hb2r, hd⟩ := layout_diff_lane hg1 hg2 hs
      rcases hd with h | h
      · exact Or.inr (Or.inr (Or.inl (by linarith)))
      · exact Or.inr (Or.inr (Or.inr (by linarith)))
  · intro ⟨hk, hs⟩
    exact layout_same_day_lane hg1 hg2 hkne hk hs
  · intro hk
    exact layout_diff_day hg1 hg2 hk
  · intro hs
    exact layout_diff_lane hg1 hg2 hs

/-- Witness for C1: two same-day events in one storyline receive
rectangles at stack positions 20 and 85 (stack height `40 + 25 + 40`,
lane height 145, centering offset 20), and the rectangles are disjoint. -/
theorem c1_no_rectangle_overlap_witness :
    ("A", (⟨20, 20, 200, 40, c1EvA⟩ : LayoutEntry)) ∈ eventLayouts c1Inp ∧
    ("B", (⟨40, 85, 200, 40, c1EvB⟩ : LayoutEntry)) ∈ eventLayouts c1Inp ∧
    RectDisjoint (⟨20, 20, 200, 40, c1EvA⟩ : LayoutEntry) ⟨40, 85, 200, 40, c1EvB⟩ := by
  have h1 : ("A", (⟨20, 20, 200, 40, c1EvA⟩ : LayoutEntry)) ∈ eventLayouts c1Inp := by
    with_unfolding_all decide
  have h2 : ("B", (⟨40, 85, 200, 40, c1EvB⟩ : LayoutEntry)) ∈ eventLayouts c1Inp := by
    with_unfolding_all decide
  exact ⟨h1, h2,
    (c1_no_rectangle_overlap c1Inp _ _ h1 h2 (by decide)).1⟩

/-- C10: an event passing the completeness filter whose `storylineId` or
`typeId` matches nothing receives no rectangle; with a dangling `typeId`
it still counts toward its day stack's height and its lane's height. -/
theorem c10_dangling_refs (inp : EngineInput) (e : StoryEvent)
    (he : e ∈ inp.events)
    (hnd : (inp.events.map StoryEvent.id).Nodup)
    (hcomplete : strTruthy e.storylineId = true ∧ strTruthy e.typeId = true ∧
      ¬e.date = "")
    (hdangling : (∀ s ∈ inp.storylines, ¬some s.id = e.storylineId) ∨
      (∀ t ∈ inp.eventTypes, ¬some t.id = e.typeId)) :
    e ∈ completeEventsOf inp.events ∧
    e.id ∉ (eventLayouts inp).map Prod.fst ∧
    (∀ sid, e.storylineId = some sid →
      ∃ g, jsMapGet (storylineDayGroups inp sid) (getDayKey e.date) = some g ∧ e ∈ g ∧
        eventHeight inp.expandedEvents e ≤
          stackHeight inp.eventConnections inp.expandedEvents g ∧
        stackHeight inp.eventConnections inp.expandedEvents g + 40 ≤
          laneHeightOf inp sid) := by
  have hcm : e ∈ completeEventsOf inp.events := by
    unfold completeEventsOf
    rw [List.mem_filter]
    refine ⟨he, ?_⟩
    simp only [Bool.and_eq_true]
    exact ⟨⟨hcomplete.1, hcomplete.2.1⟩, by simpa using hcomplete.2.2⟩
  have hsortmem : e ∈ sortedEvents inp :=
    ((stableSortBy_perm _ (completeEventsOf inp.events)).mem_iff).mpr hcm
  refine ⟨hcm, ?_, ?_⟩
  · intro hin
    obtain ⟨q, hq, hqid⟩ := List.mem_map.mp hin
    have hg := eventLayouts_good hq
    obtain ⟨hid, sid, lg, col, hsl, hlane, hcol, hst⟩ := hg
    obtain ⟨_, hmem, _, _, _, hft⟩ := stackEntries_fields hst
    -- recover the stored event from the canonical group and identify it with `e`
    have hqev : q.2.event ∈ inp.events := by
      cases hcg : jsMapGet (storylineDayGroups inp sid) (getDayKey q.2.event.date) with
      | none =>
        rw [show canonGroup inp sid (getDayKey q.2.event.date) = [] by
          simp only [canonGroup, hcg, Option.getD_none]] at hmem
        exact absurd hmem (List.not_mem_nil _)
      | some g =>
        rw [show canonGroup inp sid (getDayKey q.2.event.date) = g by
          simp only [canonGroup, hcg, Option.getD_some]] at hmem
        have hpg : ((getDayKey q.2.event.date), g) ∈ storylineDayGroups inp sid :=
          jsMapGet_mem hcg
        have hpg2 : ((getDayKey q.2.event.date), g) ∈
            groupByDay ((sortedEvents inp).filter
              (fun e2 => e2.storylineId == some sid)) := hpg
        have hmm := groupByDay_group_member hpg2 hmem
        have hsorted : q.2.event ∈ sortedEvents inp := (List.mem_filter.mp hmm.1).1
        have hcomp : q.2.event ∈ completeEventsOf inp.events :=
          ((stableSortBy_perm _ (completeEventsOf inp.events)).mem_iff).mp hsorted
        exact (List.mem_filter.mp hcomp).1
    have heq : q.2.event = e :=
      mem_map_nodup_eq StoryEvent.id hnd hqev he (by rw [← hqid, ← hid])
    rcases hdangling with hds | hdt
    · -- dangling storyline id: the lane key cannot be a storyline id
      have hkey : sid ∈ inp.storylines.map Storyline.id := (laneGeo_props hlane).2.2
      obtain ⟨s, hsmem, hsid⟩ := List.mem_map.mp hkey
      apply hds s hsmem
      rw [hsid, ← heq]
      exact hsl.symm
    · -- dangling type id: `findEventType` cannot resolve
      rw [Option.isSome_iff_exists] at hft
      obtain ⟨t, hfind⟩ := hft
      have htmem : t ∈ inp.eventTypes := List.mem_of_find?_eq_some hfind
      have hprop := List.find?_some hfind
      apply hdt t htmem
      rw [← heq]
      exact eq_of_beq hprop
  · intro sid hsid
    have hfs : e ∈ (sortedEvents inp).filter (fun e2 => e2.storylineId == some sid) := by
      rw [List.mem_filter]
      exact ⟨hsortmem, by rw [hsid]; simp⟩
    obtain ⟨g, hgmem, heg⟩ := @groupByDay_mem_group
      ((sortedEvents inp).filter (fun e2 => e2.storylineId == some sid)) _ hfs
    have hjs : jsMapGet (storylineDayGroups inp sid) (getDayKey e.date) = some g := by
      apply mem_jsMapGet
      · exact groupByDay_keys_nodup _
      · exact hgmem
    refine ⟨g, hjs, heg, stackHeight_ge_member heg, ?_⟩
    exact @laneHeightOf_ge_stack _ _ ((getDayKey e.date), g) (jsMapGet_mem hjs)

/-- Witness for C10: a complete event with an unknown `typeId` gets no
rectangle but still determines its stack and lane heights. -/
theorem c10_dangling_refs_witness :
    c10Ev ∈ completeEventsOf c10Inp.events ∧
    c10Ev.id ∉ (eventLayouts c10Inp).map Prod.fst ∧
    (∀ sid, c10Ev.storylineId = some sid →
      ∃ g, jsMapGet (storylineDayGroups c10Inp sid) (getDayKey c10Ev.date) = some g ∧
        c10Ev ∈ g ∧
        eventHeight c10Inp.expandedEvents c10Ev ≤
          stackHeight c10Inp.eventConnections c10Inp.expandedEvents g ∧
        stackHeight c10Inp.eventConnections c10Inp.expandedEvents g + 40 ≤
          laneHeightOf c10Inp sid) :=
  c10_dangling_refs c10Inp c10Ev (by decide) (by decide)
    ⟨by decide, by decide, by decide⟩ (Or.inr (by decide))


/-! Router: dropped connections (C8) and the shared `jsMapSet` lookup
lemmas. -/

theorem jsMapGet_set_self {β : Type} (m : List (String × β)) (k : String) (v : β) :
    jsMapGet (jsMapSet m k v) k = some v := by
  have hupd : ∀ rest : List (String × β), (rest.any fun p => p.1 == k) = true →
      jsMapGet (rest.map (fun p => if p.1 == k then (k, v) else p)) k = some v := by
    intro rest
    induction rest with
    | nil => intro h; simp at h
    | cons p r ih =>
      intro h
      simp only [List.any_cons, Bool.or_eq_true] at h
      rw [List.map_cons, jsMapGet_cons]
      by_cases hpk : (p.1 == k) = true
      · rw [if_pos hpk]
        rw [if_pos (show ((k, v) : String × β).1 = k from rfl)]
      · rw [if_neg hpk]
        rw [if_neg (show ¬p.1 = k from fun he => hpk (beq_iff_eq.mpr he))]
        rcases h with h | h
        · exact absurd h hpk
        · exact ih h
  unfold jsMapSet
  split_ifs with h
  · exact hupd m h
  · have hnone : jsMapGet m k = none := by
      rw [jsMapGet_eq_none_iff]
      intro hk
      apply h
      obtain ⟨p, hp, hpk⟩ := List.mem_map.mp hk
      simp only [List.any_eq_true, beq_iff_eq]
      exact ⟨p, hp, hpk⟩
    rw [jsMapGet_append_right hnone, jsMapGet_cons]
    simp

theorem jsMapGet_set_ne {β : Type} (m : List (String × β)) (k : String) (v : β) (k' : String)
    (hne : k' ≠ k) : jsMapGet (jsMapSet m k v) k' = jsMapGet m k' := by
  have hupd : ∀ rest : List (String × β),
      jsMapGet (rest.map (fun p => if p.1 == k then (k, v) else p)) k' = jsMapGet rest k' := by
    intro rest
    induction rest with
    | nil => rfl
    | cons p r ih =>
      rw [List.map_cons, jsMapGet_cons, jsMapGet_cons]
      by_cases hpk : (p.1 == k) = true
      · rw [if_pos hpk]
        have hk1 : p.1 = k := beq_iff_eq.mp hpk
        rw [if_neg (show ¬((k, v) : String × β).1 = k' from fun he => hne he.symm),
          if_neg (show ¬p.1 = k' from by rw [hk1]; exact fun he => hne he.symm)]
        exact ih
      · rw [if_neg hpk]
        by_cases hp : p.1 = k'
        · rw [if_pos hp, if_pos hp]
        · rw [if_neg hp, if_neg hp]
          exact ih
  unfold jsMapSet
  split_ifs with h
  · exact hupd m
  · cases hm : jsMapGet m k' with
    | some v2 => exact jsMapGet_append_left hm _
    | none =>
      rw [jsMapGet_append_right hm, jsMapGet_cons]
      rw [if_neg (fun he : k = k' => hne he.symm)]
      rfl

theorem foldl_skip {α β : Type} (f : β → α → β) (l1 l2 : List α) (c : α) (b : β)
    (h : ∀ b' : β, f b' c = b') :
    (l1 ++ c :: l2).foldl f b = (l1 ++ l2).foldl f b := by
  rw [List.foldl_append, List.foldl_append, List.foldl_cons, h]

theorem routePass1_eq (layouts : List (String × LayoutEntry)) (cols : List (String × ColGeo))
    (conns : List EventConnection) :
    routePass1 layouts cols conns = conns.foldl (pass1Step layouts cols) [] := rfl

theorem pass1Step_missing {layouts : List (String × LayoutEntry)}
    {cols : List (String × ColGeo)} {c : EventConnection}
    (hc : jsMapGet layouts c.fromEventId = none ∨ jsMapGet layouts c.toEventId = none)
    (m : List (String × PortCounts)) : pass1Step layouts cols m c = m := by
  cases hf : jsMapGet layouts c.fromEventId with
  | none =>
    simp only [pass1Step]
    rw [hf]
  | some fr =>
    rcases hc with h | h
    · rw [hf] at h
      exact absurd h (by simp)
    · simp only [pass1Step]
      rw [hf, h]

theorem routeStep_missing {layouts : List (String × LayoutEntry)}
    {cols : List (String × ColGeo)} {c : EventConnection}
    (hc : jsMapGet layouts c.fromEventId = none ∨ jsMapGet layouts c.toEventId = none)
    (st : RouteState) : routeStep layouts cols st c = st := by
  cases hf : jsMapGet layouts c.fromEventId with
  | none =>
    simp only [routeStep]
    rw [hf]
  | some fr =>
    rcases hc with h | h
    · rw [hf] at h
      exact absurd h (by simp)
    · simp only [routeStep]
      rw [hf, h]

theorem routePass1_skip {layouts : List (String × LayoutEntry)}
    {cols : List (String × ColGeo)} {c : EventConnection}
    (hc : jsMapGet layouts c.fromEventId = none ∨ jsMapGet layouts c.toEventId = none)
    (l1 l2 : List EventConnection) :
    routePass1 layouts cols (l1 ++ c :: l2) = routePass1 layouts cols (l1 ++ l2) := by
  rw [routePass1_eq, routePass1_eq]
  exact foldl_skip _ l1 l2 c [] (pass1Step_missing hc)

theorem routePass2_skip {layouts : List (String × LayoutEntry)}
    {cols : List (String × ColGeo)} {c : EventConnection}
    (hc : jsMapGet layouts c.fromEventId = none ∨ jsMapGet layouts c.toEventId = none)
    (l1 l2 : List EventConnection) :
    routePass2 layouts cols (l1 ++ c :: l2) = routePass2 layouts cols (l1 ++ l2) := by
  unfold routePass2
  rw [routePass1_skip hc]
  exact foldl_skip _ l1 l2 c _ (routeStep_missing hc)

/-- A routing step leaves path-map entries of other connection ids
untouched. -/
theorem routeStep_paths_preserve (layouts : List (String × LayoutEntry))
    (cols : List (String × ColGeo)) (st : RouteState) (c : EventConnection) (k : String)
    (hk : k ≠ c.id) :
    jsMapGet (routeStep layouts cols st c).paths k = jsMapGet st.paths k := by
  simp only [routeStep]
  cases hf : jsMapGet layouts c.fromEventId with
  | none => rfl
  | some fr =>
    cases ht : jsMapGet layouts c.toEventId with
    | none => rfl
    | some tn =>
      dsimp only
      by_cases hday : (getDayKey fr.event.date == getDayKey tn.event.date) = true
      · rw [if_pos hday]
        exact jsMapGet_set_ne _ _ _ _ hk
      · rw [if_neg hday]
        cases hfc : jsMapGet cols (getDayKey fr.event.date) with
        | none => rfl
        | some fc =>
          cases htc : jsMapGet cols (getDayKey tn.event.date) with
          | none => rfl
          | some tc =>
            dsimp only
            exact jsMapGet_set_ne _ _ _ _ hk

theorem routePass2_paths_fresh (layouts : List (String × LayoutEntry))
    (cols : List (String × ColGeo)) :
    ∀ (conns : List EventConnection) (st : RouteState) (k : String),
      jsMapGet st.paths k = none → k ∉ conns.map (fun c2 => c2.id) →
      jsMapGet ((conns.foldl (routeStep layouts cols) st).paths) k = none := by
  intro conns
  induction conns with
  | nil => intro st k h _; exact h
  | cons c rest ih =>
    intro st k h hk
    simp only [List.map_cons, List.mem_cons] at hk
    push_neg at hk
    rw [List.foldl_cons]
    refine ih _ k ?_ ?_
    · rw [routeStep_paths_preserve layouts cols st c k hk.1]
      exact h
    · intro hmem
      exact hk.2 hmem

/-- C8: a connection with a missing endpoint rectangle is silently
skipped by both router passes: the routing state with it present equals
the state without it, and (when no other connection reuses its id) the
path map has no entry for it. -/
theorem c8_missing_endpoint_dropped (inp : EngineInput) (l1 l2 : List EventConnection)
    (c : EventConnection)
    (hc : jsMapGet (eventLayouts inp) c.fromEventId = none ∨
      jsMapGet (eventLayouts inp) c.toEventId = none) :
    routePass2 (eventLayouts inp) (dayColumnGeometries inp) (l1 ++ c :: l2) =
      routePass2 (eventLayouts inp) (dayColumnGeometries inp) (l1 ++ l2) ∧
    (c.id ∉ (l1 ++ l2).map (fun c2 => c2.id) →
      jsMapGet (routePass2 (eventLayouts inp) (dayColumnGeometries inp)
        (l1 ++ c :: l2)).paths c.id = none) := by
  refine ⟨routePass2_skip hc l1 l2, ?_⟩
  intro hid
  rw [routePass2_skip hc l1 l2]
  unfold routePass2
  exact routePass2_paths_fresh _ _ (l1 ++ l2) _ c.id rfl hid

/-- Witness for C8: a connection from the placed event `A` to the
nonexistent id `ghost` is skipped and gets no path entry. -/
theorem c8_missing_endpoint_dropped_witness :
    jsMapGet (eventLayouts c8Inp) c8Conn.toEventId = none ∧
    routePass2 (eventLayouts c8Inp) (dayColumnGeometries c8Inp) ([] ++ c8Conn :: []) =
      routePass2 (eventLayouts c8Inp) (dayColumnGeometries c8Inp) ([] ++ []) ∧
    jsMapGet (routePass2 (eventLayouts c8Inp) (dayColumnGeometries c8Inp)
      ([] ++ c8Conn :: [])).paths c8Conn.id = none := by
  have hmiss : jsMapGet (eventLayouts c8Inp) c8Conn.toEventId = none := by
    with_unfolding_all decide
  have h := c8_missing_endpoint_dropped c8Inp [] [] c8Conn (Or.inr hmiss)
  exact ⟨hmiss, h.1, h.2 (by decide)⟩

theorem logFor_append (l1 l2 : List (String × Side × ℚ)) (e : String) (s : Side) :
    logFor (l1 ++ l2) e s = logFor l1 e s ++ logFor l2 e s := by
  unfold logFor
  rw [List.filter_append, List.map_append]

theorem incCount_count (pc : PortCounts) (s' s : Side) :
    (pc.incCount s').count s = pc.count s + (if s = s' then 1 else 0) := by
  cases s' <;> cases s <;> simp [PortCounts.incCount, PortCounts.count]

theorem incCount_total (pc : PortCounts) (s' s : Side) :
    (pc.incCount s').total s = pc.total s := by
  cases s' <;> cases s <;> rfl

theorem incTotal_total (pc : PortCounts) (s' s : Side) :
    (pc.incTotal s').total s = pc.total s + (if s = s' then 1 else 0) := by
  cases s' <;> cases s <;> simp [PortCounts.incTotal, PortCounts.total]

theorem incTotal_count (pc : PortCounts) (s' s : Side) :
    (pc.incTotal s').count s = pc.count s := by
  cases s' <;> cases s <;> rfl

theorem zero_total (s : Side) : PortCounts.zero.total s = 0 := by
  cases s <;> rfl

theorem zero_count (s : Side) : PortCounts.zero.count s = 0 := by
  cases s <;> rfl

theorem portGet_nil (e : String) : portGet [] e = PortCounts.zero := rfl

theorem portGet_set (m : List (String × PortCounts)) (k : String) (v : PortCounts)
    (e : String) : portGet (jsMapSet m k v) e = if e = k then v else portGet m e := by
  by_cases h : e = k
  · subst h
    unfold portGet
    rw [jsMapGet_set_self, if_pos rfl]
    rfl
  · unfold portGet
    rw [jsMapGet_set_ne _ _ _ _ h, if_neg h]

theorem portGet_ensure (m : List (String × PortCounts)) (k e : String) :
    portGet (ensurePort m k) e = portGet m e := by
  unfold ensurePort
  split_ifs with h
  · rfl
  · rw [show jsMapSet m k PortCounts.zero = jsMapSet m k PortCounts.zero from rfl]
    by_cases he : e = k
    · subst he
      unfold portGet
      rw [jsMapGet_set_self]
      have hnone : jsMapGet m e = none := by
        cases hx : jsMapGet m e with
        | none => rfl
        | some v => rw [hx] at h; simp at h
      rw [hnone]
      rfl
    · unfold portGet
      rw [jsMapGet_set_ne _ _ _ _ he]

theorem bumpCount_count (m : List (String × PortCounts)) (k : String) (s' : Side)
    (e : String) (s : Side) :
    (portGet (bumpCount m k s') e).count s =
      (portGet m e).count s + (if e = k ∧ s = s' then 1 else 0) := by
  unfold bumpCount
  rw [portGet_set]
  by_cases he : e = k
  · rw [if_pos he, incCount_count]
    subst he
    by_cases hs : s = s'
    · rw [if_pos hs, if_pos ⟨rfl, hs⟩]
    · rw [if_neg hs, if_neg (fun h => hs h.2)]
  · rw [if_neg he, if_neg (fun h => he h.1), Nat.add_zero]

theorem bumpCount_total (m : List (String × PortCounts)) (k : String) (s' : Side)
    (e : String) (s : Side) :
    (portGet (bumpCount m k s') e).total s = (portGet m e).total s := by
  unfold bumpCount
  rw [portGet_set]
  by_cases he : e = k
  · rw [if_pos he, incCount_total]
    rw [he]
  · rw [if_neg he]

theorem bumpTotal_total (m : List (String × PortCounts)) (k : String) (s' : Side)
    (e : String) (s : Side) :
    (portGet (bumpTotal m k s') e).total s =
      (portGet m e).total s + (if e = k ∧ s = s' then 1 else 0) := by
  unfold bumpTotal
  rw [portGet_set]
  by_cases he : e = k
  · rw [if_pos he, incTotal_total]
    subst he
    by_cases hs : s = s'
    · rw [if_pos hs, if_pos ⟨rfl, hs⟩]
    · rw [if_neg hs, if_neg (fun h => hs h.2)]
  · rw [if_neg he, if_neg (fun h => he h.1), Nat.add_zero]

theorem bumpTotal_count (m : List (String × PortCounts)) (k : String) (s' : Side)
    (e : String) (s : Side) :
    (portGet (bumpTotal m k s') e).count s = (portGet m e).count s := by
  unfold bumpTotal
  rw [portGet_set]
  by_cases he : e = k
  · rw [if_pos he, incTotal_count]
    rw [he]
  · rw [if_neg he]

/-- `sideCount` of a two-element side list with distinct sides. -/
theorem sideCount_pair (e : String) (s : Side) (K1 K2 : String) (S1 S2 : Side) :
    sideCount e s [(K1, S1), (K2, S2)] =
      (if e = K1 ∧ s = S1 then 1 else 0) + (if e = K2 ∧ s = S2 then 1 else 0) := by
  unfold sideCount
  simp only [List.filter_cons, List.filter_nil, decide_eq_true_eq]
  split_ifs <;> simp

theorem logFor_append_pair (lg : List (String × Side × ℚ)) (K1 K2 : String) (S1 S2 : Side)
    (x y : ℚ) (e : String) (s : Side) :
    logFor (lg ++ [(K1, S1, x), (K2, S2, y)]) e s =
      logFor lg e s ++
        ((if e = K1 ∧ s = S1 then [x] else []) ++ (if e = K2 ∧ s = S2 then [y] else [])) := by
  rw [logFor_append]
  congr 1
  unfold logFor
  simp only [List.filter_cons, List.filter_nil, decide_eq_true_eq]
  split_ifs <;> simp

theorem routeStep_spec (layouts : List (String × LayoutEntry)) (cols : List (String × ColGeo))
    (hcoh : ∀ q ∈ layouts, q.2.event.id = q.1) (st : RouteState) (c : EventConnection)
    (e : String) (s : Side) :
    (portGet (routeStep layouts cols st c).usage e).total s = (portGet st.usage e).total s ∧
    (portGet (routeStep layouts cols st c).usage e).count s =
      (portGet st.usage e).count s + sideCount e s (connSides layouts cols c) ∧
    logFor (routeStep layouts cols st c).log e s =
      logFor st.log e s ++
        (List.range (sideCount e s (connSides layouts cols c))).map (fun (j : ℕ) =>
          sideOrigin layouts e s + sideLen layouts e s *
            ((((portGet st.usage e).count s : ℚ) + (j : ℚ) + 1) /
              (((portGet st.usage e).total s : ℚ) + 1))) := by
  simp only [routeStep, connSides]
  cases hf : jsMapGet layouts c.fromEventId with
  | none =>
    dsimp only
    refine ⟨rfl, by simp [sideCount], by simp [sideCount]⟩
  | some fr =>
    cases ht : jsMapGet layouts c.toEventId with
    | none =>
      dsimp only
      refine ⟨rfl, by simp [sideCount], by simp [sideCount]⟩
    | some tn =>
      dsimp only
      have hfr2 : jsMapGet layouts fr.event.id = some fr := by
        rw [hcoh _ (jsMapGet_mem hf)]
        exact hf
      have htn2 : jsMapGet layouts tn.event.id = some tn := by
        rw [hcoh _ (jsMapGet_mem ht)]
        exact ht
      by_cases hday : (getDayKey fr.event.date == getDayKey tn.event.date) = true
      · simp only [if_pos hday]
        by_cases hy : decide (fr.y < tn.y) = true
        · simp only [if_pos hy]
          refine ⟨?_, ?_, ?_⟩
          · rw [bumpCount_total, bumpCount_total]
          · rw [bumpCount_count, bumpCount_count, sideCount_pair]
            omega
          · rw [logFor_append_pair, sideCount_pair]
            by_cases hA : e = fr.event.id ∧ s = Side.bottom <;>
              by_cases hB : e = tn.event.id ∧ s = Side.top
            · exact absurd (hA.2.symm.trans hB.2) (by decide)
            · simp only [if_pos hA, if_neg hB]
              obtain ⟨he, hs⟩ := hA
              subst he
              subst hs
              have hc1 : (portGet (bumpCount (bumpCount st.usage fr.event.id Side.bottom) tn.event.id Side.top) fr.event.id).count Side.bottom =
                  (portGet st.usage fr.event.id).count Side.bottom + 1 := by
                rw [bumpCount_count, bumpCount_count,
                    if_pos ⟨rfl, rfl⟩, if_neg (fun h => absurd h.2 (by decide))]
              have ht1 : (portGet (bumpCount (bumpCount st.usage fr.event.id Side.bottom) tn.event.id Side.top) fr.event.id).total Side.bottom =
                  (portGet st.usage fr.event.id).total Side.bottom := by
                rw [bumpCount_total, bumpCount_total]
              have ho : sideOrigin layouts fr.event.id Side.bottom = fr.x := by
                simp [sideOrigin, hfr2]
              have hl : sideLen layouts fr.event.id Side.bottom = fr.width := by
                simp [sideLen, hfr2]
              rw [hc1, ht1, ho, hl]
              norm_num [List.range_succ]
            · simp only [if_neg hA, if_pos hB]
              obtain ⟨he, hs⟩ := hB
              subst he
              subst hs
              have hc1 : (portGet (bumpCount (bumpCount st.usage fr.event.id Side.bottom) tn.event.id Side.top) tn.event.id).count Side.top =
                  (portGet st.usage tn.event.id).count Side.top + 1 := by
                rw [bumpCount_count, bumpCount_count,
                    if_neg (fun h => absurd h.2 (by decide)), if_pos ⟨rfl, rfl⟩]
              have ht1 : (portGet (bumpCount (bumpCount st.usage fr.event.id Side.bottom) tn.event.id Side.top) tn.event.id).total Side.top =
                  (portGet st.usage tn.event.id).total Side.top := by
                rw [bumpCount_total, bumpCount_total]
              have ho : sideOrigin layouts tn.event.id Side.top = tn.x := by
                simp [sideOrigin, htn2]
              have hl : sideLen layouts tn.event.id Side.top = tn.width := by
                simp [sideLen, htn2]
              rw [hc1, ht1, ho, hl]
              norm_num [List.range_succ]
            · simp only [if_neg hA, if_neg hB]
              norm_num
        · simp only [if_neg hy]
          refine ⟨?_, ?_, ?_⟩
          · rw [bumpCount_total, bumpCount_total]
          · rw [bumpCount_count, bumpCount_count, sideCount_pair]
            omega
          · rw [logFor_append_pair, sideCount_pair]
            by_cases hA : e = fr.event.id ∧ s = Side.top <;>
              by_cases hB : e = tn.event.id ∧ s = Side.bottom
            · exact absurd (hA.2.symm.trans hB.2) (by decide)
            · simp only [if_pos hA, if_neg hB]
              obtain ⟨he, hs⟩ := hA
              subst he
              subst hs
              have hc1 : (portGet (bumpCount (bumpCount st.usage fr.event.id Side.top) tn.event.id Side.bottom) fr.event.id).count Side.top =
                  (portGet st.usage fr.event.id).count Side.top + 1 := by
                rw [bumpCount_count, bumpCount_count,
                    if_pos ⟨rfl, rfl⟩, if_neg (fun h => absurd h.2 (by decide))]
              have ht1 : (portGet (bumpCount (bumpCount st.usage fr.event.id Side.top) tn.event.id Side.bottom) fr.event.id).total Side.top =
                  (portGet st.usage fr.event.id).total Side.top := by
                rw [bumpCount_total, bumpCount_total]
              have ho : sideOrigin layouts fr.event.id Side.top = fr.x := by
                simp [sideOrigin, hfr2]
              have hl : sideLen layouts fr.event.id Side.top = fr.width := by
                simp [sideLen, hfr2]
              rw [hc1, ht1, ho, hl]
              norm_num [List.range_succ]
            · simp only [if_neg hA, if_pos hB]
              obtain ⟨he, hs⟩ := hB
              subst he
              subst hs
              have hc1 : (portGet (bumpCount (bumpCount st.usage fr.event.id Side.top) tn.event.id Side.bottom) tn.event.id).count Side.bottom =
                  (portGet st.usage tn.event.id).count Side.bottom + 1 := by
                rw [bumpCount_count, bumpCount_count,
                    if_neg (fun h => absurd h.2 (by decide)), if_pos ⟨rfl, rfl⟩]
              have ht1 : (portGet (bumpCount (bumpCount st.usage fr.event.id Side.top) tn.event.id Side.bottom) tn.event.id).total Side.bottom =
                  (portGet st.usage tn.event.id).total Side.bottom := by
                rw [bumpCount_total, bumpCount_total]
              have ho : sideOrigin layouts tn.event.id Side.bottom = tn.x := by
                simp [sideOrigin, htn2]
              have hl : sideLen layouts tn.event.id Side.bottom = tn.width := by
                simp [sideLen, htn2]
              rw [hc1, ht1, ho, hl]
              norm_num [List.range_succ]
            · simp only [if_neg hA, if_neg hB]
              norm_num
      · simp only [if_neg hday]
        cases hfc : jsMapGet cols (getDayKey fr.event.date) with
        | none =>
          dsimp only
          refine ⟨rfl, by simp [sideCount], by simp [sideCount]⟩
        | some fc =>
          cases htc : jsMapGet cols (getDayKey tn.event.date) with
          | none =>
            dsimp only
            refine ⟨rfl, by simp [sideCount], by simp [sideCount]⟩
          | some tc =>
            dsimp only
            by_cases hx : decide (fc.x < tc.x) = true
            · simp only [if_pos hx]
              refine ⟨?_, ?_, ?_⟩
              · rw [bumpCount_total, bumpCount_total]
              · rw [bumpCount_count, bumpCount_count, sideCount_pair]
                omega
              · rw [logFor_append_pair, sideCount_pair]
                by_cases hA : e = fr.event.id ∧ s = Side.right <;>
                  by_cases hB : e = tn.event.id ∧ s = Side.left
                · exact absurd (hA.2.symm.trans hB.2) (by decide)
                · simp only [if_pos hA, if_neg hB]
                  obtain ⟨he, hs⟩ := hA
                  subst he
                  subst hs
                  have hc1 : (portGet (bumpCount st.usage fr.event.id Side.right) fr.event.id).count Side.right =
                      (portGet st.usage fr.event.id).count Side.right + 1 := by
                    rw [bumpCount_count, if_pos ⟨rfl, rfl⟩]
                  have ht1 : (portGet (bumpCount st.usage fr.event.id Side.right) fr.event.id).total Side.right =
                      (portGet st.usage fr.event.id).total Side.right := by
                    rw [bumpCount_total]
                  have ho : sideOrigin layouts fr.event.id Side.right = fr.y := by
                    simp [sideOrigin, hfr2]
                  have hl : sideLen layouts fr.event.id Side.right = fr.height := by
                    simp [sideLen, hfr2]
                  rw [hc1, ht1, ho, hl]
                  norm_num [List.range_succ]
                · simp only [if_neg hA, if_pos hB]
                  obtain ⟨he, hs⟩ := hB
                  subst he
                  subst hs
                  have hc1 : (portGet (bumpCount (bumpCount st.usage fr.event.id Side.right) tn.event.id Side.left) tn.event.id).count Side.left =
                      (portGet st.usage tn.event.id).count Side.left + 1 := by
                    rw [bumpCount_count, bumpCount_count,
                        if_neg (fun h => absurd h.2 (by decide)), if_pos ⟨rfl, rfl⟩]
                  have ht1 : (portGet (bumpCount (bumpCount st.usage fr.event.id Side.right) tn.event.id Side.left) tn.event.id).total Side.left =
                      (portGet st.usage tn.event.id).total Side.left := by
                    rw [bumpCount_total, bumpCount_total]
                  have ho : sideOrigin layouts tn.event.id Side.left = tn.y := by
                    simp [sideOrigin, htn2]
                  have hl : sideLen layouts tn.event.id Side.left = tn.height := by
                    simp [sideLen, htn2]
                  rw [hc1, ht1, ho, hl]
                  norm_num [List.range_succ]
                · simp only [if_neg hA, if_neg hB]
                  norm_num
            · simp only [if_neg hx]
              refine ⟨?_, ?_, ?_⟩
              · rw [bumpCount_total, bumpCount_total]
              · rw [bumpCount_count, bumpCount_count, sideCount_pair]
                omega
              · rw [logFor_append_pair, sideCount_pair]
                by_cases hA : e = fr.event.id ∧ s = Side.left <;>
                  by_cases hB : e = tn.event.id ∧ s = Side.right
                · exact absurd (hA.2.symm.trans hB.2) (by decide)
                · simp only [if_pos hA, if_neg hB]
                  obtain ⟨he, hs⟩ := hA
                  subst he
                  subst hs
                  have hc1 : (portGet (bumpCount st.usage fr.event.id Side.left) fr.event.id).count Side.left =
                      (portGet st.usage fr.event.id).count Side.left + 1 := by
                    rw [bumpCount_count, if_pos ⟨rfl, rfl⟩]
                  have ht1 : (portGet (bumpCount st.usage fr.event.id Side.left) fr.event.id).total Side.left =
                      (portGet st.usage fr.event.id).total Side.left := by
                    rw [bumpCount_total]
                  have ho : sideOrigin layouts fr.event.id Side.left = fr.y := by
                    simp [sideOrigin, hfr2]
                  have hl : sideLen layouts fr.event.id Side.left = fr.height := by
                    simp [sideLen, hfr2]
                  rw [hc1, ht1, ho, hl]
                  norm_num [List.range_succ]
                · simp only [if_neg hA, if_pos hB]
                  obtain ⟨he, hs⟩ := hB
                  subst he
                  subst hs
                  have hc1 : (portGet (bumpCount (bumpCount st.usage fr.event.id Side.left) tn.event.id Side.right) tn.event.id).count Side.right =
                      (portGet st.usage tn.event.id).count Side.right + 1 := by
                    rw [bumpCount_count, bumpCount_count,
                        if_neg (fun h => absurd h.2 (by decide)), if_pos ⟨rfl, rfl⟩]
                  have ht1 : (portGet (bumpCount (bumpCount st.usage fr.event.id Side.left) tn.event.id Side.right) tn.event.id).total Side.right =
                      (portGet st.usage tn.event.id).total Side.right := by
                    rw [bumpCount_total, bumpCount_total]
                  have ho : sideOrigin layouts tn.event.id Side.right = tn.y := by
                    simp [sideOrigin, htn2]
                  have hl : sideLen layouts tn.event.id Side.right = tn.height := by
                    simp [sideLen, htn2]
                  rw [hc1, ht1, ho, hl]
                  norm_num [List.range_succ]
                · simp only [if_neg hA, if_neg hB]
                  norm_num

theorem pass1Step_spec (layouts : List (String × LayoutEntry)) (cols : List (String × ColGeo))
    (m : List (String × PortCounts)) (c : EventConnection) (e : String) (s : Side) :
    (portGet (pass1Step layouts cols m c) e).total s =
      (portGet m e).total s + sideCount e s (connSides layouts cols c) ∧
    (portGet (pass1Step layouts cols m c) e).count s = (portGet m e).count s := by
  simp only [pass1Step, connSides]
  cases hf : jsMapGet layouts c.fromEventId with
  | none =>
    dsimp only
    refine ⟨by simp [sideCount], rfl⟩
  | some fr =>
    cases ht : jsMapGet layouts c.toEventId with
    | none =>
      dsimp only
      refine ⟨by simp [sideCount], rfl⟩
    | some tn =>
      dsimp only
      by_cases hday : (getDayKey fr.event.date == getDayKey tn.event.date) = true
      · simp only [if_pos hday]
        by_cases hy : decide (fr.y < tn.y) = true
        · simp only [if_pos hy]
          constructor
          · rw [bumpTotal_total, bumpTotal_total, portGet_ensure, portGet_ensure,
              sideCount_pair]
            omega
          · rw [bumpTotal_count, bumpTotal_count, portGet_ensure, portGet_ensure]
        · simp only [if_neg hy]
          constructor
          · rw [bumpTotal_total, bumpTotal_total, portGet_ensure, portGet_ensure,
              sideCount_pair]
            omega
          · rw [bumpTotal_count, bumpTotal_count, portGet_ensure, portGet_ensure]
      · simp only [if_neg hday]
        cases hfc : jsMapGet cols (getDayKey fr.event.date) with
        | none =>
          dsimp only
          constructor
          · rw [portGet_ensure, portGet_ensure]
            simp [sideCount]
          · rw [portGet_ensure, portGet_ensure]
        | some fc =>
          cases htc : jsMapGet cols (getDayKey tn.event.date) with
          | none =>
            dsimp only
            constructor
            · rw [portGet_ensure, portGet_ensure]
              simp [sideCount]
            · rw [portGet_ensure, portGet_ensure]
          | some tc =>
            dsimp only
            by_cases hx : decide (fc.x < tc.x) = true
            · simp only [if_pos hx]
              constructor
              · rw [bumpTotal_total, bumpTotal_total, portGet_ensure, portGet_ensure,
                  sideCount_pair]
                omega
              · rw [bumpTotal_count, bumpTotal_count, portGet_ensure, portGet_ensure]
            · simp only [if_neg hx]
              constructor
              · rw [bumpTotal_total, bumpTotal_total, portGet_ensure, portGet_ensure,
                  sideCount_pair]
                omega
              · rw [bumpTotal_count, bumpTotal_count, portGet_ensure, portGet_ensure]

theorem routePass1_spec (layouts : List (String × LayoutEntry)) (cols : List (String × ColGeo))
    (conns : List EventConnection) (e : String) (s : Side) :
    (portGet (routePass1 layouts cols conns) e).total s = sideOcc layouts cols conns e s ∧
    (portGet (routePass1 layouts cols conns) e).count s = 0 := by
  rw [routePass1_eq]
  suffices h : ∀ (l : List EventConnection) (m : List (String × PortCounts)),
      (portGet (l.foldl (pass1Step layouts cols) m) e).total s =
        (portGet m e).total s + sideOcc layouts cols l e s ∧
      (portGet (l.foldl (pass1Step layouts cols) m) e).count s = (portGet m e).count s by
    obtain ⟨h1, h2⟩ := h conns []
    rw [portGet_nil, zero_total] at h1
    rw [portGet_nil, zero_count] at h2
    exact ⟨by rw [h1]; omega, h2⟩
  intro l
  induction l with
  | nil => intro m; exact ⟨by simp [sideOcc], rfl⟩
  | cons c rest ih =>
    intro m
    rw [List.foldl_cons]
    obtain ⟨iht, ihc⟩ := ih (pass1Step layouts cols m c)
    obtain ⟨ht, hc⟩ := pass1Step_spec layouts cols m c e s
    have hocc : sideOcc layouts cols (c :: rest) e s =
        sideCount e s (connSides layouts cols c) + sideOcc layouts cols rest e s := rfl
    constructor
    · rw [iht, ht, hocc]
      omega
    · rw [ihc, hc]

theorem range_map_split (k n : ℕ) (g : ℕ → ℚ) :
    (List.range (k + n)).map g =
      (List.range k).map g ++ (List.range n).map (fun (j : ℕ) => g (k + j)) := by
  rw [List.range_add, List.map_append, List.map_map]
  rfl

theorem pass2_fold_spec (layouts : List (String × LayoutEntry)) (cols : List (String × ColGeo))
    (hcoh : ∀ q ∈ layouts, q.2.event.id = q.1) :
    ∀ (r : List EventConnection) (st : RouteState) (e : String) (s : Side),
      (portGet ((r.foldl (routeStep layouts cols) st).usage) e).total s =
        (portGet st.usage e).total s ∧
      (portGet ((r.foldl (routeStep layouts cols) st).usage) e).count s =
        (portGet st.usage e).count s + sideOcc layouts cols r e s ∧
      logFor ((r.foldl (routeStep layouts cols) st).log) e s =
        logFor st.log e s ++
          (List.range (sideOcc layouts cols r e s)).map (fun (j : ℕ) =>
            sideOrigin layouts e s + sideLen layouts e s *
              ((((portGet st.usage e).count s : ℚ) + (j : ℚ) + 1) /
                (((portGet st.usage e).total s : ℚ) + 1))) := by
  intro r
  induction r with
  | nil => intro st e s; exact ⟨rfl, by simp [sideOcc], by simp [sideOcc]⟩
  | cons c rest ih =>
    intro st e s
    rw [List.foldl_cons]
    obtain ⟨iht, ihc, ihl⟩ := ih (routeStep layouts cols st c) e s
    obtain ⟨ht, hc, hl⟩ := routeStep_spec layouts cols hcoh st c e s
    have hocc : sideOcc layouts cols (c :: rest) e s =
        sideCount e s (connSides layouts cols c) + sideOcc layouts cols rest e s := rfl
    refine ⟨by rw [iht, ht], by rw [ihc, hc, hocc]; omega, ?_⟩
    rw [ihl, hl, ht, hc, hocc, range_map_split, ← List.append_assoc]
    congr 1
    apply List.map_congr_left
    intro j _
    push_cast
    ring_nf

/-- C3: on every side `s` of every event `e`, the first router pass
counts exactly the `sideOcc` connections destined for that side; the
second pass anchors the k-th connection assigned there (k = 1..N, in
assignment order) at fraction `k / (N + 1)` of the side's length; and
for an event with a computed rectangle those N port positions are
strictly increasing, pairwise distinct, and strictly inside the side —
in particular duplicate connections between the same events receive
distinct ports. -/
theorem c3_port_fanout (inp : EngineInput) (e : String) (s : Side) :
    (portGet (routePass1 (eventLayouts inp) (dayColumnGeometries inp)
        inp.eventConnections) e).total s =
      sideOcc (eventLayouts inp) (dayColumnGeometries inp) inp.eventConnections e s ∧
    logFor (portLog inp) e s =
      (List.range (sideOcc (eventLayouts inp) (dayColumnGeometries inp)
          inp.eventConnections e s)).map (fun (j : ℕ) =>
        sideOrigin (eventLayouts inp) e s + sideLen (eventLayouts inp) e s *
          (((j : ℚ) + 1) /
            ((sideOcc (eventLayouts inp) (dayColumnGeometries inp)
              inp.eventConnections e s : ℚ) + 1))) ∧
    ((jsMapGet (eventLayouts inp) e).isSome = true →
      List.Pairwise (· < ·) (logFor (portLog inp) e s) ∧
      List.Pairwise (· ≠ ·) (logFor (portLog inp) e s) ∧
      ∀ x ∈ logFor (portLog inp) e s,
        sideOrigin (eventLayouts inp) e s < x ∧
        x < sideOrigin (eventLayouts inp) e s + sideLen (eventLayouts inp) e s) := by
  have hcoh : ∀ q ∈ eventLayouts inp, q.2.event.id = q.1 :=
    fun q hq => ((eventLayouts_good hq).1).symm
  obtain ⟨h1t, h1c⟩ := routePass1_spec (eventLayouts inp) (dayColumnGeometries inp)
    inp.eventConnections e s
  have h2 := pass2_fold_spec (eventLayouts inp) (dayColumnGeometries inp) hcoh
    inp.eventConnections
    ⟨routePass1 (eventLayouts inp) (dayColumnGeometries inp) inp.eventConnections, [], []⟩ e s
  have hlog : logFor (portLog inp) e s =
      (List.range (sideOcc (eventLayouts inp) (dayColumnGeometries inp)
          inp.eventConnections e s)).map (fun (j : ℕ) =>
        sideOrigin (eventLayouts inp) e s + sideLen (eventLayouts inp) e s *
          (((j : ℚ) + 1) /
            ((sideOcc (eventLayouts inp) (dayColumnGeometries inp)
              inp.eventConnections e s : ℚ) + 1))) := by
    obtain ⟨_, _, hl⟩ := h2
    dsimp only at hl
    rw [h1t, h1c] at hl
    have hport : portLog inp =
        (inp.eventConnections.foldl
          (routeStep (eventLayouts inp) (dayColumnGeometries inp))
          ⟨routePass1 (eventLayouts inp) (dayColumnGeometries inp) inp.eventConnections,
            [], []⟩).log := rfl
    rw [hport, hl]
    rw [show logFor [] e s = [] from rfl, List.nil_append]
    apply List.map_congr_left
    intro j _
    norm_num
  refine ⟨h1t, hlog, ?_⟩
  intro hsome
  rw [Option.isSome_iff_exists] at hsome
  obtain ⟨le, hle⟩ := hsome
  obtain ⟨hid, sid, lg, col, hsl, hlane, hcol, hst⟩ := eventLayouts_good (jsMapGet_mem hle)
  obtain ⟨_, _, _, hw, hh, _⟩ := stackEntries_fields hst
  have hlen : 0 < sideLen (eventLayouts inp) e s := by
    cases s
    · simp only [sideLen, hle]
      rw [hw]
      norm_num
    · simp only [sideLen, hle]
      rw [hw]
      norm_num
    · simp only [sideLen, hle]
      rw [hh]
      exact eventHeight_pos _ _
    · simp only [sideLen, hle]
      rw [hh]
      exact eventHeight_pos _ _
  have hmono : ∀ a b : ℕ, a < b →
      sideOrigin (eventLayouts inp) e s + sideLen (eventLayouts inp) e s *
        (((a : ℚ) + 1) /
          ((sideOcc (eventLayouts inp) (dayColumnGeometries inp)
            inp.eventConnections e s : ℚ) + 1)) <
      sideOrigin (eventLayouts inp) e s + sideLen (eventLayouts inp) e s *
        (((b : ℚ) + 1) /
          ((sideOcc (eventLayouts inp) (dayColumnGeometries inp)
            inp.eventConnections e s : ℚ) + 1)) := by
    intro a b hab
    have hd : (0 : ℚ) < (sideOcc (eventLayouts inp) (dayColumnGeometries inp)
        inp.eventConnections e s : ℚ) + 1 := by positivity
    have hn : ((a : ℚ) + 1) < ((b : ℚ) + 1) := by
      have : (a : ℚ) < (b : ℚ) := by exact_mod_cast hab
      linarith
    have hq : ((a : ℚ) + 1) /
        ((sideOcc (eventLayouts inp) (dayColumnGeometries inp)
          inp.eventConnections e s : ℚ) + 1) <
        ((b : ℚ) + 1) /
        ((sideOcc (eventLayouts inp) (dayColumnGeometries inp)
          inp.eventConnections e s : ℚ) + 1) := by
      rw [div_lt_div_iff hd hd]
      nlinarith
    have := mul_lt_mul_of_pos_left hq hlen
    linarith
  have hpairlt : List.Pairwise (· < ·) (logFor (portLog inp) e s) := by
    rw [hlog]
    exact List.Pairwise.map _ (fun a b hab => hmono a b hab) (List.pairwise_lt_range _)
  refine ⟨hpairlt, hpairlt.imp (fun h => ne_of_lt h), ?_⟩
  intro x hx
  rw [hlog] at hx
  obtain ⟨j, hj, rfl⟩ := List.mem_map.mp hx
  have hjN : j < sideOcc (eventLayouts inp) (dayColumnGeometries inp)
      inp.eventConnections e s := List.mem_range.mp hj
  have hd : (0 : ℚ) < (sideOcc (eventLayouts inp) (dayColumnGeometries inp)
      inp.eventConnections e s : ℚ) + 1 := by positivity
  have t1 : (0 : ℚ) < ((j : ℚ) + 1) /
      ((sideOcc (eventLayouts inp) (dayColumnGeometries inp)
        inp.eventConnections e s : ℚ) + 1) := by positivity
  have t2 : ((j : ℚ) + 1) /
      ((sideOcc (eventLayouts inp) (dayColumnGeometries inp)
        inp.eventConnections e s : ℚ) + 1) < 1 := by
    rw [div_lt_one hd]
    have : (j : ℚ) < (sideOcc (eventLayouts inp) (dayColumnGeometries inp)
        inp.eventConnections e s : ℚ) := by exact_mod_cast hjN
    linarith
  constructor
  · nlinarith
  · nlinarith

/-- Witness for C3: two duplicate connections between the same same-day
pair give the bottom side of `A` two ports, at fractions 1/3 and 2/3 of
its width, strictly increasing. -/
theorem c3_port_fanout_witness :
    (jsMapGet (eventLayouts c3Inp) "A").isSome = true ∧
    sideOcc (eventLayouts c3Inp) (dayColumnGeometries c3Inp) c3Inp.eventConnections "A"
      Side.bottom = 2 ∧
    logFor (portLog c3Inp) "A" Side.bottom =
      [20 + 200 * ((1 : ℚ) / 3), 20 + 200 * ((2 : ℚ) / 3)] ∧
    List.Pairwise (· < ·) (logFor (portLog c3Inp) "A" Side.bottom) := by
  have hsome : (jsMapGet (eventLayouts c3Inp) "A").isSome = true := by
    with_unfolding_all decide
  have h := c3_port_fanout c3Inp "A" Side.bottom
  refine ⟨hsome, by with_unfolding_all decide, ?_, (h.2.2 hsome).1⟩
  rw [h.2.1]
  rw [show sideOcc (eventLayouts c3Inp) (dayColumnGeometries c3Inp) c3Inp.eventConnections
    "A" Side.bottom = 2 by with_unfolding_all decide]
  rw [show sideOrigin (eventLayouts c3Inp) "A" Side.bottom = 20 by
    with_unfolding_all decide]
  rw [show sideLen (eventLayouts c3Inp) "A" Side.bottom = 200 by
    with_unfolding_all decide]
  norm_num [List.range_succ]

theorem neighborScan_eq (conns : List EventConnection) (cur : String)
    (vq : List String × List String) :
    neighborScan conns cur vq = conns.foldl (scanStep cur) vq := rfl

theorem nbOf_symm {c : EventConnection} {x y : String} (h : nbOf c x = some y) :
    nbOf c y = some x := by
  unfold nbOf at h ⊢
  split_ifs at h with h1 h2
  · obtain rfl := Option.some.inj h
    split_ifs with g1 g2
    · rw [← eq_of_beq g1, eq_of_beq h1]
    · rw [eq_of_beq h1]
    · simp at g2
  · obtain rfl := Option.some.inj h
    split_ifs with g1 g2
    · rw [eq_of_beq h2]
    · simp at g1
    · simp at g1

theorem nbAdj_symm {conns : List EventConnection} {x y : String} (h : nbAdj conns x y)
    (hx : ¬x = "") : nbAdj conns y x := by
  obtain ⟨⟨c, hc, hcy⟩, _⟩ := h
  exact ⟨⟨c, hc, nbOf_symm hcy⟩, hx⟩

theorem rtg_ne {conns : List EventConnection} {a c : String}
    (h : Relation.ReflTransGen (nbAdj conns) a c) (ha : ¬a = "") : ¬c = "" := by
  induction h with
  | refl => exact ha
  | tail _ hstep _ => exact hstep.2

theorem rtg_symm {conns : List EventConnection} {a b : String}
    (h : Relation.ReflTransGen (nbAdj conns) a b) (ha : ¬a = "") :
    Relation.ReflTransGen (nbAdj conns) b a := by
  induction h with
  | refl => exact .refl
  | tail hab hstep ih =>
    exact Relation.ReflTransGen.head (nbAdj_symm hstep (rtg_ne hab ha)) ih

theorem nbOf_endpoint {conns : List EventConnection} {c : EventConnection} (hc : c ∈ conns)
    {cur n : String} (h : nbOf c cur = some n) : n ∈ endpointIds conns := by
  unfold nbOf at h
  unfold endpointIds
  rw [List.mem_toFinset, List.mem_join]
  split_ifs at h with h1 h2
  · obtain rfl := Option.some.inj h
    exact ⟨[c.fromEventId, c.toEventId], List.mem_map_of_mem _ hc, by simp⟩
  · obtain rfl := Option.some.inj h
    exact ⟨[c.fromEventId, c.toEventId], List.mem_map_of_mem _ hc, by simp⟩

theorem unvis_append (conns : List EventConnection) :
    ∀ (new v : List String), new.Nodup →
      (∀ n ∈ new, n ∈ endpointIds conns ∧ n ∉ v) →
      unvis conns (v ++ new) + new.length = unvis conns v := by
  intro new
  induction new with
  | nil => intro v _ _; simp
  | cons n new2 ih =>
    intro v hnd hprops
    rw [List.nodup_cons] at hnd
    have hstep : unvis conns (v ++ [n]) + 1 = unvis conns v := by
      unfold unvis
      have hset : (endpointIds conns).filter (fun x => x ∉ v ++ [n]) =
          ((endpointIds conns).filter (fun x => x ∉ v)).erase n := by
        ext x
        simp only [Finset.mem_filter, Finset.mem_erase, List.mem_append,
          List.mem_singleton]
        constructor
        · rintro ⟨hE, hnv⟩
          push_neg at hnv
          exact ⟨hnv.2, hE, hnv.1⟩
        · rintro ⟨hxn, hE, hxv⟩
          refine ⟨hE, ?_⟩
          push_neg
          exact ⟨hxv, hxn⟩
      rw [hset, Finset.card_erase_of_mem]
      · have hpos : 0 < ((endpointIds conns).filter (fun x => x ∉ v)).card := by
          rw [Finset.card_pos]
          exact ⟨n, Finset.mem_filter.mpr ⟨(hprops n (List.mem_cons_self _ _)).1,
            by simp [(hprops n (List.mem_cons_self _ _)).2]⟩⟩
        omega
      · exact Finset.mem_filter.mpr ⟨(hprops n (List.mem_cons_self _ _)).1,
          by simp [(hprops n (List.mem_cons_self _ _)).2]⟩
    have hih := ih (v ++ [n]) hnd.2 ?_
    · rw [show v ++ n :: new2 = (v ++ [n]) ++ new2 by simp]
      rw [List.length_cons] at *
      omega
    · intro m hm
      obtain ⟨hE, hnv⟩ := hprops m (List.mem_cons_of_mem _ hm)
      refine ⟨hE, ?_⟩
      rw [List.mem_append, List.mem_singleton]
      rintro (h | rfl)
      · exact hnv h
      · exact hnd.1 hm

/-- What one neighbour scan does: it appends a duplicate-free block of
fresh, non-empty neighbours of `cur` to both the visited list and the
queue, and after it every acceptable neighbour of `cur` is visited. -/
theorem scan_aux (conns : List EventConnection) (cur : String) :
    ∀ (cs : List EventConnection) (v r : List String),
      ∃ new : List String,
        cs.foldl (scanStep cur) (v, r) = (v ++ new, r ++ new) ∧
        new.Nodup ∧
        (∀ n ∈ new, n ∉ v ∧ ¬n = "" ∧ ∃ c ∈ cs, nbOf c cur = some n) ∧
        (∀ c ∈ cs, ∀ y, nbOf c cur = some y → ¬y = "" → y ∈ v ∨ y ∈ new) := by
  intro cs
  induction cs with
  | nil =>
    intro v r
    exact ⟨[], by simp, List.nodup_nil, by simp, by simp⟩
  | cons c cs2 ih =>
    intro v r
    rw [List.foldl_cons]
    cases hnb : nbOf c cur with
    | none =>
      have hstep : scanStep cur (v, r) c = (v, r) := by
        unfold scanStep
        rw [hnb]
      rw [hstep]
      obtain ⟨new, h1, h2, h3, h4⟩ := ih v r
      refine ⟨new, h1, h2, ?_, ?_⟩
      · intro n hn
        obtain ⟨ha, hb, c2, hc2, hcn⟩ := h3 n hn
        exact ⟨ha, hb, c2, List.mem_cons_of_mem _ hc2, hcn⟩
      · intro c2 hc2 y hy hne
        rcases List.mem_cons.mp hc2 with rfl | hc2b
        · rw [hnb] at hy
          exact absurd hy (by simp)
        · exact h4 c2 hc2b y hy hne
    | some n =>
      by_cases hemp : (n == "") = true
      · have hstep : scanStep cur (v, r) c = (v, r) := by
          unfold scanStep
          rw [hnb]
          dsimp only
          rw [if_pos hemp]
        rw [hstep]
        obtain ⟨new, h1, h2, h3, h4⟩ := ih v r
        refine ⟨new, h1, h2, ?_, ?_⟩
        · intro m hm
          obtain ⟨ha, hb, c2, hc2, hcn⟩ := h3 m hm
          exact ⟨ha, hb, c2, List.mem_cons_of_mem _ hc2, hcn⟩
        · intro c2 hc2 y hy hne
          rcases List.mem_cons.mp hc2 with rfl | hc2b
          · rw [hnb] at hy
            obtain rfl := Option.some.inj hy
            exact absurd (eq_of_beq hemp) hne
          · exact h4 c2 hc2b y hy hne
      · by_cases hcont : (v.contains n) = true
        · have hstep : scanStep cur (v, r) c = (v, r) := by
            unfold scanStep
            rw [hnb]
            dsimp only
            rw [if_neg hemp, if_pos hcont]
          rw [hstep]
          obtain ⟨new, h1, h2, h3, h4⟩ := ih v r
          refine ⟨new, h1, h2, ?_, ?_⟩
          · intro m hm
            obtain ⟨ha, hb, c2, hc2, hcn⟩ := h3 m hm
            exact ⟨ha, hb, c2, List.mem_cons_of_mem _ hc2, hcn⟩
          · intro c2 hc2 y hy hne
            rcases List.mem_cons.mp hc2 with rfl | hc2b
            · rw [hnb] at hy
              obtain rfl := Option.some.inj hy
              exact Or.inl (by simpa using hcont)
            · exact h4 c2 hc2b y hy hne
        · have hstep : scanStep cur (v, r) c = (v ++ [n], r ++ [n]) := by
            unfold scanStep
            rw [hnb]
            dsimp only
            rw [if_neg hemp, if_neg hcont]
          rw [hstep]
          obtain ⟨new, h1, h2, h3, h4⟩ := ih (v ++ [n]) (r ++ [n])
          have hnv : n ∉ v := by
            intro hmem
            apply hcont
            simpa using hmem
          refine ⟨n :: new, ?_, ?_, ?_, ?_⟩
          · rw [h1]
            simp
          · rw [List.nodup_cons]
            refine ⟨?_, h2⟩
            intro hmem
            exact (h3 n hmem).1 (by simp)
          · intro m hm
            rcases List.mem_cons.mp hm with rfl | hm2
            · exact ⟨hnv, by simpa using hemp, c, List.mem_cons_self _ _, hnb⟩
            · obtain ⟨ha, hb, c2, hc2, hcn⟩ := h3 m hm2
              refine ⟨?_, hb, c2, List.mem_cons_of_mem _ hc2, hcn⟩
              intro hmem
              exact ha (by simp [hmem])
          · intro c2 hc2 y hy hne
            rcases List.mem_cons.mp hc2 with rfl | hc2b
            · rw [hnb] at hy
              obtain rfl := Option.some.inj hy
              exact Or.inr (List.mem_cons_self _ _)
            · rcases h4 c2 hc2b y hy hne with h | h
              · rcases List.mem_append.mp h with h | h
                · exact Or.inl h
                · exact Or.inr (by simp [List.mem_singleton.mp h])
              · exact Or.inr (List.mem_cons_of_mem _ h)

theorem neighborScan_spec (conns : List EventConnection) (cur : String)
    (v r : List String) :
    ∃ new : List String,
      neighborScan conns cur (v, r) = (v ++ new, r ++ new) ∧
      new.Nodup ∧
      (∀ n ∈ new, n ∉ v ∧ ¬n = "" ∧ ∃ c ∈ conns, nbOf c cur = some n) ∧
      (∀ c ∈ conns, ∀ y, nbOf c cur = some y → ¬y = "" → y ∈ v ∨ y ∈ new) := by
  rw [neighborScan_eq]
  exact scan_aux conns cur conns v r

theorem closure_stable {conns : List EventConnection} {v : List String}
    (hclosed : ∀ x ∈ v, ∀ y, nbAdj conns x y → y ∈ v) {z x : String}
    (hz : z ∈ v) (hr : Relation.ReflTransGen (nbAdj conns) z x) : x ∈ v := by
  induction hr with
  | refl => exact hz
  | tail _ hstep ih => exact hclosed _ ih _ hstep

theorem bfs_done (conns : List EventConnection) {v comp : List String}
    (hclosed : ∀ x ∈ v, ∀ y, nbAdj conns x y → y ∈ v)
    (hvc : ∀ x ∈ v, x ∈ comp) (hcv : ∀ x ∈ comp, x ∈ v) (x : String) :
    x ∈ comp ↔ ∃ z ∈ v, Relation.ReflTransGen (nbAdj conns) z x := by
  constructor
  · intro hx
    exact ⟨x, hcv x hx, .refl⟩
  · rintro ⟨z, hz, hzx⟩
    exact hvc x (closure_stable hclosed hz hzx)

theorem mem_compAdd (comp : List String) (cur x : String) :
    x ∈ (if comp.contains cur then comp else comp ++ [cur]) ↔ x ∈ comp ∨ x = cur := by
  split_ifs with h
  · have hcur : cur ∈ comp := by simpa using h
    constructor
    · exact Or.inl
    · rintro (hx | rfl)
      · exact hx
      · exact hcur
  · rw [List.mem_append, List.mem_singleton]

/-- The BFS loop computes exactly the `nbAdj`-closure of the visited
set, given the queue/visited/component invariants and enough fuel. -/
theorem bfsLoop_char (conns : List EventConnection) :
    ∀ (fuel : ℕ) (q v comp : List String),
      (∀ x ∈ q, x ∈ v) →
      (∀ x ∈ v, x ∉ q → ∀ y, nbAdj conns x y → y ∈ v) →
      (∀ x ∈ v, x ∈ comp ∨ x ∈ q) →
      (∀ x ∈ comp, x ∈ v) →
      q.length + 2 * unvis conns v ≤ fuel →
      ∀ x, x ∈ bfsLoop conns fuel q v comp ↔
        ∃ z ∈ v, Relation.ReflTransGen (nbAdj conns) z x := by
  intro fuel
  induction fuel with
  | zero =>
    intro q v comp hq hclosed hvc hcv hfuel x
    have hqnil : q = [] := by
      cases q with
      | nil => rfl
      | cons a l => simp at hfuel
    subst hqnil
    exact bfs_done conns
      (fun x hx y hy => hclosed x hx (List.not_mem_nil x) y hy)
      (fun x hx => (hvc x hx).elim id (fun h => absurd h (List.not_mem_nil x)))
      hcv x
  | succ fuel ih =>
    intro q v comp hq hclosed hvc hcv hfuel x
    cases q with
    | nil =>
      exact bfs_done conns
        (fun x hx y hy => hclosed x hx (List.not_mem_nil x) y hy)
        (fun x hx => (hvc x hx).elim id (fun h => absurd h (List.not_mem_nil x)))
        hcv x
    | cons cur rest =>
      obtain ⟨new, hscan, hnd, hprops, hclose⟩ := neighborScan_spec conns cur v rest
      have hstep : bfsLoop conns (fuel + 1) (cur :: rest) v comp =
          bfsLoop conns fuel (rest ++ new) (v ++ new)
            (if comp.contains cur then comp else comp ++ [cur]) := by
        show bfsLoop conns fuel (neighborScan conns cur (v, rest)).2
            (neighborScan conns cur (v, rest)).1
            (if comp.contains cur then comp else comp ++ [cur]) = _
        rw [hscan]
      rw [hstep]
      have hcur : cur ∈ v := hq cur (List.mem_cons_self _ _)
      have hq2 : ∀ y ∈ rest ++ new, y ∈ v ++ new := by
        intro y hy
        rcases List.mem_append.mp hy with h | h
        · exact List.mem_append.mpr (Or.inl (hq y (List.mem_cons_of_mem _ h)))
        · exact List.mem_append.mpr (Or.inr h)
      have hclosed2 : ∀ y ∈ v ++ new, y ∉ rest ++ new → ∀ z, nbAdj conns y z →
          z ∈ v ++ new := by
        intro y hy hynq z hz
        rcases List.mem_append.mp hy with hyv | hynew
        · by_cases hyc : y = cur
          · subst hyc
            obtain ⟨⟨c, hc, hcn⟩, hzne⟩ := hz
            rcases hclose c hc z hcn hzne with h | h
            · exact List.mem_append.mpr (Or.inl h)
            · exact List.mem_append.mpr (Or.inr h)
          · have hnotq : y ∉ cur :: rest := by
              intro hmem
              rcases List.mem_cons.mp hmem with h | h
              · exact hyc h
              · exact hynq (List.mem_append.mpr (Or.inl h))
            exact List.mem_append.mpr (Or.inl (hclosed y hyv hnotq z hz))
        · exact absurd (List.mem_append.mpr (Or.inr hynew)) hynq
      have hvc2 : ∀ y ∈ v ++ new,
          y ∈ (if comp.contains cur then comp else comp ++ [cur]) ∨ y ∈ rest ++ new := by
        intro y hy
        rcases List.mem_append.mp hy with hyv | hynew
        · rcases hvc y hyv with h | h
          · exact Or.inl ((mem_compAdd comp cur y).mpr (Or.inl h))
          · rcases List.mem_cons.mp h with hyc | h2
            · exact Or.inl ((mem_compAdd comp cur y).mpr (Or.inr hyc))
            · exact Or.inr (List.mem_append.mpr (Or.inl h2))
        · exact Or.inr (List.mem_append.mpr (Or.inr hynew))
      have hcv2 : ∀ y ∈ (if comp.contains cur then comp else comp ++ [cur]),
          y ∈ v ++ new := by
        intro y hy
        rcases (mem_compAdd comp cur y).mp hy with h | rfl
        · exact List.mem_append.mpr (Or.inl (hcv y h))
        · exact List.mem_append.mpr (Or.inl hcur)
      have hfuel2 : (rest ++ new).length + 2 * unvis conns (v ++ new) ≤ fuel := by
        have hunvis := unvis_append conns new v hnd (fun n hn =>
          ⟨nbOf_endpoint (hprops n hn).2.2.choose_spec.1 (hprops n hn).2.2.choose_spec.2,
            (hprops n hn).1⟩)
        rw [List.length_append]
        simp only [List.length_cons] at hfuel
        omega
      rw [ih (rest ++ new) (v ++ new) _ hq2 hclosed2 hvc2 hcv2 hfuel2 x]
      constructor
      · rintro ⟨z, hz, hzx⟩
        rcases List.mem_append.mp hz with hzv | hznew
        · exact ⟨z, hzv, hzx⟩
        · obtain ⟨_, hzn2, c, hc, hcn⟩ := hprops z hznew
          exact ⟨cur, hcur, Relation.ReflTransGen.head ⟨⟨c, hc, hcn⟩, hzn2⟩ hzx⟩
      · rintro ⟨z, hz, hzx⟩
        exact ⟨z, List.mem_append.mpr (Or.inl hz), hzx⟩

theorem join_endpoints_length (conns : List EventConnection) :
    ((conns.map (fun c => [c.fromEventId, c.toEventId])).join).length =
      2 * conns.length := by
  induction conns with
  | nil => rfl
  | cons c cs ihc =>
    simp only [List.map_cons, List.join_cons, List.length_append, List.length_cons,
      List.length_nil, ihc]
    omega

theorem highlightComponent_char (conns : List EventConnection) (h : String) (x : String) :
    x ∈ highlightComponent conns h ↔ Relation.ReflTransGen (nbAdj conns) h x := by
  unfold highlightComponent
  rw [bfsLoop_char conns (4 * conns.length + 2) [h] [h] []
    (fun x hx => hx)
    (fun x hx hnx => absurd hx hnx)
    (fun x hx => Or.inr hx)
    (fun x hx => absurd hx (List.not_mem_nil x))
    ?_ x]
  · constructor
    · rintro ⟨z, hz, hzx⟩
      obtain rfl := List.mem_singleton.mp hz
      exact hzx
    · intro hx
      exact ⟨h, List.mem_singleton.mpr rfl, hx⟩
  · have h1 : unvis conns [h] ≤ (endpointIds conns).card := Finset.card_filter_le _ _
    have h2 : (endpointIds conns).card ≤ 2 * conns.length := by
      unfold endpointIds
      calc ((conns.map (fun c => [c.fromEventId, c.toEventId])).join).toFinset.card
          ≤ ((conns.map (fun c => [c.fromEventId, c.toEventId])).join).length :=
            List.toFinset_card_le _
        _ = 2 * conns.length := join_endpoints_length conns
    simp only [List.length_singleton]
    omega

theorem foldl_const {α β : Type} (f : β → α → β) :
    ∀ (l : List α) (b : β), (∀ (b2 : β) (x : α), x ∈ l → f b2 x = b2) →
      l.foldl f b = b := by
  intro l
  induction l with
  | nil => intro b _; rfl
  | cons a rest ih =>
    intro b hid
    rw [List.foldl_cons, hid b a (List.mem_cons_self _ _)]
    exact ih b (fun b2 x hx => hid b2 x (List.mem_cons_of_mem _ hx))

theorem highlightedEvents_of_ne (conns : List EventConnection) (h : String)
    (hne : ¬h = "") : highlightedEvents conns (some h) = highlightComponent conns h := by
  unfold highlightedEvents hoverInfo
  dsimp only
  rw [if_neg (by simp [hne])]

theorem highlightedEvents_empty (conns : List EventConnection) :
    highlightedEvents conns (some "") = [] := rfl

theorem isolated_component {conns : List EventConnection} {a : String}
    (hiso : ∀ c ∈ conns, ¬c.fromEventId = a ∧ ¬c.toEventId = a) :
    highlightComponent conns a = [a] := by
  have hstepid : ∀ (vq : List String × List String) (c : EventConnection), c ∈ conns →
      scanStep a vq c = vq := by
    intro vq c hc
    obtain ⟨h1, h2⟩ := hiso c hc
    have hnb : nbOf c a = none := by
      unfold nbOf
      rw [if_neg (by simp [h1]), if_neg (by simp [h2])]
    unfold scanStep
    rw [hnb]
  have hscan : neighborScan conns a ([a], []) = ([a], []) := by
    rw [neighborScan_eq]
    exact foldl_const _ conns ([a], []) hstepid
  show bfsLoop conns (4 * conns.length + 1 + 1) [a] [a] [] = [a]
  have h1 : bfsLoop conns (4 * conns.length + 1 + 1) [a] [a] [] =
      bfsLoop conns (4 * conns.length + 1) (neighborScan conns a ([a], [])).2
        (neighborScan conns a ([a], [])).1
        (if List.contains [] a then [] else [] ++ [a]) := rfl
  rw [h1, hscan]
  rfl

theorem isolated_connections {conns : List EventConnection} {a : String}
    (hiso : ∀ c ∈ conns, ¬c.fromEventId = a ∧ ¬c.toEventId = a) :
    componentConnections conns [a] = [] := by
  unfold componentConnections
  rw [List.filter_eq_nil_iff]
  intro c hc
  obtain ⟨h1, h2⟩ := hiso c hc
  simp only [Bool.and_eq_true]
  rintro ⟨hc1, _⟩
  have : c.fromEventId ∈ [a] := by simpa using hc1
  exact h1 (List.mem_singleton.mp this)

/-- C6: hovered-component membership is symmetric — `a` lies in the
component computed when `b` is hovered exactly when `b` lies in the
component computed when `a` is hovered — and hovering an event with no
incident connections yields the component containing exactly that event
and an empty highlighted-connection map. -/
theorem c6_hover_symmetry (conns : List EventConnection) (a b : String) :
    (a ∈ highlightedEvents conns (some b) ↔ b ∈ highlightedEvents conns (some a)) ∧
    ((∀ c ∈ conns, ¬c.fromEventId = a ∧ ¬c.toEventId = a) → ¬a = "" →
      highlightedEvents conns (some a) = [a] ∧
      highlightedConnectionInfo conns (some a) = []) := by
  constructor
  · by_cases ha : a = ""
    · subst ha
      by_cases hb : b = ""
      · subst hb
        exact Iff.rfl
      · rw [highlightedEvents_of_ne conns b hb, highlightedEvents_empty]
        constructor
        · intro h1
          exact absurd rfl (rtg_ne ((highlightComponent_char conns b "").mp h1) hb)
        · intro h1
          simp at h1
    · by_cases hb : b = ""
      · subst hb
        rw [highlightedEvents_of_ne conns a ha, highlightedEvents_empty]
        constructor
        · intro h1
          simp at h1
        · intro h1
          exact absurd rfl (rtg_ne ((highlightComponent_char conns a "").mp h1) ha)
      · rw [highlightedEvents_of_ne conns a ha, highlightedEvents_of_ne conns b hb,
          highlightComponent_char, highlightComponent_char]
        exact ⟨fun h1 => rtg_symm h1 hb, fun h1 => rtg_symm h1 ha⟩
  · intro hiso hne
    have hcomp := isolated_component hiso
    refine ⟨by rw [highlightedEvents_of_ne conns a hne, hcomp], ?_⟩
    have hinfo : highlightedConnectionInfo conns (some a) =
        ((componentConnections conns (highlightComponent conns a)).foldl
          colorStep ([], [])).2 := by
      unfold highlightedConnectionInfo hoverInfo
      dsimp only
      rw [if_neg (by simp [hne])]
    rw [hinfo, hcomp, isolated_connections hiso]
    rfl

/-- Witness for C6: with the single connection `P — Q`, membership is
symmetric between `P` and `Q`, and hovering the isolated event `Z`
yields exactly `[Z]` with no colored connections. -/
theorem c6_hover_symmetry_witness :
    ("P" ∈ highlightedEvents c6Conns (some "Q") ↔
      "Q" ∈ highlightedEvents c6Conns (some "P")) ∧
    highlightedEvents c6Conns (some "Z") = ["Z"] ∧
    highlightedConnectionInfo c6Conns (some "Z") = [] := by
  have h2 := (c6_hover_symmetry c6Conns "Z" "Z").2 (by decide) (by decide)
  exact ⟨(c6_hover_symmetry c6Conns "P" "Q").1, h2.1, h2.2⟩

/-! Greedy edge coloring (C4): properties of `smallestFree`, `setAdd`
and the per-event used-color sets. -/

theorem sff_below : ∀ (fuel g : ℕ) (used : List ℕ) (j : ℕ),
    g ≤ j → j < smallestFreeFrom used g fuel → j ∈ used := by
  intro fuel
  induction fuel with
  | zero =>
    intro g used j hgj hj
    simp only [smallestFreeFrom] at hj
    omega
  | succ fuel ih =>
    intro g used j hgj hj
    simp only [smallestFreeFrom] at hj
    by_cases hc : (used.contains g) = true
    · rw [if_pos hc] at hj
      rcases Nat.eq_or_lt_of_le hgj with rfl | hlt
      · simpa using hc
      · exact ih (g + 1) used j hlt hj
    · rw [if_neg hc] at hj
      omega

theorem filter_ge_mono (g : ℕ) :
    ∀ l : List ℕ, (l.filter (fun x => decide (g + 1 ≤ x))).length ≤
      (l.filter (fun x => decide (g ≤ x))).length := by
  intro l
  induction l with
  | nil => simp
  | cons a rest ih =>
    simp only [List.filter_cons]
    by_cases h1 : g + 1 ≤ a
    · rw [if_pos (by simpa using h1), if_pos (by simp; omega)]
      simpa using ih
    · by_cases h2 : g ≤ a
      · rw [if_neg (by simpa using h1), if_pos (by simpa using h2)]
        simp only [List.length_cons]
        omega
      · rw [if_neg (by simpa using h1), if_neg (by simpa using h2)]
        exact ih

theorem filter_ge_succ_lt (g : ℕ) :
    ∀ used : List ℕ, g ∈ used →
      (used.filter (fun x => decide (g + 1 ≤ x))).length <
        (used.filter (fun x => decide (g ≤ x))).length := by
  intro used
  induction used with
  | nil => intro hg; simp at hg
  | cons a rest ih =>
    intro hg
    simp only [List.filter_cons]
    rcases List.mem_cons.mp hg with rfl | hg2
    · rw [if_neg (by simp), if_pos (by simp)]
      simp only [List.length_cons]
      have := filter_ge_mono g rest
      omega
    · by_cases h1 : g + 1 ≤ a
      · rw [if_pos (by simpa using h1), if_pos (by simp; omega)]
        simp only [List.length_cons]
        exact Nat.succ_lt_succ (ih hg2)
      · by_cases h2 : g ≤ a
        · rw [if_neg (by simpa using h1), if_pos (by simpa using h2)]
          simp only [List.length_cons]
          have := ih hg2
          omega
        · rw [if_neg (by simpa using h1), if_neg (by simpa using h2)]
          exact ih hg2

theorem sff_not_mem : ∀ (fuel g : ℕ) (used : List ℕ),
    (used.filter (fun x => decide (g ≤ x))).length < fuel →
    smallestFreeFrom used g fuel ∉ used := by
  intro fuel
  induction fuel with
  | zero =>
    intro g used h
    exact absurd h (Nat.not_lt_zero _)
  | succ fuel ih =>
    intro g used h
    simp only [smallestFreeFrom]
    by_cases hc : (used.contains g) = true
    · rw [if_pos hc]
      apply ih
      have hmem : g ∈ used := by simpa using hc
      have := filter_ge_succ_lt g used hmem
      omega
    · rw [if_neg hc]
      simpa using hc

theorem smallestFree_not_mem (used : List ℕ) : smallestFree used ∉ used := by
  unfold smallestFree
  apply sff_not_mem
  have : (used.filter (fun x => decide (0 ≤ x))).length ≤ used.length :=
    List.length_filter_le _ _
  omega

theorem smallestFree_le (used : List ℕ) : smallestFree used ≤ used.length := by
  by_contra hgt
  push_neg at hgt
  unfold smallestFree at hgt
  have hsub : ∀ j ≤ used.length, j ∈ used := by
    intro j hj
    exact sff_below (used.length + 1) 0 used j (Nat.zero_le j) (by omega)
  have hrange : (List.range (used.length + 1)).toFinset ⊆ used.toFinset := by
    intro x hx
    rw [List.mem_toFinset, List.mem_range] at hx
    rw [List.mem_toFinset]
    exact hsub x (by omega)
  have h1 : (List.range (used.length + 1)).toFinset.card = used.length + 1 := by
    rw [List.toFinset_card_of_nodup (List.nodup_range _), List.length_range]
  have h2 : used.toFinset.card ≤ used.length := List.toFinset_card_le _
  have := Finset.card_le_card hrange
  omega

theorem mem_setAdd (l : List ℕ) (x y : ℕ) : y ∈ setAdd l x ↔ y ∈ l ∨ y = x := by
  unfold setAdd
  split_ifs with h
  · have hx : x ∈ l := by simpa using h
    constructor
    · exact Or.inl
    · rintro (hy | rfl)
      · exact hy
      · exact hx
  · rw [List.mem_append, List.mem_singleton]

theorem setAdd_nodup {l : List ℕ} (hl : l.Nodup) (x : ℕ) : (setAdd l x).Nodup := by
  unfold setAdd
  split_ifs with h
  · exact hl
  · rw [List.nodup_append]
    refine ⟨hl, List.nodup_singleton x, ?_⟩
    intro a ha hax
    obtain rfl := List.mem_singleton.mp hax
    exact (by simpa using h : a ∉ l) ha

theorem usageOf_ensure (m : List (String × List ℕ)) (k ev : String) :
    usageOf (if (jsMapGet m k).isSome then m else jsMapSet m k []) ev = usageOf m ev := by
  split_ifs with h
  · rfl
  · by_cases he : ev = k
    · subst he
      unfold usageOf
      rw [jsMapGet_set_self]
      have hnone : jsMapGet m ev = none := by
        cases hx : jsMapGet m ev with
        | none => rfl
        | some v => rw [hx] at h; simp at h
      rw [hnone]
      rfl
    · unfold usageOf
      rw [jsMapGet_set_ne _ _ _ _ he]

theorem usageOf_set (m : List (String × List ℕ)) (k : String) (v : List ℕ) (ev : String) :
    usageOf (jsMapSet m k v) ev = if ev = k then v else usageOf m ev := by
  by_cases he : ev = k
  · subst he
    unfold usageOf
    rw [jsMapGet_set_self, if_pos rfl]
    rfl
  · unfold usageOf
    rw [jsMapGet_set_ne _ _ _ _ he, if_neg he]

/-- A duplicate-free list included in the image of another list is no
longer than it. -/
theorem nodup_subset_map_length {l : List ℕ} (hl : l.Nodup)
    {s : List (EventConnection × ℕ)} (hsub : ∀ x ∈ l, x ∈ s.map Prod.snd) :
    l.length ≤ s.length := by
  have h1 : l.toFinset.card = l.length := List.toFinset_card_of_nodup hl
  have h2 : l.toFinset ⊆ (s.map Prod.snd).toFinset := by
    intro x hx
    rw [List.mem_toFinset] at hx
    rw [List.mem_toFinset]
    exact hsub x hx
  have h3 := Finset.card_le_card h2
  have h4 : (s.map Prod.snd).toFinset.card ≤ (s.map Prod.snd).length :=
    List.toFinset_card_le _
  rw [List.length_map] at h4
  omega

theorem sharesEndpoint_symm {c1 c2 : EventConnection} (h : sharesEndpoint c1 c2) :
    sharesEndpoint c2 c1 := by
  rcases h with h | h | h | h
  · exact Or.inl h.symm
  · exact Or.inr (Or.inr (Or.inl h.symm))
  · exact Or.inr (Or.inl h.symm)
  · exact Or.inr (Or.inr (Or.inr h.symm))

theorem colorCore_snd (m1 : List (String × List ℕ)) (out : List (String × String × ℕ))
    (c : EventConnection) : (colorCore m1 out c).2 =
    jsMapSet out c.id (HIGHLIGHT_COLORS.getD (finFor m1 c) "", finFor m1 c) := rfl

theorem colorCore_fst (m1 : List (String × List ℕ)) (out : List (String × String × ℕ))
    (c : EventConnection) : (colorCore m1 out c).1 =
    jsMapSet (jsMapSet m1 c.fromEventId (setAdd (usageOf m1 c.fromEventId) (finFor m1 c)))
      c.toEventId
      (setAdd (usageOf (jsMapSet m1 c.fromEventId
        (setAdd (usageOf m1 c.fromEventId) (finFor m1 c))) c.toEventId) (finFor m1 c)) := rfl

theorem finFor_lt (m1 : List (String × List ℕ)) (c : EventConnection) : finFor m1 c < 7 := by
  unfold finFor
  have h7 : HIGHLIGHT_COLORS.length = 7 := rfl
  rw [h7]
  exact Nat.mod_lt _ (by norm_num)

theorem finFor_free (m1 : List (String × List ℕ)) (c : EventConnection)
    (hlen : (usageOf m1 c.fromEventId ++ usageOf m1 c.toEventId).length ≤ 6) :
    finFor m1 c ∉ (usageOf m1 c.fromEventId ++ usageOf m1 c.toEventId) := by
  have hle := smallestFree_le (usageOf m1 c.fromEventId ++ usageOf m1 c.toEventId)
  have h1 : finFor m1 c =
      smallestFree (usageOf m1 c.fromEventId ++ usageOf m1 c.toEventId) := by
    unfold finFor
    have h7 : HIGHLIGHT_COLORS.length = 7 := rfl
    rw [h7]
    exact Nat.mod_eq_of_lt (by omega)
  rw [h1]
  exact smallestFree_not_mem _

theorem colorCore_usage (m1 : List (String × List ℕ)) (out : List (String × String × ℕ))
    (c : EventConnection) (ev : String) (f : ℕ) :
    f ∈ usageOf (colorCore m1 out c).1 ev ↔
      f ∈ usageOf m1 ev ∨ (f = finFor m1 c ∧ incidentB c ev = true) := by
  rw [colorCore_fst]
  by_cases hto : ev = c.toEventId
  · rw [usageOf_set, if_pos hto, mem_setAdd, usageOf_set]
    have hinc : incidentB c ev = true := by
      unfold incidentB
      rw [hto]
      simp
    rw [hinc]
    by_cases hft : c.toEventId = c.fromEventId
    · rw [if_pos hft, mem_setAdd, hto, hft]
      simp only [eq_self_iff_true, and_true]
      tauto
    · rw [if_neg hft, hto]
      simp only [eq_self_iff_true, and_true]
  · rw [usageOf_set, if_neg hto]
    by_cases hfr : ev = c.fromEventId
    · rw [usageOf_set, if_pos hfr, mem_setAdd]
      have hinc : incidentB c ev = true := by
        unfold incidentB
        rw [hfr]
        simp
      rw [hinc, hfr]
      simp only [eq_self_iff_true, and_true]
    · rw [usageOf_set, if_neg hfr]
      have hinc : incidentB c ev = false := by
        unfold incidentB
        simp only [Bool.or_eq_false_iff, beq_eq_false_iff_ne]
        exact ⟨fun h => hfr h.symm, fun h => hto h.symm⟩
      rw [hinc]
      simp

theorem colorCore_nodup (m1 : List (String × List ℕ)) (out : List (String × String × ℕ))
    (c : EventConnection) (hN : ∀ ev, (usageOf m1 ev).Nodup) :
    ∀ ev, (usageOf (colorCore m1 out c).1 ev).Nodup := by
  intro ev
  rw [colorCore_fst, usageOf_set]
  split_ifs with h1
  · apply setAdd_nodup
    rw [usageOf_set]
    split_ifs with h2
    · exact setAdd_nodup (hN _) _
    · exact hN _
  · rw [usageOf_set]
    split_ifs with h2
    · exact setAdd_nodup (hN _) _
    · exact hN _

/-- The greedy edge-coloring fold keeps colors of connections that share
an endpoint distinct, as long as every event is incident to at most four
of the connections being colored (so at most six colors are excluded at
any step and the modulo never wraps). The list `P` records the already
colored connections with their color indices. -/
theorem color_fold_inv :
    ∀ (r : List EventConnection) (P : List (EventConnection × ℕ))
      (m : List (String × List ℕ)) (out : List (String × String × ℕ)),
      (P.map (fun p => p.1.id) ++ r.map (fun c => c.id)).Nodup →
      (∀ ev, (usageOf m ev).Nodup) →
      (∀ ev f, f ∈ usageOf m ev ↔ ∃ p ∈ P, p.2 = f ∧ incidentB p.1 ev = true) →
      (∀ p ∈ P, jsMapGet out p.1.id = some (HIGHLIGHT_COLORS.getD p.2 "", p.2)) →
      (∀ p ∈ P, p.2 < 7) →
      (∀ p1 ∈ P, ∀ p2 ∈ P, ¬p1.1.id = p2.1.id →
        sharesEndpoint p1.1 p2.1 → ¬p1.2 = p2.2) →
      (∀ ev, (P.filter (fun p => incidentB p.1 ev)).length +
        (r.filter (fun c => incidentB c ev)).length ≤ 4) →
      ∃ P2 : List (EventConnection × ℕ),
        P2.map Prod.fst = r ∧
        (∀ p ∈ P ++ P2, jsMapGet (r.foldl colorStep (m, out)).2 p.1.id =
          some (HIGHLIGHT_COLORS.getD p.2 "", p.2)) ∧
        (∀ p ∈ P ++ P2, p.2 < 7) ∧
        (∀ p1 ∈ P ++ P2, ∀ p2 ∈ P ++ P2, ¬p1.1.id = p2.1.id →
          sharesEndpoint p1.1 p2.1 → ¬p1.2 = p2.2) := by
  intro r
  induction r with
  | nil =>
    intro P m out hnd hN hU hO hB hD hdeg
    exact ⟨[], rfl, by simpa using hO, by simpa using hB, by simpa using hD⟩
  | cons c r2 ih =>
    intro P m out hnd hN hU hO hB hD hdeg
    have husage : ∀ ev, usageOf (if (jsMapGet (if (jsMapGet m c.fromEventId).isSome then m
        else jsMapSet m c.fromEventId []) c.toEventId).isSome
        then (if (jsMapGet m c.fromEventId).isSome then m else jsMapSet m c.fromEventId [])
        else jsMapSet (if (jsMapGet m c.fromEventId).isSome then m
          else jsMapSet m c.fromEventId []) c.toEventId []) ev = usageOf m ev := by
      intro ev
      rw [usageOf_ensure, usageOf_ensure]
    have hcs : colorStep (m, out) c =
        colorCore (if (jsMapGet (if (jsMapGet m c.fromEventId).isSome then m
          else jsMapSet m c.fromEventId []) c.toEventId).isSome
          then (if (jsMapGet m c.fromEventId).isSome then m else jsMapSet m c.fromEventId [])
          else jsMapSet (if (jsMapGet m c.fromEventId).isSome then m
            else jsMapSet m c.fromEventId []) c.toEventId []) out c := rfl
    obtain ⟨m1, hm1⟩ : ∃ m1, (if (jsMapGet (if (jsMapGet m c.fromEventId).isSome then m
        else jsMapSet m c.fromEventId []) c.toEventId).isSome
        then (if (jsMapGet m c.fromEventId).isSome then m else jsMapSet m c.fromEventId [])
        else jsMapSet (if (jsMapGet m c.fromEventId).isSome then m
          else jsMapSet m c.fromEventId []) c.toEventId []) = m1 := ⟨_, rfl⟩
    rw [hm1] at husage hcs
    have hidc : ∀ p ∈ P, ¬p.1.id = c.id := by
      intro p hp heq
      have hdisj := List.disjoint_of_nodup_append hnd
      exact hdisj (List.mem_map.mpr ⟨p, hp, rfl⟩)
        (heq ▸ List.mem_cons_self _ _ : p.1.id ∈ (c :: r2).map (fun x => x.id))
    have hdegP : ∀ ev, incidentB c ev = true →
        (P.filter (fun p => incidentB p.1 ev)).length ≤ 3 := by
      intro ev hev
      have h := hdeg ev
      rw [List.filter_cons] at h
      rw [if_pos hev] at h
      simp only [List.length_cons] at h
      omega
    have hulen : ∀ ev, incidentB c ev = true → (usageOf m ev).length ≤ 3 := by
      intro ev hev
      refine le_trans (nodup_subset_map_length (hN ev) ?_) (hdegP ev hev)
      intro x hx
      obtain ⟨p, hp, hpx, hpev⟩ := (hU ev x).mp hx
      exact List.mem_map.mpr ⟨p, List.mem_filter.mpr ⟨hp, hpev⟩, hpx⟩
    have husedlen : (usageOf m1 c.fromEventId ++ usageOf m1 c.toEventId).length ≤ 6 := by
      rw [List.length_append, husage, husage]
      have h1 := hulen c.fromEventId (by unfold incidentB; simp)
      have h2 := hulen c.toEventId (by unfold incidentB; simp)
      omega
    have hFnot := finFor_free m1 c husedlen
    have hnewdiff : ∀ p ∈ P, sharesEndpoint c p.1 → ¬p.2 = finFor m1 c := by
      intro p hp hsh heq
      obtain ⟨ev, hev1, hev2⟩ : ∃ ev, incidentB c ev = true ∧ incidentB p.1 ev = true := by
        rcases hsh with h | h | h | h
        · exact ⟨c.fromEventId, by unfold incidentB; simp,
            by unfold incidentB; rw [h]; simp⟩
        · exact ⟨c.fromEventId, by unfold incidentB; simp,
            by unfold incidentB; rw [h]; simp⟩
        · exact ⟨c.toEventId, by unfold incidentB; simp,
            by unfold incidentB; rw [h]; simp⟩
        · exact ⟨c.toEventId, by unfold incidentB; simp,
            by unfold incidentB; rw [h]; simp⟩
      have hmem : p.2 ∈ usageOf m ev := (hU ev p.2).mpr ⟨p, hp, rfl, hev2⟩
      have hin : p.2 ∈ usageOf m1 c.fromEventId ++ usageOf m1 c.toEventId := by
        rw [List.mem_append, husage, husage]
        unfold incidentB at hev1
        simp only [Bool.or_eq_true, beq_iff_eq] at hev1
        rcases hev1 with h | h
        · left
          rw [h]
          exact hmem
        · right
          rw [h]
          exact hmem
      rw [heq] at hin
      exact hFnot hin
    have hnd2 : ((P ++ [(c, finFor m1 c)]).map (fun p => p.1.id) ++
        r2.map (fun x => x.id)).Nodup := by
      simp only [List.map_append, List.map_cons, List.map_nil]
      rw [← List.append_cons]
      simpa using hnd
    have hN2 : ∀ ev, (usageOf (colorCore m1 out c).1 ev).Nodup :=
      colorCore_nodup m1 out c (fun ev => (husage ev).symm ▸ hN ev)
    have hU2 : ∀ ev f, f ∈ usageOf (colorCore m1 out c).1 ev ↔
        ∃ p ∈ P ++ [(c, finFor m1 c)], p.2 = f ∧ incidentB p.1 ev = true := by
      intro ev f
      rw [colorCore_usage, husage]
      constructor
      · rintro (hf | ⟨rfl, hinc⟩)
        · obtain ⟨p, hp, hpf, hpe⟩ := (hU ev f).mp hf
          exact ⟨p, List.mem_append_left _ hp, hpf, hpe⟩
        · exact ⟨(c, finFor m1 c), List.mem_append_right _ (List.mem_singleton.mpr rfl),
            rfl, hinc⟩
      · rintro ⟨p, hp, hpf, hpe⟩
        rcases List.mem_append.mp hp with hp | hp
        · exact Or.inl ((hU ev f).mpr ⟨p, hp, hpf, hpe⟩)
        · obtain rfl := List.mem_singleton.mp hp
          exact Or.inr ⟨hpf.symm, hpe⟩
    have hO2 : ∀ p ∈ P ++ [(c, finFor m1 c)],
        jsMapGet (colorCore m1 out c).2 p.1.id =
          some (HIGHLIGHT_COLORS.getD p.2 "", p.2) := by
      intro p hp
      rw [colorCore_snd]
      rcases List.mem_append.mp hp with hp | hp
      · rw [jsMapGet_set_ne _ _ _ _ (hidc p hp)]
        exact hO p hp
      · obtain rfl := List.mem_singleton.mp hp
        rw [jsMapGet_set_self]
    have hB2 : ∀ p ∈ P ++ [(c, finFor m1 c)], p.2 < 7 := by
      intro p hp
      rcases List.mem_append.mp hp with hp | hp
      · exact hB p hp
      · obtain rfl := List.mem_singleton.mp hp
        exact finFor_lt m1 c
    have hD2 : ∀ p1 ∈ P ++ [(c, finFor m1 c)], ∀ p2 ∈ P ++ [(c, finFor m1 c)],
        ¬p1.1.id = p2.1.id → sharesEndpoint p1.1 p2.1 → ¬p1.2 = p2.2 := by
      intro p1 hp1 p2 hp2 hid hsh
      rcases List.mem_append.mp hp1 with hp1 | hp1
      · rcases List.mem_append.mp hp2 with hp2 | hp2
        · exact hD p1 hp1 p2 hp2 hid hsh
        · obtain rfl := List.mem_singleton.mp hp2
          exact hnewdiff p1 hp1 (sharesEndpoint_symm hsh)
      · obtain rfl := List.mem_singleton.mp hp1
        rcases List.mem_append.mp hp2 with hp2 | hp2
        · intro heq
          exact hnewdiff p2 hp2 hsh heq.symm
        · obtain rfl := List.mem_singleton.mp hp2
          exact absurd rfl hid
    have hdeg2 : ∀ ev, ((P ++ [(c, finFor m1 c)]).filter
        (fun p => incidentB p.1 ev)).length +
        (r2.filter (fun x => incidentB x ev)).length ≤ 4 := by
      intro ev
      have h := hdeg ev
      rw [List.filter_cons] at h
      rw [List.filter_append, List.length_append]
      by_cases hev : incidentB c ev = true
      · rw [if_pos hev] at h
        simp only [List.length_cons] at h
        have hone : (([(c, finFor m1 c)]).filter
            (fun p => incidentB p.1 ev)).length = 1 := by
          simp [List.filter_cons, hev]
        rw [hone]
        omega
      · rw [if_neg hev] at h
        have hzero : (([(c, finFor m1 c)]).filter
            (fun p => incidentB p.1 ev)).length = 0 := by
          simp [List.filter_cons, hev]
        rw [hzero]
        omega
    obtain ⟨P2, hmap, hOf, hBf, hDf⟩ := ih (P ++ [(c, finFor m1 c)])
      (colorCore m1 out c).1 (colorCore m1 out c).2 hnd2 hN2 hU2 hO2 hB2 hD2 hdeg2
    have hfold : (c :: r2).foldl colorStep (m, out) =
        r2.foldl colorStep (colorCore m1 out c) := by
      rw [List.foldl_cons, hcs]
    refine ⟨(c, finFor m1 c) :: P2, by simpa using hmap, ?_, ?_, ?_⟩
    · intro p hp
      rw [hfold]
      rw [List.append_cons] at hp
      exact hOf p hp
    · intro p hp
      rw [List.append_cons] at hp
      exact hBf p hp
    · intro p1 hp1 p2 hp2
      rw [List.append_cons] at hp1 hp2
      exact hDf p1 hp1 p2 hp2

theorem palette_getD_inj : ∀ i < 7, ∀ j < 7, ¬i = j →
    ¬HIGHLIGHT_COLORS.getD i "" = HIGHLIGHT_COLORS.getD j "" := by decide

/-- Counterexample to C4 as stated: with eight connections all incident
to the hovered event `H`, the eighth connection wraps around the
seven-color palette (its smallest free index is 7, and 7 mod 7 = 0) and
receives the same color, index 0, as the first connection, although the
two share the endpoint `H` and are distinct. -/
theorem c4_counterexample :
    (⟨"e1", "H", "L1", ""⟩ : EventConnection) ∈ c4Conns ∧
    (⟨"e8", "H", "L8", ""⟩ : EventConnection) ∈ c4Conns ∧
    ¬("e1" : String) = "e8" ∧
    sharesEndpoint ⟨"e1", "H", "L1", ""⟩ ⟨"e8", "H", "L8", ""⟩ ∧
    jsMapGet (highlightedConnectionInfo c4Conns (some "H")) "e1" = some ("#3b82f6", 0) ∧
    jsMapGet (highlightedConnectionInfo c4Conns (some "H")) "e8" = some ("#3b82f6", 0) := by
  refine ⟨by decide, by decide, by decide, Or.inl rfl, by decide, by decide⟩

/-- C4 (amended): whenever a hover is active, for every pair of distinct
connections in the highlighted component that share an endpoint event,
the greedy colorer assigns different palette indices and different
colors, provided connection ids are unique and every event is incident
to at most 4 connections of the component (so at most six indices are
excluded at any step and the modulo-7 wrap of the original claim's
counterexample cannot occur). -/
theorem c4_shared_endpoint_colors (conns : List EventConnection) (h : String)
    (hnd : ((componentConnections conns (highlightComponent conns h)).map
      (fun c => c.id)).Nodup)
    (hdeg : ∀ ev : String, ((componentConnections conns (highlightComponent conns h)).filter
      (fun c => incidentB c ev)).length ≤ 4)
    (hne : ¬h = "")
    (c1 c2 : EventConnection)
    (hc1 : c1 ∈ componentConnections conns (highlightComponent conns h))
    (hc2 : c2 ∈ componentConnections conns (highlightComponent conns h))
    (hid : ¬c1.id = c2.id)
    (hsh : sharesEndpoint c1 c2) :
    ∃ q1 q2 : String × ℕ,
      jsMapGet (highlightedConnectionInfo conns (some h)) c1.id = some q1 ∧
      jsMapGet (highlightedConnectionInfo conns (some h)) c2.id = some q2 ∧
      ¬q1.2 = q2.2 ∧ q1.2 < 7 ∧ q2.2 < 7 ∧
      q1.1 = HIGHLIGHT_COLORS.getD q1.2 "" ∧ q2.1 = HIGHLIGHT_COLORS.getD q2.2 "" ∧
      ¬q1.1 = q2.1 := by
  have hinfo : highlightedConnectionInfo conns (some h) =
      ((componentConnections conns (highlightComponent conns h)).foldl
        colorStep ([], [])).2 := by
    unfold highlightedConnectionInfo hoverInfo
    dsimp only
    rw [if_neg (by simp [hne])]
  obtain ⟨P2, hmap, hO2, hB2, hD2⟩ := color_fold_inv
    (componentConnections conns (highlightComponent conns h)) [] [] []
    (by simpa using hnd)
    (fun ev => List.nodup_nil)
    (by
      intro ev f
      constructor
      · intro hx
        exact absurd hx (List.not_mem_nil f)
      · rintro ⟨p, hp, _⟩
        exact absurd hp (List.not_mem_nil p))
    (by
      intro p hp
      exact absurd hp (List.not_mem_nil p))
    (by
      intro p hp
      exact absurd hp (List.not_mem_nil p))
    (by
      intro p1 hp1
      exact absurd hp1 (List.not_mem_nil p1))
    (by
      intro ev
      simpa using hdeg ev)
  rw [← hmap] at hc1 hc2
  obtain ⟨p1, hp1, hp1e⟩ := List.mem_map.mp hc1
  obtain ⟨p2, hp2, hp2e⟩ := List.mem_map.mp hc2
  have hfins : ¬p1.2 = p2.2 :=
    hD2 p1 (by simpa using hp1) p2 (by simpa using hp2)
      (by rw [hp1e, hp2e]; exact hid) (by rw [hp1e, hp2e]; exact hsh)
  have hb1 : p1.2 < 7 := hB2 p1 (by simpa using hp1)
  have hb2 : p2.2 < 7 := hB2 p2 (by simpa using hp2)
  refine ⟨(HIGHLIGHT_COLORS.getD p1.2 "", p1.2), (HIGHLIGHT_COLORS.getD p2.2 "", p2.2),
    ?_, ?_, hfins, hb1, hb2, rfl, rfl, ?_⟩
  · rw [hinfo, ← hp1e]
    exact hO2 p1 (by simpa using hp1)
  · rw [hinfo, ← hp2e]
    exact hO2 p2 (by simpa using hp2)
  · exact palette_getD_inj p1.2 hb1 p2.2 hb2 hfins

/-- Witness for the amended C4: a hovered star with two connections,
both incident to `H`, stays within the degree bound and the two receive
distinct palette indices and distinct colors. -/
theorem c4_shared_endpoint_colors_witness :
    ∃ q1 q2 : String × ℕ,
      jsMapGet (highlightedConnectionInfo c4WConns (some "H")) "f1" = some q1 ∧
      jsMapGet (highlightedConnectionInfo c4WConns (some "H")) "f2" = some q2 ∧
      ¬q1.2 = q2.2 ∧ q1.2 < 7 ∧ q2.2 < 7 ∧
      q1.1 = HIGHLIGHT_COLORS.getD q1.2 "" ∧ q2.1 = HIGHLIGHT_COLORS.getD q2.2 "" ∧
      ¬q1.1 = q2.1 := by
  refine c4_shared_endpoint_colors c4WConns "H" (by decide) ?_ (by decide)
    ⟨"f1", "H", "A", ""⟩ ⟨"f2", "H", "B", ""⟩ (by decide) (by decide)
    (by decide) (Or.inl rfl)
  intro ev
  exact le_trans (List.length_filter_le _ _) (by decide)

theorem jsMapSet_ne_nil {β : Type} (m : List (String × β)) (k : String) (v : β) :
    jsMapSet m k v ≠ [] := by
  unfold jsMapSet
  split_ifs with h
  · intro h2
    rw [List.map_eq_nil_iff] at h2
    subst h2
    simp at h
  · intro h2
    simp at h2

theorem lanes_ne_nil (inp : EngineInput) (h : inp.storylines ≠ []) :
    laneGeometries inp ≠ [] := by
  unfold laneGeometries laneGeometriesAndY
  have aux : ∀ (l : List Storyline) (acc : List (String × LaneGeo) × ℚ), acc.1 ≠ [] →
      (l.foldl (fun acc s => (jsMapSet acc.1 s.id ⟨acc.2, laneHeightOf inp s.id⟩,
        acc.2 + laneHeightOf inp s.id)) acc).1 ≠ [] := by
    intro l
    induction l with
    | nil =>
      intro acc h0
      exact h0
    | cons a as ih =>
      intro acc h0
      rw [List.foldl_cons]
      exact ih _ (jsMapSet_ne_nil _ _ _)
  cases hs : inp.storylines with
  | nil => exact absurd hs h
  | cons s rest =>
    rw [List.foldl_cons]
    exact aux rest _ (jsMapSet_ne_nil [] s.id (⟨0, laneHeightOf inp s.id⟩ : LaneGeo))

theorem lanes_empty_iff (inp : EngineInput) :
    (laneGeometries inp).isEmpty = true ↔ inp.storylines = [] := by
  constructor
  · intro h
    by_contra hs
    exact lanes_ne_nil inp hs (by simpa [List.isEmpty_iff] using h)
  · intro h
    unfold laneGeometries laneGeometriesAndY
    rw [h]
    rfl

theorem getDropTarget_eq (inp : EngineInput) (todayStr : String) (xPos yPos : ℚ) :
    getDropTarget inp todayStr xPos yPos =
      if (laneGeometries inp).isEmpty then
        match inp.storylines with
        | s :: _ => .ok (some ⟨s.id, todayStr ++ " 00:00:00"⟩)
        | [] => .ok none
      else
        match inp.storylines.find? (laneHit inp yPos) with
        | none => .ok none
        | some ts =>
          match findColumnDate inp xPos (sortedUniqueDays inp) with
          | some d => .ok (some ⟨ts.id, d⟩)
          | none => dropTail inp todayStr ts := rfl

/-- C7 (amended): the drop target's storyline is the one whose lane
band contains the pointer's y — the "first storyline" fallback of the
original claim is dead code unless there are no storylines at all,
since a lane is built for every storyline whether or not it has day
columns (first conjunct). When the x-coordinate is beyond all day
columns: the resolved date is one calendar day after the last column's
date when that date parses as Gregorian and is a valid calendar date;
an invalid Gregorian-looking date raises an exception instead of
resolving; a non-Gregorian date is reused verbatim; and with no day
columns at all the target is "today" at midnight in the containing —
not the first — storyline. -/
theorem c7_drop_target (inp : EngineInput) (todayStr : String) (xPos yPos : ℚ)
    (ts : Storyline)
    (hts : inp.storylines.find? (laneHit inp yPos) = some ts)
    (hcol : findColumnDate inp xPos (sortedUniqueDays inp) = none) :
    ((laneGeometries inp).isEmpty = true ↔ inp.storylines = []) ∧
    (∀ lastKey, (sortedUniqueDays inp).getLast? = some lastKey → ¬lastKey = "" →
      ((∀ y mo d, gregDayNums (dayHeadDate (eventsByDayOf inp) lastKey) = some (y, mo, d) →
        ((∀ iso, addOneDayISO y mo d = some iso →
          getDropTarget inp todayStr xPos yPos = .ok (some ⟨ts.id, iso ++ " 00:00:00"⟩)) ∧
         (addOneDayISO y mo d = none →
          getDropTarget inp todayStr xPos yPos = .error ()))) ∧
       (gregDayNums (dayHeadDate (eventsByDayOf inp) lastKey) = none →
        getDropTarget inp todayStr xPos yPos =
          .ok (some ⟨ts.id, dayHeadDate (eventsByDayOf inp) lastKey⟩)))) ∧
    ((sortedUniqueDays inp).getLast? = none →
      getDropTarget inp todayStr xPos yPos = .ok (some ⟨ts.id, todayStr ++ " 00:00:00"⟩)) ∧
    (∀ lastKey, (sortedUniqueDays inp).getLast? = some lastKey → lastKey = "" →
      getDropTarget inp todayStr xPos yPos = .ok (some ⟨ts.id, todayStr ++ " 00:00:00"⟩)) := by
  have hsl : inp.storylines ≠ [] := by
    intro h0
    rw [h0] at hts
    simp at hts
  have hlanes2 : ¬((laneGeometries inp).isEmpty = true) :=
    fun h0 => hsl ((lanes_empty_iff inp).mp h0)
  have hstep : getDropTarget inp todayStr xPos yPos = dropTail inp todayStr ts := by
    rw [getDropTarget_eq, if_neg hlanes2, hts]
    dsimp only
    rw [hcol]
  refine ⟨lanes_empty_iff inp, ?_, ?_, ?_⟩
  · intro lastKey hlast hne2
    rw [hstep]
    unfold dropTail
    rw [hlast]
    dsimp only
    rw [if_neg (by simpa using hne2)]
    constructor
    · intro y mo d hgreg
      rw [hgreg]
      dsimp only
      constructor
      · intro iso hiso
        rw [hiso]
      · intro hnone
        rw [hnone]
    · intro hgnone
      rw [hgnone]
  · intro hlast
    rw [hstep]
    unfold dropTail
    rw [hlast]
  · intro lastKey hlast hemp
    rw [hstep]
    unfold dropTail
    rw [hlast]
    dsimp only
    rw [if_pos (by simp [hemp])]

/-- Counterexample to C7 as stated: with two storylines and no day
columns, the drop target at a pointer inside the second storyline's
lane is the second storyline (the lane containing the y-coordinate),
not the first storyline as claimed. -/
theorem c7_counterexample :
    c7Inp.storylines.head? = some ⟨"s1", "A", "", "#fff"⟩ ∧
    getDropTarget c7Inp "2024-05-01" 0 100 =
      Except.ok (some ⟨"s2", "2024-05-01 00:00:00"⟩) ∧
    ¬("s2" : String) = "s1" := by
  refine ⟨rfl, by with_unfolding_all rfl, by decide⟩

/-- Witness for the amended C7: one storyline with a single day column
dated 2024-03-10; a pointer beyond the column resolves to the next
calendar day at midnight in the containing lane's storyline. -/
theorem c7_drop_target_witness :
    getDropTarget c7WInp "2099-01-01" 10000 10 =
      Except.ok (some ⟨"s1", "2024-03-11 00:00:00"⟩) := by
  have h := c7_drop_target c7WInp "2099-01-01" 10000 10 ⟨"s1", "S", "", "#fff"⟩
    (by with_unfolding_all decide) (by with_unfolding_all decide)
  have h2 := h.2.1 "2024-03-10" (by with_unfolding_all decide) (by decide)
  have h3 := (h2.1 2024 3 10 (by with_unfolding_all decide)).1 "2024-03-11"
    (by with_unfolding_all decide)
  exact h3


end NovelTimeline
